import Mathlib

/-!
Verification development for the movie-upload Telegram bot (src/bot.py).

The development shallowly embeds the two cores the specification covers:
the filename normalizer (clean_filename, bot.py lines 101-132) and the
upload / delete session state machines (add_movie, check_and_save_movie,
name_decision_handler, text_handler, delete_by_number, list_movies).

Strings are processed as List Char.  Each Python regex of clean_filename is
transliterated as a dedicated recursive function whose semantics follows the
regex (ordered alternation, lazy and greedy repetition, the (\W|$) follower)
character by character; the doc comment of every definition names the source
line it embeds.

Unicode caveat: the Python re module classifies non-ASCII characters for
the word class (used by the leading-strip regex on line 107, which runs
before the non-ASCII strip of line 110).  The classification of non-ASCII
characters as word characters is therefore taken as a parameter
(uw : Char → Bool) that gives the Python word-class status of a character
above 0x7F; every theorem either quantifies over this parameter or applies
the pipeline to ASCII-only inputs, on which the parameter is irrelevant
(theorem clean_filenameL_uw_irrelevant below).  All classes are exact for
the ASCII range.
-/

namespace TGBot

/-- Python re word class for ASCII characters: [A-Za-z0-9_]. -/
def isAsciiWord (c : Char) : Bool :=
  c.isAlpha || c.isDigit || c = '_'

/-- Python re word class (\w): exact on ASCII, given by the parameter uw
    on non-ASCII characters. -/
def isPyWord (uw : Char → Bool) (c : Char) : Bool :=
  if c.val ≤ 127 then isAsciiWord c else uw c

/-- The character class of the leading-strip regex on line 107 of bot.py,
    [@\W_] : the at sign, every non-word character, and the underscore. -/
def inLeadClass (uw : Char → Bool) (c : Char) : Bool :=
  c = '@' || c = '_' || !(isPyWord uw c)

/-- Python re whitespace class \s restricted to ASCII: space, the
    controls 0x09-0x0d, and the separator controls 0x1c-0x1f.  On ASCII
    this class coincides with what str.isspace accepts, so the same class
    serves the str.strip() calls. -/
def isReWs (c : Char) : Bool :=
  c = ' ' || (9 ≤ c.val && c.val ≤ 13) || (28 ≤ c.val && c.val ≤ 31)

/-- The class stripped by the Python str.strip() method restricted to
    ASCII; on ASCII it equals the regex class \s. -/
def isPyStripWs (c : Char) : Bool := isReWs c

/-- The class of the run-collapse regex on line 113 of bot.py, [_\s]. -/
def isWsU (c : Char) : Bool :=
  isReWs c || c = '_'

/-- Step 1, line 104: re.sub of the pattern matching a literal square
    bracket, a lazy run of dot-class characters (any character except
    newline), and a closing square bracket, replaced by the empty string.
    The scan keeps an open candidate bracket and the (reversed) characters
    read since it: a closing bracket discards the buffered region, a
    newline aborts the candidate (the dot class cannot cross it) and the
    buffered text is emitted verbatim, and a candidate still open at the
    end of the input is likewise emitted verbatim. -/
def rbGo : Option (List Char) → List Char → List Char
  | none, [] => []
  | none, c :: cs => if c = '[' then rbGo (some []) cs else c :: rbGo none cs
  | some buf, [] => '[' :: buf.reverse
  | some buf, c :: cs =>
    if c = ']' then rbGo none cs
    else if c = Char.ofNat 10 then '[' :: buf.reverse ++ c :: rbGo none cs
    else rbGo (some (c :: buf)) cs

/-- Step 1 of clean_filename (line 104): strip bracketed groups. -/
def removeBrackets (l : List Char) : List Char := rbGo none l

/-- Step 2 of clean_filename (line 107): re.sub of an anchored pattern, so
    exactly the leading run of [@\W_] characters is removed. -/
def stripLead (uw : Char → Bool) (l : List Char) : List Char :=
  l.dropWhile (inLeadClass uw)

/-- Step 3 of clean_filename (line 110): remove every non-ASCII character. -/
def stripNonAscii (l : List Char) : List Char :=
  l.filter (fun c => c.val ≤ 127)

/-- Run-collapsing scan shared by steps 4 (class [_\s]) and the final
    whitespace collapse (class \s): every maximal run of class characters
    becomes a single space.  The Boolean records whether the scan stands
    inside a run. -/
def cwGo (p : Char → Bool) : Bool → List Char → List Char
  | _, [] => []
  | inRun, c :: cs =>
    if p c then
      if inRun then cwGo p true cs else ' ' :: cwGo p true cs
    else c :: cwGo p false cs

/-- Line 113: re.sub collapsing every [_\s] run to one space. -/
def collapseWsU (l : List Char) : List Char := cwGo isWsU false l

/-- Line 129: re.sub collapsing every \s run to one space. -/
def collapseWs (l : List Char) : List Char := cwGo isReWs false l

/-- Shared shape of the Python str.strip family: drop the leading and the
    trailing run of class characters. -/
def stripEnds (p : Char → Bool) (l : List Char) : List Char :=
  ((l.dropWhile p).reverse.dropWhile p).reverse

/-- Python str.strip(): drop the leading and trailing runs of whitespace
    (in the str.isspace sense). -/
def stripWsBoth (l : List Char) : List Char := stripEnds isPyStripWs l

/-- The separator characters of the two str.strip(" -._") calls on
    lines 123 and 132. -/
def isSep (c : Char) : Bool :=
  c = ' ' || c = '-' || c = '.' || c = '_'

/-- Python str.strip(" -._"): drop the leading and trailing runs of
    separator characters (both ends, as the Python method does). -/
def stripSeps (l : List Char) : List Char := stripEnds isSep l

/-- Trailing-only variant (used to state what the specification asserts;
    the code itself strips both ends). -/
def stripSepsRight (l : List Char) : List Char :=
  (l.reverse.dropWhile isSep).reverse

/-- Case-insensitive character comparison, as the (?i) flag gives on
    ASCII. -/
def lcEq (a b : Char) : Bool := a.toLower = b.toLower

/-- Match the pattern characters case-insensitively at the head of the
    input, returning the remainder. -/
def matchCI : List Char → List Char → Option (List Char)
  | [], l => some l
  | _ :: _, [] => none
  | p :: ps, c :: cs => if lcEq p c then matchCI ps cs else none

/-- One alternative of the denylist pattern on line 116 of bot.py: a
    literal (matched case-insensitively), AAC followed by a greedy run of
    digits, or v followed by at least one digit. -/
inductive TagPat
  | lit (s : String)
  | aacDigits
  | vDigits
deriving Repr

/-- The alternatives of line 116 in their order inside the pattern:
    HDRip, 10bit, x264, AAC\d*, MB, AMZN, WEB-DL, WEBRip, HEVC, x265,
    ESub, HQ, .mkv, .mp4, .avi, .mov, BluRay, DVDRip, 720p, 1080p, 540p,
    SD, HD, CAM, DVDScr, R5, TS, Rip, BRRip, AC3, DualAudio, 6CH, v\d+. -/
def tagPats : List TagPat :=
  [.lit "HDRip", .lit "10bit", .lit "x264", .aacDigits, .lit "MB",
   .lit "AMZN", .lit "WEB-DL", .lit "WEBRip", .lit "HEVC", .lit "x265",
   .lit "ESub", .lit "HQ", .lit ".mkv", .lit ".mp4", .lit ".avi",
   .lit ".mov", .lit "BluRay", .lit "DVDRip", .lit "720p", .lit "1080p",
   .lit "540p", .lit "SD", .lit "HD", .lit "CAM", .lit "DVDScr",
   .lit "R5", .lit "TS", .lit "Rip", .lit "BRRip", .lit "AC3",
   .lit "DualAudio", .lit "6CH", .vDigits]

/-- Remainder after one alternative matched at the head of the input.
    Greedy digit runs need no backtracking: shrinking them would place a
    digit (a word character) under the (\W|$) follower, which fails. -/
def patRest : TagPat → List Char → Option (List Char)
  | .lit s, l => matchCI s.toList l
  | .aacDigits, l => (matchCI ("AAC".toList) l).map (fun r => r.dropWhile Char.isDigit)
  | .vDigits, l =>
    match matchCI ("v".toList) l with
    | some r => if (r.takeWhile Char.isDigit).isEmpty then none
                else some (r.dropWhile Char.isDigit)
    | none => none

/-- The (\W|$) follower of line 116: consume one non-word character, or
    match the end of the input.  The pattern runs after the non-ASCII
    strip, so the ASCII word class is exact here. -/
def follower : List Char → Option (List Char)
  | [] => some []
  | c :: cs => if isAsciiWord c then none else some cs

/-- Ordered alternation: the first alternative whose body and follower
    both match wins, as Python regex alternation does. -/
def firstPat : List TagPat → List Char → Option (List Char)
  | [], _ => none
  | p :: ps, l =>
    match patRest p l with
    | some r =>
      match follower r with
      | some r2 => some r2
      | none => firstPat ps l
    | none => firstPat ps l

/-- Number of characters a tag match starting at the head consumes
    (alternative plus follower).  Always at least 2 when some. -/
def tagConsume (l : List Char) : Option Nat :=
  (firstPat tagPats l).map (fun r => l.length - r.length)

/-- Step 5 scan (line 117): re.sub of the denylist pattern with a single
    space; the scan continues after each match, as re.sub does.  The
    first argument counts characters of the current match still to be
    skipped: on a match of k consumed characters the scan emits one space
    and skips the remaining k - 1 characters (k is at least 2 whenever
    tagConsume succeeds, since every alternative is nonempty). -/
def rtGo : Nat → List Char → List Char
  | _ + 1, [] => []
  | skip + 1, _ :: cs => rtGo skip cs
  | 0, [] => []
  | 0, c :: cs =>
    match tagConsume (c :: cs) with
    | some k => ' ' :: rtGo (k - 1) cs
    | none => c :: rtGo 0 cs

/-- re.sub of the line 116 denylist pattern by a single space. -/
def removeTags (l : List Char) : List Char := rtGo 0 l

/-- The (\d{4}) group of line 120: exactly four consecutive digits. -/
def take4Digits : List Char → Option (List Char × List Char)
  | a :: b :: c :: d :: rest =>
    if a.isDigit && b.isDigit && c.isDigit && d.isDigit then
      some ([a, b, c, d], rest)
    else none
  | _ => none

/-- The language alternation of line 120, in pattern order. -/
def langWords : List String := ["Malayalam", "Tamil", "Hindi", "Telugu", "English"]

/-- The optional language group: the first word of the alternation that
    matches case-insensitively at the head; the captured text keeps the
    original case.  None of the five words is a prefix of another. -/
def firstLang : List String → List Char → Option (List Char)
  | [], _ => none
  | w :: ws, l =>
    if (matchCI w.toList l).isSome then some (l.take w.length)
    else firstLang ws l

/-- The \(? of line 120: consume one opening parenthesis when present. -/
def dropOpenParen (l : List Char) : List Char :=
  if l.head? = some '(' then l.tail else l

/-- The \)? of line 120: consume one closing parenthesis when present. -/
def dropCloseParen (l : List Char) : List Char :=
  if l.head? = some ')' then l.tail else l

/-- The part of the line 120 pattern after the lazy title:
    [\s_]* \(? (\d{4}) \)? [\s_]* (language)?.  The greedy [\s_]* runs
    never need backtracking since neither ( nor a digit nor a language
    letter lies in the class, and an optional parenthesis that is present
    is always consumed (if the digits then fail, retrying without it
    fails too, the parenthesis not being a digit). -/
def parseYearLang (l : List Char) : Option (List Char × Option (List Char)) :=
  let r2 := dropOpenParen (l.dropWhile isWsU)
  match take4Digits r2 with
  | none => none
  | some (y, r3) =>
    let r5 := (dropCloseParen r3).dropWhile isWsU
    some (y, firstLang langWords r5)

/-- The anchored lazy search of line 120: the shortest title (which may
    not contain a newline, being matched by the dot class) such that the
    year pattern matches right after it.  Returns title, year and the
    optionally captured language text. -/
def extractAux : List Char → List Char → Option (List Char × List Char × Option (List Char))
  | acc, [] =>
    match parseYearLang [] with
    | some (y, lg) => some (acc.reverse, y, lg)
    | none => none
  | acc, c :: cs =>
    match parseYearLang (c :: cs) with
    | some (y, lg) => some (acc.reverse, y, lg)
    | none =>
      if c = Char.ofNat 10 then none else extractAux (c :: acc) cs

/-- re.search of line 120. -/
def extract (l : List Char) : Option (List Char × List Char × Option (List Char)) :=
  extractAux [] l

/-- Line 104 output. -/
def stage1 (l : List Char) : List Char := removeBrackets l

/-- Line 107 output. -/
def stage2 (uw : Char → Bool) (l : List Char) : List Char := stripLead uw (stage1 l)

/-- Line 110 output. -/
def stage3 (uw : Char → Bool) (l : List Char) : List Char := stripNonAscii (stage2 uw l)

/-- Line 113 output: collapse [_\s] runs, then str.strip(). -/
def stage4 (uw : Char → Bool) (l : List Char) : List Char :=
  stripWsBoth (collapseWsU (stage3 uw l))

/-- Line 117 output: remove denylist tags, then str.strip(). -/
def stage5 (uw : Char → Bool) (l : List Char) : List Char :=
  stripWsBoth (removeTags (stage4 uw l))

/-- Lines 123-129: name = title.strip(" -._"), then the f-string
    "{name} ({year}) {language}" (language empty when not captured),
    str.strip(), and the final \s+ collapse.  The year and language
    groups are stripped on lines 124-125 too, but consist of digits and
    letters, so those strips are identities and are not repeated here. -/
def rebuildName (t y : List Char) (lg : Option (List Char)) : List Char :=
  collapseWs (stripWsBoth (stripSeps t ++ ' ' :: '(' :: (y ++ ')' :: ' ' :: lg.getD [])))

/-- clean_filename of bot.py (lines 101-132) on a character list. -/
def clean_filenameL (uw : Char → Bool) (l : List Char) : List Char :=
  match extract (stage5 uw l) with
  | some (t, y, lg) => rebuildName t y lg
  | none => stripSeps (stage5 uw l)

/-- A fixed instantiation of the non-ASCII word-class parameter, used for
    the concrete evaluations below, all of which are on ASCII inputs and
    hence independent of it. -/
def noUW : Char → Bool := fun _ => false

/-- clean_filename on strings. -/
def clean_filename (uw : Char → Bool) (s : String) : String :=
  ⟨clean_filenameL uw s.data⟩

/-- Python str.strip() on the name-edit text of line 178, restricted to
    its ASCII whitespace (on which str.isspace coincides with the class
    isReWs); non-ASCII whitespace would additionally be stripped by the
    source, which moves where a stored name begins but not whether one is
    stored.  The sanitize_unicode wrapper of line 178 only removes lone
    surrogates, which well-formed strings do not contain, so it is the
    identity here. -/
def pyStrip (s : String) : String := ⟨stripWsBoth s.data⟩

/-- One entry of the files list of an upload session (bot.py line 280). -/
structure FileEntry where
  file_id : String
  file_name : String
deriving DecidableEq, Repr

/-- The image value of an upload session (bot.py line 314). -/
structure Image where
  file_id : String
  width : Nat
  height : Nat
deriving DecidableEq, Repr

/-- An upload session (the per-user dictionaries of bot.py lines 135-141
    and 268-273).  movie_name distinguishes the Python None (none) from a
    present string, which may be empty; both are falsy in the source. -/
structure Session where
  files : List FileEntry
  image : Option Image
  movie_name : Option String
  awaiting_name_edit : Bool
deriving DecidableEq, Repr

/-- The session a first upload event creates (lines 268-273). -/
def emptySession : Session := ⟨[], none, none, false⟩

/-- The persisted document of lines 204-211, with the media subdocument
    flattened into the two fields documents and image. -/
structure MovieRecord where
  movie_id : String
  name : String
  documents : List FileEntry
  image : Option Image
deriving DecidableEq, Repr

/-- Python truthiness of session moviename: None and the empty string are
    falsy. -/
def nameTruthy : Option String → Bool
  | none => false
  | some s => !s.isEmpty

/-- The completion predicate of line 199: session files truthy (list
    non-empty), session image truthy (a dict is present), session
    movie_name truthy (a non-empty string).  The awaiting_name_edit flag
    is not consulted here. -/
def ready (s : Session) : Bool :=
  !s.files.isEmpty && s.image.isSome && nameTruthy s.movie_name

/-- The movie entry built on lines 203-211 from a session. -/
def mkRecord (newId : String) (s : Session) : MovieRecord :=
  ⟨newId, s.movie_name.getD "", s.files, s.image⟩

/-- The outbound messages the modelled handlers emit. -/
inductive Out where
  | fileReceived (cleanedName : String)
  | offerEdit (cleanedName : String)
  | imageReceived
  | promptNewName
  | nameConfirmed (n : Option String)
  | nameUpdated (n : String)
  | sessionExpired
  | saveSuccess (n : String)
  | saveFailed
deriving DecidableEq, Repr

/-- check_and_save_movie (lines 191-230).  newId is the uuid generated on
    line 203; insertOk tells whether collection.insert_one succeeds;
    sendOk tells whether the success reply of line 215 is delivered (the
    preview sender of line 221 catches its own errors and cannot fail the
    surrounding try).  On the insert-ok send-fail path the record HAS been
    inserted, yet control reaches the except branch of line 226, so the
    failure notice is emitted and the session is not deleted.  Returns
    the session after the call, the records inserted, and the messages
    emitted. -/
def check_and_save_movie (newId : String) (insertOk sendOk : Bool) (s : Session) :
    Option Session × List MovieRecord × List Out :=
  if ready s then
    let r := mkRecord newId s
    if insertOk then
      if sendOk then (none, [r], [.saveSuccess (s.movie_name.getD "")])
      else (some s, [r], [.saveFailed])
    else (some s, [], [.saveFailed])
  else (some s, [], [])

/-- The inbound events of the upload flow: a document in the storage
    group, a photo in the storage group (with its list of sizes), the
    edit_name button, the continue_name button, and a plain text message
    in the storage group. -/
inductive Ev where
  | doc (file_id : String) (raw : String)
  | photo (first : Image) (rest : List Image)
  | editBtn
  | continueBtn
  | text (t : String)
deriving DecidableEq, Repr

/-- Per-event environment: the uuid a persist attempt would use and the
    outcome of the storage insert and of the success reply. -/
structure EvCtx where
  newId : String
  insertOk : Bool
  sendOk : Bool
deriving DecidableEq, Repr

/-- The document branch of add_movie (lines 276-287): append the cleaned
    file, set movie_name when it is falsy (None or empty). -/
def applyDoc (uw : Char → Bool) (s : Session) (fid raw : String) : Session :=
  let cleaned := clean_filename uw raw
  { s with
    files := s.files ++ [⟨fid, cleaned⟩],
    movie_name := if nameTruthy s.movie_name then s.movie_name else some cleaned }

/-- Line 312: max of the photo sizes by width * height; Python max keeps
    the first maximum, so only a strictly larger candidate replaces. -/
def largestPhoto (first : Image) (rest : List Image) : Image :=
  rest.foldl (fun best q => if best.width * best.height < q.width * q.height then q else best) first

/-- One inbound event of the upload flow, dispatched as bot.py does:
    doc and photo to add_movie (lines 261-324, which creates the session
    via setdefault), editBtn and continueBtn to name_decision_handler
    (lines 145-166, session looked up with get, absent session replied
    with the expired notice), text to text_handler (lines 168-189, which
    acts only when a session exists and awaits a name edit).  a tells
    whether the acting user is in ADMIN_IDS.  Returns the session map
    entry after the event, the inserted records, and the emitted
    messages. -/
def step (uw : Char → Bool) (a : Bool) (ctx : EvCtx) (st : Option Session) :
    Ev → Option Session × List MovieRecord × List Out
  | .doc fid raw =>
    let s1 := applyDoc uw (st.getD emptySession) fid raw
    let cleaned := clean_filename uw raw
    if a then (some s1, [], [.offerEdit cleaned])
    else
      let r := check_and_save_movie ctx.newId ctx.insertOk ctx.sendOk s1
      (r.1, r.2.1, .fileReceived cleaned :: r.2.2)
  | .photo p rest =>
    let s0 := st.getD emptySession
    let s1 := { s0 with image := some (largestPhoto p rest) }
    if !a || !s1.awaiting_name_edit then
      let r := check_and_save_movie ctx.newId ctx.insertOk ctx.sendOk s1
      (r.1, r.2.1, .imageReceived :: r.2.2)
    else (some s1, [], [.imageReceived])
  | .editBtn =>
    match st with
    | none => (none, [], [.sessionExpired])
    | some s => (some { s with awaiting_name_edit := true }, [], [.promptNewName])
  | .continueBtn =>
    match st with
    | none => (none, [], [.sessionExpired])
    | some s =>
      let s1 := { s with awaiting_name_edit := false }
      let r := check_and_save_movie ctx.newId ctx.insertOk ctx.sendOk s1
      (r.1, r.2.1, .nameConfirmed s.movie_name :: r.2.2)
  | .text t =>
    match st with
    | none => (none, [], [])
    | some s =>
      if s.awaiting_name_edit then
        let nn := pyStrip t
        let s1 := { s with movie_name := some nn, awaiting_name_edit := false }
        let r := check_and_save_movie ctx.newId ctx.insertOk ctx.sendOk s1
        (r.1, r.2.1, .nameUpdated nn :: r.2.2)
      else (some s, [], [])

/-- A sequence of events against one session map entry; collects every
    inserted record. -/
def run (uw : Char → Bool) (a : Bool) :
    Option Session → List (EvCtx × Ev) → Option Session × List MovieRecord
  | st, [] => (st, [])
  | st, (ctx, e) :: rest =>
    let r1 := step uw a ctx st e
    let r2 := run uw a r1.1 rest
    (r2.1, r1.2.1 ++ r2.2)

/-- A record as the delete flow sees it: Mongo object id and name. -/
structure DelMovie where
  oid : String
  name : String
deriving DecidableEq, Repr

/-- A delete session (lines 628-631 and 712): page, the cached snapshot
    of records shown on that page, and the selection pending
    confirmation. -/
structure DelSession where
  page : Nat
  movies : List DelMovie
  selected : Option DelMovie
deriving DecidableEq, Repr

/-- The observable outcome of delete_by_number: silently ignored, one of
    the two error replies, the confirmation prompt, or an exception
    escaping the handler uncaught (no reply of any kind is sent). -/
inductive DelOut where
  | ignored
  | errNotNumber
  | errRange
  | confirmPrompt (m : DelMovie)
  | crash
deriving DecidableEq, Repr

/-- Python str.isspace on a single character: exact on ASCII (where it
    coincides with the regex class \s), given by the parameter uws on
    non-ASCII characters (for example U+00A0 no-break space is Python
    whitespace). -/
def isPySpaceU (uws : Char → Bool) (c : Char) : Bool :=
  if c.val ≤ 127 then isReWs c else uws c

/-- Python str.strip() with the Unicode whitespace classification taken
    as a parameter: drop the leading and trailing whitespace runs. -/
def pyStripU (uws : Char → Bool) (l : List Char) : List Char :=
  stripEnds (isPySpaceU uws) l

/-- Python str.isdigit on a single character: on ASCII exactly the
    digits 0-9; on non-ASCII characters given by the parameter ud
    (Python accepts every character of Unicode Numeric_Type Digit or
    Decimal, e.g. the Arabic-Indic digits and the superscript two). -/
def isPyDigitU (ud : Char → Bool) (c : Char) : Bool :=
  if c.val ≤ 127 then c.isDigit else ud c

/-- Python str.isdigit on a string (line 695): non-empty and every
    character a digit in the above sense. -/
def isDigitsText (ud : Char → Bool) (l : List Char) : Bool :=
  !l.isEmpty && l.all (isPyDigitU ud)

/-- The decimal value int() assigns to one character: ASCII digits have
    their usual value; a non-ASCII character is given by the parameter
    udec, which yields a value exactly for characters of Unicode
    Numeric_Type Decimal (so some 3 for the Arabic-Indic three, none for
    the superscript two, which is a digit but not decimal). -/
def decDigitVal (udec : Char → Option Nat) (c : Char) : Option Nat :=
  if c.val ≤ 127 then (if c.isDigit then some (c.toNat - 48) else none)
  else udec c

/-- Python int() on a string of digit characters (line 699): succeeds
    with the base-10 value of the per-character decimal values when every
    character has one, and raises ValueError (modelled as none)
    otherwise.  Signs, interior whitespace and underscores cannot occur
    here, every character having passed str.isdigit. -/
def pyIntU (udec : Char → Option Nat) (l : List Char) : Option Nat :=
  l.foldl (fun acc c =>
    match acc, decDigitVal udec c with
    | some n, some d => some (n * 10 + d)
    | _, _ => none) (some 0)

/-- delete_by_number (lines 677-728): ignore non-admins and users without
    an active delete session; strip the text (line 692, Python
    str.strip(), so Unicode whitespace too); reject input failing
    str.isdigit with the number error (line 696); then run int(text) on
    line 699, which is NOT wrapped in a try — a digit string without a
    decimal interpretation makes the handler raise an uncaught
    ValueError, sending no reply (the session is untouched, nothing
    having been mutated before line 699).  A parsed value n with
    index = n - 1 out of range is answered with the range error;
    otherwise movies[index] of the cached snapshot becomes the selection
    and the confirmation prompt is sent.  Only the accepting branch
    changes the session. -/
def delete_by_number (uws ud : Char → Bool) (udec : Char → Option Nat)
    (a : Bool) (st : Option DelSession) (text : String) :
    Option DelSession × DelOut :=
  if !a then (st, .ignored)
  else
    match st with
    | none => (none, .ignored)
    | some sess =>
      let t := pyStripU uws text.data
      if !isDigitsText ud t then (some sess, .errNotNumber)
      else
        match pyIntU udec t with
        | none => (some sess, .crash)
        | some n =>
          if h : n < 1 ∨ sess.movies.length < n then (some sess, .errRange)
          else
            let m := sess.movies.get ⟨n - 1, by omega⟩
            (some { sess with selected := some m }, .confirmPrompt m)

/-- PAGE_SIZE of line 52. -/
def PAGE_SIZE : Nat := 10

/-- Stable ascending insertion by name. -/
def insertByName (m : DelMovie) : List DelMovie → List DelMovie
  | [] => [m]
  | x :: xs => if x.name ≤ m.name then x :: insertByName m xs else m :: x :: xs

/-- The name-ascending sort of line 615 (collection.find().sort("name", 1)),
    modelled as an insertion sort of the stored records. -/
def sortByName (l : List DelMovie) : List DelMovie := l.foldr insertByName []

/-- What one /list invocation computes and displays. -/
structure PageView where
  shown : List DelMovie
  total : Nat
  hasPrev : Bool
  hasNext : Bool
deriving DecidableEq, Repr

/-- list_movies (lines 605-655): skip = (page - 1) * PAGE_SIZE, the
    records of the name-ascending sort from skip, at most PAGE_SIZE of
    them; the Previous control appears iff page > 1 (line 636) and the
    Next control iff skip + PAGE_SIZE < total (line 638). -/
def list_movies (db : List DelMovie) (page : Nat) : PageView :=
  let skip := (page - 1) * PAGE_SIZE
  let sorted := sortByName db
  { shown := (sorted.drop skip).take PAGE_SIZE
    total := db.length
    hasPrev := decide (1 < page)
    hasNext := decide (skip + PAGE_SIZE < db.length) }

/-- The delete session one /list invocation caches (lines 628-631): the
    page and exactly the displayed records. -/
def listCache (db : List DelMovie) (page : Nat) : DelSession :=
  ⟨page, (list_movies db page).shown, none⟩

/-! Specification-side helpers used by the theorem statements. -/

/-- Which events make the code run check_and_save_movie on an existing
    session: a document from a non-admin, a photo unless the user is an
    admin whose session awaits a name edit, the continue button, and a
    text message when the session awaits a name edit. -/
def evalTriggered (a : Bool) (s : Session) : Ev → Bool
  | .doc _ _ => !a
  | .photo _ _ => !a || !s.awaiting_name_edit
  | .editBtn => false
  | .continueBtn => true
  | .text _ => s.awaiting_name_edit

/-- The pure session mutation each event performs before any completion
    evaluation. -/
def mutateE (uw : Char → Bool) (s : Session) : Ev → Session
  | .doc fid raw => applyDoc uw s fid raw
  | .photo p rest => { s with image := some (largestPhoto p rest) }
  | .editBtn => { s with awaiting_name_edit := true }
  | .continueBtn => { s with awaiting_name_edit := false }
  | .text t =>
    if s.awaiting_name_edit then
      { s with movie_name := some (pyStrip t), awaiting_name_edit := false }
    else s

/-- Case-insensitive match of a pattern at the head of a list. -/
def startsCI : List Char → List Char → Bool
  | [], _ => true
  | _ :: _, [] => false
  | p :: ps, c :: cs => lcEq p c && startsCI ps cs

/-- Case-insensitive substring occurrence. -/
def occursCI (p : List Char) : List Char → Bool
  | [] => p.isEmpty
  | c :: cs => startsCI p (c :: cs) || occursCI p cs

/-- Case-insensitive match of a pattern at the end of a list. -/
def endsCI (p l : List Char) : Bool := startsCI p.reverse l.reverse

/-- Four consecutive digits occur somewhere. -/
def has4DigitRun : List Char → Bool
  | a :: b :: c :: d :: rest =>
    (a.isDigit && b.isDigit && c.isDigit && d.isDigit) || has4DigitRun (b :: c :: d :: rest)
  | _ => false

/-- All characters are ASCII. -/
def asciiOnly (l : List Char) : Bool := l.all (fun c => c.val ≤ 127)

/-- Every whitespace character is a plain space. -/
def wsIsSpaceOnly (l : List Char) : Bool := l.all (fun c => !isReWs c || c = ' ')

/-- No two adjacent whitespace characters. -/
def noAdjWs : List Char → Bool
  | c :: d :: rest => !(isReWs c && isReWs d) && noAdjWs (d :: rest)
  | _ => true

/-- Single-spaced and trimmed: whitespace only as isolated interior
    plain spaces. -/
def tidy (l : List Char) : Bool :=
  wsIsSpaceOnly l && noAdjWs l &&
  (match l.head? with
   | some c => !isReWs c
   | none => true) &&
  (match l.getLast? with
   | some c => !isReWs c
   | none => true)

/-- The literal stems of the denylist alternation of line 116 (the stem
    AAC stands for AAC\d*, which matches already with zero digits). -/
def tagLitStrings : List String :=
  ["HDRip", "10bit", "x264", "AAC", "MB", "AMZN", "WEB-DL", "WEBRip",
   "HEVC", "x265", "ESub", "HQ", ".mkv", ".mp4", ".avi", ".mov",
   "BluRay", "DVDRip", "720p", "1080p", "540p", "SD", "HD", "CAM",
   "DVDScr", "R5", "TS", "Rip", "BRRip", "AC3", "DualAudio", "6CH"]

/-- No letter v immediately followed by a digit (the v\d+ alternative). -/
def noVDigit : List Char → Bool
  | c :: d :: rest => !(lcEq 'v' c && d.isDigit) && noVDigit (d :: rest)
  | _ => true

/-- No denylisted tag occurs anywhere as a (case-insensitive) substring,
    and no v-digit pair occurs. -/
def noTagSubstring (l : List Char) : Bool :=
  tagLitStrings.all (fun w => !occursCI w.data l) && noVDigit l

/-- An already-clean title in the sense of the idempotence property:
    ASCII only, no square brackets, no underscores, no denylisted tag
    substring, a word character first (no leading non-word characters),
    whitespace only as single interior plain spaces. -/
def cleanTitle (l : List Char) : Bool :=
  asciiOnly l &&
  l.all (fun c => !(c = '[') && !(c = ']')) &&
  l.all (fun c => !(c = '_')) &&
  noTagSubstring l &&
  (match l.head? with
   | some c => isAsciiWord c
   | none => true) &&
  wsIsSpaceOnly l && noAdjWs l &&
  (match l.getLast? with
   | some c => !isReWs c
   | none => true)

/-! Helper lemmas on the completion evaluation. -/

theorem csm_fst (newId : String) (iOk sOk : Bool) (s : Session) :
    (check_and_save_movie newId iOk sOk s).1 =
      if ready s && iOk && sOk then none else some s := by
  unfold check_and_save_movie
  cases h : ready s <;> cases iOk <;> cases sOk <;> simp [h]

theorem csm_recs (newId : String) (iOk sOk : Bool) (s : Session) :
    (check_and_save_movie newId iOk sOk s).2.1 =
      if ready s && iOk then [mkRecord newId s] else [] := by
  unfold check_and_save_movie
  cases h : ready s <;> cases iOk <;> cases sOk <;> simp [h]

theorem csm_none_iff (newId : String) (iOk sOk : Bool) (s : Session) :
    (check_and_save_movie newId iOk sOk s).1 = none ↔
      ((check_and_save_movie newId iOk sOk s).2.1 ≠ [] ∧ sOk = true) := by
  rw [csm_fst, csm_recs]
  cases ready s <;> cases iOk <;> cases sOk <;> simp

theorem csm_recs_ne (newId : String) (iOk sOk : Bool) (s : Session) :
    (check_and_save_movie newId iOk sOk s).2.1 ≠ [] ↔
      (ready s = true ∧ iOk = true) := by
  rw [csm_recs]
  cases ready s <;> cases iOk <;> simp

/-- Claim C2: when the storage insert fails, the completion evaluation
    emits the failure notice and returns with the session fully intact
    (not deleted, no field changed), so a later evaluation of the same
    session attempts to insert a record with the same name, documents and
    image (only the freshly generated movie id differs). -/
theorem C2_failed_insert_keeps_session :
    ∀ (newId : String) (s : Session), ready s = true →
      (∀ sOk : Bool,
        check_and_save_movie newId false sOk s = (some s, [], [.saveFailed]))
      ∧ ∀ newId2 : String,
          (check_and_save_movie newId2 true true s).2.1 = [mkRecord newId2 s]
          ∧ (mkRecord newId2 s).name = (mkRecord newId s).name
          ∧ (mkRecord newId2 s).documents = (mkRecord newId s).documents
          ∧ (mkRecord newId2 s).image = (mkRecord newId s).image := by
  intro newId s h
  refine ⟨fun sOk => ?_, fun newId2 => ?_⟩
  · cases sOk <;> simp [check_and_save_movie, h]
  · simp [check_and_save_movie, mkRecord, h]

/-- Witness for C2 at a concrete ready session. -/
theorem C2_witness :
    check_and_save_movie "u1" false true
        ⟨[⟨"f", "Movie (2021)"⟩], some ⟨"i", 100, 100⟩, some "Movie (2021)", false⟩
      = (some ⟨[⟨"f", "Movie (2021)"⟩], some ⟨"i", 100, 100⟩, some "Movie (2021)", false⟩,
         [], [.saveFailed])
    ∧ (check_and_save_movie "u2" true true
        ⟨[⟨"f", "Movie (2021)"⟩], some ⟨"i", 100, 100⟩, some "Movie (2021)", false⟩).2.1
      = [mkRecord "u2"
          ⟨[⟨"f", "Movie (2021)"⟩], some ⟨"i", 100, 100⟩, some "Movie (2021)", false⟩] := by
  have h := C2_failed_insert_keeps_session "u1"
    ⟨[⟨"f", "Movie (2021)"⟩], some ⟨"i", 100, 100⟩, some "Movie (2021)", false⟩ (by decide)
  exact ⟨h.1 true, (h.2 "u2").1⟩

/-- Counterexample for C3: the insert succeeds (the record is returned as
    inserted) yet, because the success reply of line 215 fails inside the
    same try block, control reaches the except branch before line 224, so
    the session is NOT deleted and the user is even told the save
    failed. -/
theorem C3_counterexample :
    check_and_save_movie "id9" true false
        ⟨[⟨"g", "Title (1999)"⟩], some ⟨"j", 2, 3⟩, some "Title (1999)", false⟩
      = (some ⟨[⟨"g", "Title (1999)"⟩], some ⟨"j", 2, 3⟩, some "Title (1999)", false⟩,
         [⟨"id9", "Title (1999)", [⟨"g", "Title (1999)"⟩], some ⟨"j", 2, 3⟩⟩],
         [.saveFailed]) := by decide

/-- After any event on an existing session, the session entry becomes
    none exactly when a record was inserted and the success reply was
    delivered. -/
theorem step_none_iff :
    ∀ (uw : Char → Bool) (a : Bool) (ctx : EvCtx) (s : Session) (e : Ev),
      (step uw a ctx (some s) e).1 = none ↔
        ((step uw a ctx (some s) e).2.1 ≠ [] ∧ ctx.sendOk = true) := by
  intro uw a ctx s e
  obtain ⟨id, iOk, sOk⟩ := ctx
  cases e with
  | doc fid raw =>
    by_cases ha : a
    · simp [step, ha]
    · simpa [step, ha] using csm_none_iff id iOk sOk _
  | photo p rest =>
    by_cases hc : (!a || !s.awaiting_name_edit) = true
    · simpa [step, hc] using csm_none_iff id iOk sOk _
    · simp [step, hc]
  | editBtn => simp [step]
  | continueBtn => simpa [step] using csm_none_iff id iOk sOk _
  | text t =>
    by_cases hw : s.awaiting_name_edit = true
    · simpa [step, hw] using csm_none_iff id iOk sOk _
    · simp [step, hw]

/-- Claim C3 as amended: after any event on an existing session, the
    session is destroyed if and only if a record was inserted AND the
    success reply was delivered; in every other case (including a
    successful insert whose success reply fails, the case of the
    counterexample) the session survives. -/
theorem C3_amended_destroy_iff :
    ∀ (uw : Char → Bool) (a : Bool) (ctx : EvCtx) (s : Session) (e : Ev),
      (step uw a ctx (some s) e).1 = none ↔
        ((step uw a ctx (some s) e).2.1 ≠ [] ∧ ctx.sendOk = true) :=
  step_none_iff

/-- Counterexample for C1.  First trace (a non-admin user): document,
    then the edit_name button, then a photo.  The photo event runs the
    completion evaluation (line 323 evaluates for every non-admin) and
    persists the record even though awaiting_name_edit is true at that
    moment, because the predicate of line 199 never consults the flag.
    Second trace (an admin): photo, then document.  The document fills
    the last missing field, yet nothing is persisted on that transition
    (the admin branch of line 290 only offers the edit buttons); the
    record is inserted only at the later continue event. -/
theorem C1_counterexample :
    (run noUW false none
        [(⟨"a1", true, true⟩, .doc "f1" "Pulp 1994 Tamil"),
         (⟨"a2", true, true⟩, .editBtn),
         (⟨"a3", true, true⟩, .photo ⟨"p1", 5, 5⟩ [])]).2
      = [⟨"a3", "Pulp (1994) Tamil", [⟨"f1", "Pulp (1994) Tamil"⟩], some ⟨"p1", 5, 5⟩⟩]
    ∧ (run noUW false none
        [(⟨"a1", true, true⟩, .doc "f1" "Pulp 1994 Tamil"),
         (⟨"a2", true, true⟩, .editBtn)]).1
      = some ⟨[⟨"f1", "Pulp (1994) Tamil"⟩], none, some "Pulp (1994) Tamil", true⟩
    ∧ (mutateE noUW
         ⟨[⟨"f1", "Pulp (1994) Tamil"⟩], none, some "Pulp (1994) Tamil", true⟩
         (.photo ⟨"p1", 5, 5⟩ [])).awaiting_name_edit = true
    ∧ (run noUW true none
        [(⟨"b1", true, true⟩, .photo ⟨"p2", 7, 7⟩ []),
         (⟨"b2", true, true⟩, .doc "f2" "Heat 1995 English")]).2 = []
    ∧ ready ((run noUW true none
        [(⟨"b1", true, true⟩, .photo ⟨"p2", 7, 7⟩ []),
         (⟨"b2", true, true⟩, .doc "f2" "Heat 1995 English")]).1.getD emptySession) = true
    ∧ (step noUW true ⟨"b3", true, true⟩
        ((run noUW true none
          [(⟨"b1", true, true⟩, .photo ⟨"p2", 7, 7⟩ []),
           (⟨"b2", true, true⟩, .doc "f2" "Heat 1995 English")]).1) .continueBtn).2.1
      = [⟨"b3", "Heat (1995) English", [⟨"f2", "Heat (1995) English"⟩], some ⟨"p2", 7, 7⟩⟩] := by
  decide

/-- Claim C1 as amended: an event on an existing session inserts a record
    if and only if the insert succeeds, the event is one that runs the
    completion evaluation (a non-admin document, a photo unless the user
    is an admin with a pending name edit, the continue button, an
    accepted name-edit text), and after the mutation of the event the
    state satisfies the line 199 predicate: files non-empty, image set,
    movie_name a non-empty string.  The awaiting_name_edit flag is not
    part of the predicate, and for admins persistence can happen later
    than the transition filling the last missing field.  When a record is
    inserted and the success reply is delivered, the session is deleted,
    so the same session never persists twice. -/
theorem C1_amended_persist_characterisation :
    ∀ (uw : Char → Bool) (a : Bool) (ctx : EvCtx) (s : Session) (e : Ev),
      ((step uw a ctx (some s) e).2.1 ≠ [] ↔
        (ctx.insertOk = true ∧ evalTriggered a s e = true ∧
         ready (mutateE uw s e) = true))
      ∧ ((step uw a ctx (some s) e).2.1 ≠ [] → ctx.sendOk = true →
          (step uw a ctx (some s) e).1 = none) := by
  intro uw a ctx s e
  obtain ⟨id, iOk, sOk⟩ := ctx
  constructor
  · cases e with
    | doc fid raw =>
      by_cases ha : a
      · simp [step, ha, evalTriggered]
      · have := csm_recs_ne id iOk sOk (applyDoc uw s fid raw)
        simp [step, ha, evalTriggered, mutateE] at this ⊢
        tauto
    | photo p rest =>
      by_cases hc : (!a || !s.awaiting_name_edit) = true
      · have := csm_recs_ne id iOk sOk
          { s with image := some (largestPhoto p rest) }
        simp [step, hc, evalTriggered, mutateE] at this ⊢
        tauto
      · simp [step, hc, evalTriggered, mutateE]
    | editBtn => simp [step, evalTriggered]
    | continueBtn =>
      have := csm_recs_ne id iOk sOk { s with awaiting_name_edit := false }
      simp [step, evalTriggered, mutateE] at this ⊢
      tauto
    | text t =>
      by_cases hw : s.awaiting_name_edit = true
      · have := csm_recs_ne id iOk sOk
          { s with movie_name := some (pyStrip t), awaiting_name_edit := false }
        simp [step, hw, evalTriggered, mutateE] at this ⊢
        tauto
      · simp [step, hw, evalTriggered]
  · intro hne hs
    subst hs
    exact (step_none_iff uw a ⟨id, iOk, true⟩ s e).mpr ⟨hne, rfl⟩

/-- Witness for the amended C1 at a concrete input: a non-admin photo on
    a session already holding a file and a name persists and deletes the
    session. -/
theorem C1_witness :
    (step noUW false ⟨"w1", true, true⟩
        (some ⟨[⟨"d", "N (2000)"⟩], none, some "N (2000)", false⟩)
        (.photo ⟨"p", 4, 4⟩ [])).2.1 ≠ []
    ∧ (step noUW false ⟨"w1", true, true⟩
        (some ⟨[⟨"d", "N (2000)"⟩], none, some "N (2000)", false⟩)
        (.photo ⟨"p", 4, 4⟩ [])).1 = none := by
  have h := C1_amended_persist_characterisation noUW false ⟨"w1", true, true⟩
    ⟨[⟨"d", "N (2000)"⟩], none, some "N (2000)", false⟩ (.photo ⟨"p", 4, 4⟩ [])
  have hne := h.1.mpr ⟨rfl, by decide, by decide⟩
  exact ⟨hne, h.2 hne rfl⟩

/-- Any record the completion evaluation inserts has a non-empty name. -/
theorem csm_record_name_ne (newId : String) (iOk sOk : Bool) (s : Session)
    (r : MovieRecord) (hm : r ∈ (check_and_save_movie newId iOk sOk s).2.1) :
    r.name ≠ "" := by
  rw [csm_recs] at hm
  by_cases hr : (ready s && iOk) = true
  · simp only [hr, if_pos] at hm
    simp only [List.mem_singleton] at hm
    subst hm
    have hready : ready s = true := by
      revert hr; cases ready s <;> simp
    have hname : nameTruthy s.movie_name = true := by
      simp only [ready, Bool.and_eq_true] at hready
      exact hready.2
    cases hv : s.movie_name with
    | none => rw [hv] at hname; simp [nameTruthy] at hname
    | some v =>
      rw [hv] at hname
      simp only [nameTruthy, Bool.not_eq_true'] at hname
      simp only [mkRecord, hv, Option.getD_some]
      intro hcon
      rw [hcon] at hname
      exact absurd hname (by decide)
  · simp [hr] at hm

/-- Any record a step inserts has a non-empty name. -/
theorem step_record_name_ne (uw : Char → Bool) (a : Bool) (ctx : EvCtx)
    (st : Option Session) (e : Ev) (r : MovieRecord)
    (hm : r ∈ (step uw a ctx st e).2.1) : r.name ≠ "" := by
  cases e with
  | doc fid raw =>
    by_cases ha : a
    · simp [step, ha] at hm
    · simp [step, ha] at hm
      exact csm_record_name_ne _ _ _ _ r hm
  | photo p rest =>
    by_cases hc : (!a || !(st.getD emptySession).awaiting_name_edit) = true
    · simp only [step, hc, if_pos] at hm
      exact csm_record_name_ne _ _ _ _ r hm
    · simp [step, hc] at hm
  | editBtn => cases st <;> simp [step] at hm
  | continueBtn =>
    cases st with
    | none => simp [step] at hm
    | some s =>
      simp only [step] at hm
      exact csm_record_name_ne _ _ _ _ r hm
  | text t =>
    cases st with
    | none => simp [step] at hm
    | some s =>
      by_cases hw : s.awaiting_name_edit = true
      · simp only [step, hw, if_pos] at hm
        exact csm_record_name_ne _ _ _ _ r hm
      · simp [step, hw] at hm

/-- Any record a run inserts has a non-empty name. -/
theorem run_record_name_ne (uw : Char → Bool) (a : Bool)
    (evs : List (EvCtx × Ev)) :
    ∀ (st : Option Session) (r : MovieRecord),
      r ∈ (run uw a st evs).2 → r.name ≠ "" := by
  induction evs with
  | nil => intro st r h; simp [run] at h
  | cons p rest ih =>
    intro st r h
    obtain ⟨ctx, e⟩ := p
    simp only [run, List.mem_append] at h
    rcases h with h | h
    · exact step_record_name_ne uw a ctx st e r h
    · exact ih _ r h

/-- Claim C10: an empty movie name is treated exactly like an unset one.
    A document stores its cleaned name whenever the current movie_name is
    falsy (None or empty); if that cleaned name is itself empty the field
    stays falsy, so a later file can still set it; a session whose
    movie_name is the empty string never satisfies the completion
    predicate; consequently every record any event sequence inserts has a
    non-empty name. -/
theorem C10_empty_name_like_unset :
    (∀ (uw : Char → Bool) (s : Session) (fid raw : String),
        nameTruthy s.movie_name = false →
          (applyDoc uw s fid raw).movie_name = some (clean_filename uw raw))
    ∧ (∀ (uw : Char → Bool) (s : Session) (fid raw : String),
        nameTruthy s.movie_name = false → clean_filename uw raw = "" →
          nameTruthy (applyDoc uw s fid raw).movie_name = false)
    ∧ (∀ s : Session, s.movie_name = some "" → ready s = false)
    ∧ (∀ (uw : Char → Bool) (a : Bool) (st : Option Session)
        (evs : List (EvCtx × Ev)) (r : MovieRecord),
        r ∈ (run uw a st evs).2 → r.name ≠ "") := by
  refine ⟨?_, ?_, ?_, ?_⟩
  · intro uw s fid raw h
    simp [applyDoc, h]
  · intro uw s fid raw h hc
    have hset : (applyDoc uw s fid raw).movie_name = some (clean_filename uw raw) := by
      simp [applyDoc, h]
    rw [hset, hc]
    simp [nameTruthy]
    rfl
  · intro s h
    simp [ready, h, nameTruthy]
    intro _ _
    rfl
  · intro uw a st evs r h
    exact run_record_name_ne uw a evs st r h

/-- Witness for C10 at concrete inputs: a bracket-only filename cleans to
    the empty string and leaves the name falsy; a session with an empty
    name is not ready; a record produced by a complete non-admin upload
    has a non-empty name. -/
theorem C10_witness :
    (applyDoc noUW emptySession "f" "[]").movie_name = some (clean_filename noUW "[]")
    ∧ nameTruthy (applyDoc noUW emptySession "f" "[]").movie_name = false
    ∧ ready ⟨[⟨"f", ""⟩], some ⟨"i", 1, 1⟩, some "", false⟩ = false
    ∧ (⟨"c2", "Up (2009)", [⟨"f", "Up (2009)"⟩], some ⟨"p", 1, 1⟩⟩ : MovieRecord).name ≠ "" := by
  have h := C10_empty_name_like_unset
  refine ⟨h.1 noUW emptySession "f" "[]" (by decide),
          h.2.1 noUW emptySession "f" "[]" (by decide) (by decide),
          h.2.2.1 _ rfl,
          h.2.2.2 noUW false none
            [(⟨"c1", true, true⟩, .doc "f" "Up 2009"),
             (⟨"c2", true, true⟩, .photo ⟨"p", 1, 1⟩ [])]
            ⟨"c2", "Up (2009)", [⟨"f", "Up (2009)"⟩], some ⟨"p", 1, 1⟩⟩ (by decide)⟩

/-- Counterexample for C7: Telegram text is Unicode, and Python's
    str.isdigit accepts characters, such as the superscript two U+00B2,
    that int() then rejects with a ValueError; line 699 runs int(text)
    outside any try, so on that input the handler raises and no error
    reply is sent (the session survives untouched only because nothing
    was mutated before the raise) — contradicting the claim that invalid
    numeric input is reported back with no crash.  The non-ASCII
    classification parameters are instantiated with the real properties
    of U+00B2: not whitespace, isdigit true, no decimal value. -/
theorem C7_counterexample :
    delete_by_number (fun _ => false) (fun c => decide (c = '²')) (fun _ => none)
        true (some ⟨1, [⟨"o1", "A"⟩, ⟨"o2", "B"⟩], none⟩) ("²")
      = (some ⟨1, [⟨"o1", "A"⟩, ⟨"o2", "B"⟩], none⟩, DelOut.crash) := by
  decide

/-- Claim C7 (amended): for an admin with an active delete session, with
    str.strip, str.isdigit and int carrying their Python Unicode
    semantics (the non-ASCII classifications taken as parameters, exact
    on ASCII): input whose stripped text fails str.isdigit is answered
    with the number error and changes nothing; stripped digit text on
    which int() raises (a digit that is not a decimal digit) makes the
    handler raise an uncaught ValueError — no reply at all, session
    unchanged; a parsed value n is accepted iff 1 <= n <= len(cached
    movies), in which case the record at display position n of the
    cached snapshot becomes the selection, and is otherwise answered
    with the range error, changing nothing. -/
theorem C7_amended_unicode_validation :
    ∀ (uws ud : Char → Bool) (udec : Char → Option Nat)
      (sess : DelSession) (text : String),
      (isDigitsText ud (pyStripU uws text.data) = false →
        delete_by_number uws ud udec true (some sess) text
          = (some sess, .errNotNumber))
      ∧ (isDigitsText ud (pyStripU uws text.data) = true →
          (pyIntU udec (pyStripU uws text.data) = none →
            delete_by_number uws ud udec true (some sess) text
              = (some sess, .crash))
          ∧ ∀ n, pyIntU udec (pyStripU uws text.data) = some n →
              ((1 ≤ n → n ≤ sess.movies.length →
                ∃ m, sess.movies.get? (n - 1) = some m
                  ∧ delete_by_number uws ud udec true (some sess) text
                      = (some { sess with selected := some m }, .confirmPrompt m))
               ∧ ((n < 1 ∨ sess.movies.length < n) →
                  delete_by_number uws ud udec true (some sess) text
                    = (some sess, .errRange)))) := by
  intro uws ud udec sess text
  constructor
  · intro hnd
    simp [delete_by_number, hnd]
  · intro hd
    constructor
    · intro hnone
      simp [delete_by_number, hd, hnone]
    · intro n hint
      constructor
      · intro h1 hlen
        have hidx : n - 1 < sess.movies.length := by omega
        refine ⟨sess.movies.get ⟨n - 1, hidx⟩, List.get?_eq_get hidx, ?_⟩
        simp [delete_by_number, hd, hint]
        rw [dif_neg (by omega)]
      · intro hrange
        simp [delete_by_number, hd, hint, hrange]
        omega

/-- Witness for C7 on concrete snapshots: an accepted ASCII number, a
    rejected word, an out-of-range number, and an Arabic-Indic digit
    (U+0663, both a Python digit and a decimal digit of value 3) that
    the source accepts as selection 3. -/
theorem C7_witness :
    delete_by_number (fun _ => false) (fun _ => false) (fun _ => none)
        true (some ⟨1, [⟨"o1", "A"⟩, ⟨"o2", "B"⟩], none⟩) ("2")
      = (some ⟨1, [⟨"o1", "A"⟩, ⟨"o2", "B"⟩], some ⟨"o2", "B"⟩⟩,
         .confirmPrompt ⟨"o2", "B"⟩)
    ∧ delete_by_number (fun _ => false) (fun _ => false) (fun _ => none)
        true (some ⟨1, [⟨"o1", "A"⟩, ⟨"o2", "B"⟩], none⟩) ("abc")
      = (some ⟨1, [⟨"o1", "A"⟩, ⟨"o2", "B"⟩], none⟩, .errNotNumber)
    ∧ delete_by_number (fun _ => false) (fun _ => false) (fun _ => none)
        true (some ⟨1, [⟨"o1", "A"⟩, ⟨"o2", "B"⟩], none⟩) ("3")
      = (some ⟨1, [⟨"o1", "A"⟩, ⟨"o2", "B"⟩], none⟩, .errRange)
    ∧ delete_by_number (fun _ => false) (fun c => decide (c = '٣'))
        (fun c => if c = '٣' then some 3 else none)
        true (some ⟨1, [⟨"o1", "A"⟩, ⟨"o2", "B"⟩, ⟨"o3", "C"⟩], none⟩) ("٣")
      = (some ⟨1, [⟨"o1", "A"⟩, ⟨"o2", "B"⟩, ⟨"o3", "C"⟩], some ⟨"o3", "C"⟩⟩,
         .confirmPrompt ⟨"o3", "C"⟩) := by
  have h := C7_amended_unicode_validation (fun _ => false) (fun _ => false)
    (fun _ => none) ⟨1, [⟨"o1", "A"⟩, ⟨"o2", "B"⟩], none⟩ ("2")
  obtain ⟨m, hm, heq⟩ := (((h.2 (by decide)).2 2 (by decide)).1 (by decide) (by decide))
  have hm2 : m = (⟨"o2", "B"⟩ : DelMovie) := by
    have hsm : some m = some (⟨"o2", "B"⟩ : DelMovie) := by rw [← hm]; decide
    exact Option.some_inj.mp hsm
  refine ⟨?_, by decide, by decide, by decide⟩
  rw [heq, hm2]

/-- Inserting into the sorted list adds one element. -/
theorem length_insertByName (m : DelMovie) (l : List DelMovie) :
    (insertByName m l).length = l.length + 1 := by
  induction l with
  | nil => rfl
  | cons x xs ih =>
    by_cases h : x.name ≤ m.name <;> simp [insertByName, h, ih]

/-- The sort keeps the number of records. -/
theorem length_sortByName (l : List DelMovie) :
    (sortByName l).length = l.length := by
  induction l with
  | nil => rfl
  | cons x xs ih =>
    show (insertByName x (sortByName xs)).length = xs.length + 1
    rw [length_insertByName, ih]

/-- Claim C8: for page p >= 1, the listing shows the records of the
    name-ascending sort from skip = (p-1)*PAGE_SIZE, at most PAGE_SIZE of
    them; the Next control appears iff skip + PAGE_SIZE < total and the
    Previous control iff p > 1; for 25 records, page 1 shows the first 10
    with Next only and page 3 shows the last 5 with Previous only. -/
theorem C8_pagination :
    ∀ (db : List DelMovie) (p : Nat), 1 ≤ p →
      (list_movies db p).shown = ((sortByName db).drop ((p - 1) * PAGE_SIZE)).take PAGE_SIZE
      ∧ ((list_movies db p).hasNext = true ↔ (p - 1) * PAGE_SIZE + PAGE_SIZE < db.length)
      ∧ ((list_movies db p).hasPrev = true ↔ 1 < p)
      ∧ (db.length = 25 →
          ((list_movies db 1).shown = (sortByName db).take 10
            ∧ (list_movies db 1).shown.length = 10
            ∧ (list_movies db 1).hasNext = true ∧ (list_movies db 1).hasPrev = false)
          ∧ ((list_movies db 3).shown = (sortByName db).drop 20
            ∧ (list_movies db 3).shown.length = 5
            ∧ (list_movies db 3).hasNext = false ∧ (list_movies db 3).hasPrev = true)) := by
  intro db p hp
  refine ⟨rfl, ?_, ?_, ?_⟩
  · simp [list_movies]
  · simp [list_movies]
  · intro h25
    have hs : (sortByName db).length = 25 := by rw [length_sortByName, h25]
    have hd20 : ((sortByName db).drop 20).length = 5 := by
      rw [List.length_drop, hs]
    constructor
    · refine ⟨?_, ?_, ?_, ?_⟩
      · simp [list_movies, PAGE_SIZE]
      · simp [list_movies, PAGE_SIZE, List.length_take, hs]
      · simp [list_movies, PAGE_SIZE, h25]
      · simp [list_movies]
    · refine ⟨?_, ?_, ?_, ?_⟩
      · show ((sortByName db).drop ((3 - 1) * PAGE_SIZE)).take PAGE_SIZE = (sortByName db).drop 20
        have : (3 - 1) * PAGE_SIZE = 20 := by simp [PAGE_SIZE]
        rw [this]
        exact List.take_of_length_le (by rw [hd20]; simp [PAGE_SIZE])
      · show (((sortByName db).drop ((3 - 1) * PAGE_SIZE)).take PAGE_SIZE).length = 5
        have : (3 - 1) * PAGE_SIZE = 20 := by simp [PAGE_SIZE]
        rw [this, List.take_of_length_le (by rw [hd20]; simp [PAGE_SIZE]), hd20]
      · simp [list_movies, PAGE_SIZE, h25]
      · simp [list_movies]

/-- Witness for C8 on a concrete 25-record store. -/
theorem C8_witness :
    (list_movies (List.replicate 25 ⟨"x", "n"⟩) 1).shown
        = (sortByName (List.replicate 25 ⟨"x", "n"⟩)).take 10
    ∧ (list_movies (List.replicate 25 ⟨"x", "n"⟩) 1).hasNext = true
    ∧ (list_movies (List.replicate 25 ⟨"x", "n"⟩) 1).hasPrev = false
    ∧ (list_movies (List.replicate 25 ⟨"x", "n"⟩) 3).shown.length = 5
    ∧ (list_movies (List.replicate 25 ⟨"x", "n"⟩) 3).hasNext = false
    ∧ (list_movies (List.replicate 25 ⟨"x", "n"⟩) 3).hasPrev = true := by
  have h := C8_pagination (List.replicate 25 ⟨"x", "n"⟩) 1 (by decide)
  have h3 := C8_pagination (List.replicate 25 ⟨"x", "n"⟩) 3 (by decide)
  have h25 := (h.2.2.2 (by decide))
  exact ⟨h25.1.1, h25.1.2.2.1, h25.1.2.2.2,
         (h3.2.2.2 (by decide)).2.2.1, (h3.2.2.2 (by decide)).2.2.2.1,
         (h3.2.2.2 (by decide)).2.2.2.2⟩

/-! Membership lemmas through the normalizer pipeline, used for the
    ASCII invariant. -/

theorem mem_cwGo (p : Char → Bool) :
    ∀ (b : Bool) (l : List Char) (c : Char), c ∈ cwGo p b l → c = ' ' ∨ c ∈ l := by
  intro b l
  induction l generalizing b with
  | nil => intro c h; simp [cwGo] at h
  | cons x xs ih =>
    intro c h
    by_cases hp : p x = true
    · cases b with
      | true =>
        simp only [cwGo, hp, if_true] at h
        rcases ih true c h with h1 | h1
        · exact Or.inl h1
        · exact Or.inr (List.mem_cons_of_mem x h1)
      | false =>
        simp only [cwGo, hp, if_true] at h
        rcases List.mem_cons.mp h with h1 | h1
        · exact Or.inl h1
        · rcases ih true c h1 with h2 | h2
          · exact Or.inl h2
          · exact Or.inr (List.mem_cons_of_mem x h2)
    · simp only [cwGo, hp, if_false] at h
      rcases List.mem_cons.mp h with h1 | h1
      · exact Or.inr (h1 ▸ List.mem_cons_self x xs)
      · rcases ih false c h1 with h2 | h2
        · exact Or.inl h2
        · exact Or.inr (List.mem_cons_of_mem x h2)

theorem mem_rtGo :
    ∀ (l : List Char) (k : Nat) (c : Char), c ∈ rtGo k l → c = ' ' ∨ c ∈ l := by
  intro l
  induction l with
  | nil => intro k c h; cases k <;> simp [rtGo] at h
  | cons x xs ih =>
    intro k c h
    cases k with
    | succ n =>
      simp only [rtGo] at h
      rcases ih n c h with h1 | h1
      · exact Or.inl h1
      · exact Or.inr (List.mem_cons_of_mem x h1)
    | zero =>
      rcases htc : tagConsume (x :: xs) with _ | k2
      · simp only [rtGo, htc] at h
        rcases List.mem_cons.mp h with h1 | h1
        · exact Or.inr (h1 ▸ List.mem_cons_self x xs)
        · rcases ih 0 c h1 with h2 | h2
          · exact Or.inl h2
          · exact Or.inr (List.mem_cons_of_mem x h2)
      · simp only [rtGo, htc] at h
        rcases List.mem_cons.mp h with h1 | h1
        · exact Or.inl h1
        · rcases ih (k2 - 1) c h1 with h2 | h2
          · exact Or.inl h2
          · exact Or.inr (List.mem_cons_of_mem x h2)

theorem mem_stripEnds (p : Char → Bool) (l : List Char) (c : Char)
    (h : c ∈ stripEnds p l) : c ∈ l := by
  simp only [stripEnds, List.mem_reverse] at h
  have h1 := (List.dropWhile_sublist p).mem h
  rw [List.mem_reverse] at h1
  exact (List.dropWhile_sublist p).mem h1

theorem mem_stripWsBoth (l : List Char) (c : Char) (h : c ∈ stripWsBoth l) :
    c ∈ l := mem_stripEnds isPyStripWs l c h

theorem mem_stripSeps (l : List Char) (c : Char) (h : c ∈ stripSeps l) :
    c ∈ l := mem_stripEnds isSep l c h

theorem take4Digits_mem (l y r : List Char) (h : take4Digits l = some (y, r)) :
    (∀ c ∈ y, c ∈ l) ∧ List.Sublist r l := by
  match l with
  | [] => simp [take4Digits] at h
  | [a] => simp [take4Digits] at h
  | [a, b] => simp [take4Digits] at h
  | [a, b, c] => simp [take4Digits] at h
  | a :: b :: c :: d :: rest =>
    simp only [take4Digits] at h
    by_cases hd : (a.isDigit && b.isDigit && c.isDigit && d.isDigit) = true
    · rw [if_pos hd] at h
      obtain ⟨hy, hr⟩ := Prod.mk.injEq .. ▸ Option.some_inj.mp h
      subst hy; subst hr
      constructor
      · intro x hx
        simp only [List.mem_cons] at hx ⊢
        tauto
      · have : rest = (a :: b :: c :: d :: rest).drop 4 := rfl
        rw [this]
        exact List.drop_sublist 4 _
    · rw [if_neg hd] at h
      exact absurd h (by simp)

theorem firstLang_mem :
    ∀ (ws : List String) (l lt : List Char), firstLang ws l = some lt →
      ∀ c ∈ lt, c ∈ l := by
  intro ws
  induction ws with
  | nil => intro l lt h; simp [firstLang] at h
  | cons w rest ih =>
    intro l lt h c hc
    by_cases hm : (matchCI w.toList l).isSome = true
    · simp only [firstLang, hm, if_true] at h
      have : lt = l.take w.length := (Option.some_inj.mp h).symm
      subst this
      exact (List.take_sublist _ _).mem hc
    · simp only [firstLang, hm, if_false] at h
      exact ih l lt h c hc

theorem dropOpenParen_sublist (l : List Char) :
    List.Sublist (dropOpenParen l) l := by
  unfold dropOpenParen
  by_cases h : l.head? = some '(' <;> simp [h, List.tail_sublist, List.Sublist.refl]

theorem dropCloseParen_sublist (l : List Char) :
    List.Sublist (dropCloseParen l) l := by
  unfold dropCloseParen
  by_cases h : l.head? = some ')' <;> simp [h, List.tail_sublist, List.Sublist.refl]

theorem parseYearLang_mem (l : List Char) (y : List Char) (lg : Option (List Char))
    (h : parseYearLang l = some (y, lg)) :
    (∀ c ∈ y, c ∈ l) ∧ (∀ lt, lg = some lt → ∀ c ∈ lt, c ∈ l) := by
  simp only [parseYearLang] at h
  have sub2 : List.Sublist (dropOpenParen (l.dropWhile isWsU)) l :=
    (dropOpenParen_sublist _).trans (List.dropWhile_sublist isWsU)
  rcases h4 : take4Digits (dropOpenParen (l.dropWhile isWsU)) with _ | ⟨y0, r3⟩
  · rw [h4] at h; exact absurd h (by simp)
  · rw [h4] at h
    obtain ⟨hmem, hsub3⟩ := take4Digits_mem _ _ _ h4
    have hy : y0 = y ∧ (firstLang langWords ((dropCloseParen r3).dropWhile isWsU)) = lg := by
      have := Option.some_inj.mp h
      exact ⟨congrArg Prod.fst this, congrArg Prod.snd this⟩
    obtain ⟨hy0, hlg⟩ := hy
    subst hy0
    constructor
    · intro c hc
      exact sub2.mem (hmem c hc)
    · intro lt hlt c hc
      have sub5 : List.Sublist ((dropCloseParen r3).dropWhile isWsU) l :=
        ((List.dropWhile_sublist isWsU).trans (dropCloseParen_sublist r3)).trans
          (hsub3.trans sub2)
      rw [← hlg] at hlt
      exact sub5.mem (firstLang_mem langWords _ lt hlt c hc)

theorem extractAux_mem :
    ∀ (l acc t y : List Char) (lg : Option (List Char)),
      extractAux acc l = some (t, y, lg) →
      ∀ c : Char,
        (c ∈ t → (c ∈ acc ∨ c ∈ l)) ∧ (c ∈ y → c ∈ l) ∧
        (∀ lt, lg = some lt → c ∈ lt → c ∈ l) := by
  intro l
  induction l with
  | nil =>
    intro acc t y lg h
    simp only [extractAux] at h
    have : parseYearLang [] = none := rfl
    rw [this] at h
    exact absurd h (by simp)
  | cons x xs ih =>
    intro acc t y lg h c
    rcases hp : parseYearLang (x :: xs) with _ | ⟨y0, lg0⟩
    · simp only [extractAux, hp] at h
      by_cases hnl : x = Char.ofNat 10
      · rw [if_pos hnl] at h; exact absurd h (by simp)
      · rw [if_neg hnl] at h
        obtain ⟨h1, h2, h3⟩ := ih (x :: acc) t y lg h c
        refine ⟨fun ht => ?_, fun hy => List.mem_cons_of_mem x (h2 hy),
          fun lt hlt hc => List.mem_cons_of_mem x (h3 lt hlt hc)⟩
        rcases h1 ht with hacc | hxs
        · rcases List.mem_cons.mp hacc with hcx | hcacc
          · exact Or.inr (hcx ▸ List.mem_cons_self x xs)
          · exact Or.inl hcacc
        · exact Or.inr (List.mem_cons_of_mem x hxs)
    · simp only [extractAux, hp] at h
      obtain ⟨ht, hy, hlg⟩ : acc.reverse = t ∧ y0 = y ∧ lg0 = lg := by
        have := Option.some_inj.mp h
        refine ⟨congrArg (fun z => z.1) this, ?_, ?_⟩
        · exact congrArg (fun z => z.2.1) this
        · exact congrArg (fun z => z.2.2) this
      subst ht; subst hy; subst hlg
      obtain ⟨hmy, hmlg⟩ := parseYearLang_mem _ _ _ hp
      exact ⟨fun ht => Or.inl (List.mem_reverse.mp ht),
        fun hy => hmy c hy, fun lt hlt hc => hmlg lt hlt c hc⟩

theorem extract_mem (l t y : List Char) (lg : Option (List Char))
    (h : extract l = some (t, y, lg)) (c : Char) :
    (c ∈ t → c ∈ l) ∧ (c ∈ y → c ∈ l) ∧
    (∀ lt, lg = some lt → c ∈ lt → c ∈ l) := by
  obtain ⟨h1, h2, h3⟩ := extractAux_mem l [] t y lg h c
  exact ⟨fun ht => (h1 ht).resolve_left (by simp), h2, h3⟩

theorem stage3_ascii (uw : Char → Bool) (l : List Char) :
    ∀ c ∈ stage3 uw l, c.val ≤ 127 := by
  intro c hc
  simp only [stage3, stripNonAscii, List.mem_filter] at hc
  exact of_decide_eq_true hc.2

theorem stage4_ascii (uw : Char → Bool) (l : List Char) :
    ∀ c ∈ stage4 uw l, c.val ≤ 127 := by
  intro c hc
  have h1 := mem_stripWsBoth _ _ hc
  rcases mem_cwGo isWsU false (stage3 uw l) c h1 with h2 | h2
  · subst h2; decide
  · exact stage3_ascii uw l c h2

theorem stage5_ascii (uw : Char → Bool) (l : List Char) :
    ∀ c ∈ stage5 uw l, c.val ≤ 127 := by
  intro c hc
  have h1 := mem_stripWsBoth _ _ hc
  rcases mem_rtGo (stage4 uw l) 0 c h1 with h2 | h2
  · subst h2; decide
  · exact stage4_ascii uw l c h2

theorem clean_filenameL_ascii (uw : Char → Bool) (l : List Char) :
    ∀ c ∈ clean_filenameL uw l, c.val ≤ 127 := by
  intro c hc
  rcases hx : extract (stage5 uw l) with _ | ⟨t, y, lg⟩
  · simp only [clean_filenameL, hx] at hc
    exact stage5_ascii uw l c (mem_stripSeps _ _ hc)
  · simp only [clean_filenameL, hx] at hc
    simp only [rebuildName] at hc
    rcases mem_cwGo isReWs false _ c hc with h1 | h1
    · subst h1; decide
    · have h2 := mem_stripWsBoth _ _ h1
      obtain ⟨hmt, hmy, hmlg⟩ := extract_mem (stage5 uw l) t y lg hx c
      rcases List.mem_append.mp h2 with h3 | h3
      · exact stage5_ascii uw l c (hmt (mem_stripSeps _ _ h3))
      · rcases List.mem_cons.mp h3 with h4 | h4
        · subst h4; decide
        · rcases List.mem_cons.mp h4 with h5 | h5
          · subst h5; decide
          · rcases List.mem_append.mp h5 with h6 | h6
            · exact stage5_ascii uw l c (hmy h6)
            · rcases List.mem_cons.mp h6 with h7 | h7
              · subst h7; decide
              · rcases List.mem_cons.mp h7 with h8 | h8
                · subst h8; decide
                · rcases hlg : lg with _ | lt
                  · rw [hlg] at h8; simp at h8
                  · rw [hlg] at h8
                    exact stage5_ascii uw l c (hmlg lt hlg h8)

/-- Claim C9: for every input (over any classification of non-ASCII
    characters for the leading-strip step), the output of clean_filename
    consists of ASCII characters only: line 110 removes every non-ASCII
    character and the later steps introduce only spaces and
    parentheses. -/
theorem C9_output_ascii :
    ∀ (uw : Char → Bool) (s : String), asciiOnly (clean_filename uw s).data = true := by
  intro uw s
  rw [asciiOnly, List.all_eq_true]
  intro c hc
  rw [decide_eq_true_iff]
  exact clean_filenameL_ascii uw s.data c hc

/-- Counterexample for C4: after the cleanup steps the filename
    Thor 2011 Dubbed Tamil still contains a 4-digit year and the language
    Tamil, yet the output is Thor (2011), which ends with no language
    word at all: the language group of line 120 only captures when the
    language immediately follows the year (across whitespace, underscores
    and an optional closing parenthesis), so the claimed form
    Title (Year) Language is not produced. -/
theorem C4_counterexample :
    clean_filename noUW "Thor 2011 Dubbed Tamil" = "Thor (2011)"
    ∧ has4DigitRun (stage5 noUW ("Thor 2011 Dubbed Tamil").data) = true
    ∧ occursCI (("Tamil").data) (stage5 noUW ("Thor 2011 Dubbed Tamil").data) = true
    ∧ langWords.all
        (fun w => !endsCI w.data (clean_filename noUW "Thor 2011 Dubbed Tamil").data)
      = true := by
  refine ⟨by decide, by decide, by decide, by decide⟩

/-- Counterexample for C5: on TS -Movie the pattern does not match, but
    the result is Movie, not the step-4 string trimmed of trailing
    separators (which would be TS -Movie): the code applies the denylist
    removal of line 117 first (TS is a tag), and its strip(" -._") of
    line 132 removes separators from BOTH ends, not only trailing ones
    (the leading dash left by the tag removal goes too). -/
theorem C5_counterexample :
    extract (stage5 noUW ("TS -Movie").data) = none
    ∧ clean_filename noUW "TS -Movie" = "Movie"
    ∧ stripSepsRight (stage4 noUW ("TS -Movie").data) = ("TS -Movie").data
    ∧ ("Movie").data ≠ ("TS -Movie").data
    ∧ stripSepsRight (stage5 noUW ("TS -Movie").data) = ("-Movie").data
    ∧ ("Movie").data ≠ ("-Movie").data := by
  refine ⟨by decide, by decide, by decide, by decide, by decide, by decide⟩

/-! Bridges from the character classes to Nat code points. -/

theorem uleNat (a b : UInt32) : a ≤ b ↔ a.toNat ≤ b.toNat := by
  rw [UInt32.le_def, BitVec.le_def]
  rfl

theorem char_eq_iff_toNat (a b : Char) : a = b ↔ a.toNat = b.toNat := by
  constructor
  · intro h; rw [h]
  · intro h
    have ha := Char.ofNat_toNat a
    rw [h, Char.ofNat_toNat] at ha
    exact ha.symm

theorem isReWs_iff (c : Char) :
    isReWs c = true ↔
      (c.toNat = 32 ∨ (9 ≤ c.toNat ∧ c.toNat ≤ 13) ∨
       (28 ≤ c.toNat ∧ c.toNat ≤ 31)) := by
  have h32 : ((' ' : Char).toNat = 32) := by decide
  simp only [isReWs, Bool.or_eq_true, Bool.and_eq_true, decide_eq_true_iff,
    char_eq_iff_toNat, h32, uleNat]
  constructor
  · rintro ((h | ⟨h1, h2⟩) | ⟨h1, h2⟩)
    · exact Or.inl h
    · exact Or.inr (Or.inl ⟨h1, h2⟩)
    · exact Or.inr (Or.inr ⟨h1, h2⟩)
  · rintro (h | ⟨h1, h2⟩ | ⟨h1, h2⟩)
    · exact Or.inl (Or.inl h)
    · exact Or.inl (Or.inr ⟨h1, h2⟩)
    · exact Or.inr ⟨h1, h2⟩

theorem isSep_iff (c : Char) :
    isSep c = true ↔
      (c.toNat = 32 ∨ c.toNat = 45 ∨ c.toNat = 46 ∨ c.toNat = 95) := by
  have h1 : ((' ' : Char).toNat = 32) := by decide
  have h2 : (('-' : Char).toNat = 45) := by decide
  have h3 : (('.' : Char).toNat = 46) := by decide
  have h4 : (('_' : Char).toNat = 95) := by decide
  simp only [isSep, Bool.or_eq_true, decide_eq_true_iff, char_eq_iff_toNat,
    h1, h2, h3, h4]
  tauto

theorem isDigit_iff (c : Char) :
    c.isDigit = true ↔ (48 ≤ c.toNat ∧ c.toNat ≤ 57) := by
  simp only [Char.isDigit, Bool.and_eq_true, decide_eq_true_iff, ge_iff_le,
    uleNat]
  have e1 : ((48 : UInt32).toNat = 48) := by decide
  have e2 : ((57 : UInt32).toNat = 57) := by decide
  rw [e1, e2]
  exact Iff.rfl

theorem isAlpha_iff (c : Char) :
    c.isAlpha = true ↔
      ((65 ≤ c.toNat ∧ c.toNat ≤ 90) ∨ (97 ≤ c.toNat ∧ c.toNat ≤ 122)) := by
  simp only [Char.isAlpha, Char.isUpper, Char.isLower, Bool.or_eq_true,
    Bool.and_eq_true, decide_eq_true_iff, ge_iff_le, uleNat]
  have e1 : ((65 : UInt32).toNat = 65) := by decide
  have e2 : ((90 : UInt32).toNat = 90) := by decide
  have e3 : ((97 : UInt32).toNat = 97) := by decide
  have e4 : ((122 : UInt32).toNat = 122) := by decide
  rw [e1, e2, e3, e4]
  exact Iff.rfl

theorem isWsU_iff (c : Char) :
    isWsU c = true ↔
      (c.toNat = 32 ∨ (9 ≤ c.toNat ∧ c.toNat ≤ 13) ∨
       (28 ≤ c.toNat ∧ c.toNat ≤ 31) ∨ c.toNat = 95) := by
  have h4 : (('_' : Char).toNat = 95) := by decide
  simp only [isWsU, Bool.or_eq_true, isReWs_iff, decide_eq_true_iff,
    char_eq_iff_toNat, h4]
  tauto

theorem isAsciiWord_iff (c : Char) :
    isAsciiWord c = true ↔
      ((65 ≤ c.toNat ∧ c.toNat ≤ 90) ∨ (97 ≤ c.toNat ∧ c.toNat ≤ 122) ∨
       (48 ≤ c.toNat ∧ c.toNat ≤ 57) ∨ c.toNat = 95) := by
  have h4 : (('_' : Char).toNat = 95) := by decide
  simp only [isAsciiWord, Bool.or_eq_true, isAlpha_iff, isDigit_iff,
    decide_eq_true_iff, char_eq_iff_toNat, h4]
  tauto

theorem isPyStripWs_eq (c : Char) : isPyStripWs c = isReWs c := rfl

theorem char_toNat_ofNat (m : Nat) (h : m.isValidChar) :
    (Char.ofNat m).toNat = m := by
  have hlt : m < 2 ^ 32 := by
    rcases h with h1 | ⟨h1, h2⟩ <;> omega
  simp [Char.ofNat, dif_pos h, Char.ofNatAux, Char.toNat, UInt32.toNat,
    UInt32.ofNat', Nat.mod_eq_of_lt hlt]

theorem toLower_toNat (c : Char) :
    c.toLower.toNat =
      if 65 ≤ c.toNat ∧ c.toNat ≤ 90 then c.toNat + 32 else c.toNat := by
  unfold Char.toLower
  by_cases h : 65 ≤ c.toNat ∧ c.toNat ≤ 90
  · rw [if_pos h, if_pos (show c.toNat ≥ 65 ∧ c.toNat ≤ 90 from ⟨h.1, h.2⟩)]
    exact char_toNat_ofNat _ (Or.inl (by omega))
  · rw [if_neg h, if_neg (show ¬(c.toNat ≥ 65 ∧ c.toNat ≤ 90) by omega)]

theorem lcEq_iff (a b : Char) :
    lcEq a b = true ↔ a.toLower.toNat = b.toLower.toNat := by
  simp only [lcEq, decide_eq_true_iff, char_eq_iff_toNat]

/-- A case-insensitive match with a letter only matches letters. -/
theorem lcEq_alpha (p c : Char) (hp : p.isAlpha = true) (h : lcEq p c = true) :
    c.isAlpha = true := by
  rw [isAlpha_iff] at hp ⊢
  rw [lcEq_iff, toLower_toNat, toLower_toNat] at h
  split at h <;> split at h <;> omega

theorem alpha_not_reWs (c : Char) (h : c.isAlpha = true) : isReWs c = false := by
  rw [isAlpha_iff] at h
  cases hw : isReWs c
  · rfl
  · rw [isReWs_iff] at hw; omega

theorem alpha_not_sep (c : Char) (h : c.isAlpha = true) : isSep c = false := by
  rw [isAlpha_iff] at h
  cases hw : isSep c
  · rfl
  · rw [isSep_iff] at hw; omega

theorem alpha_not_wsU (c : Char) (h : c.isAlpha = true) : isWsU c = false := by
  rw [isAlpha_iff] at h
  cases hw : isWsU c
  · rfl
  · rw [isWsU_iff] at hw; omega

theorem alpha_not_digit (c : Char) (h : c.isAlpha = true) : c.isDigit = false := by
  rw [isAlpha_iff] at h
  cases hw : c.isDigit
  · rfl
  · rw [isDigit_iff] at hw; omega

theorem digit_not_reWs (c : Char) (h : c.isDigit = true) : isReWs c = false := by
  rw [isDigit_iff] at h
  cases hw : isReWs c
  · rfl
  · rw [isReWs_iff] at hw; omega

theorem digit_not_sep (c : Char) (h : c.isDigit = true) : isSep c = false := by
  rw [isDigit_iff] at h
  cases hw : isSep c
  · rfl
  · rw [isSep_iff] at hw; omega

theorem digit_not_wsU (c : Char) (h : c.isDigit = true) : isWsU c = false := by
  rw [isDigit_iff] at h
  cases hw : isWsU c
  · rfl
  · rw [isWsU_iff] at hw; omega

/-! Structural lemmas on the end-stripping and run-collapsing scans. -/

theorem dropWhile_cons_neg (p : Char → Bool) (c : Char) (l : List Char)
    (h : p c = false) : (c :: l).dropWhile p = c :: l := by
  rw [List.dropWhile_cons, if_neg (by simp [h])]

theorem dropWhile_cons_pos (p : Char → Bool) (c : Char) (l : List Char)
    (h : p c = true) : (c :: l).dropWhile p = l.dropWhile p := by
  rw [List.dropWhile_cons, if_pos h]

theorem stripEnds_nil (p : Char → Bool) : stripEnds p [] = [] := rfl

theorem stripEnds_cons_p (p : Char → Bool) (c : Char) (l : List Char)
    (h : p c = true) : stripEnds p (c :: l) = stripEnds p l := by
  unfold stripEnds
  rw [dropWhile_cons_pos p c l h]

theorem stripEnds_eq_self (p : Char → Bool) (l : List Char)
    (hh : ∀ c, l.head? = some c → p c = false)
    (hl : ∀ c, l.getLast? = some c → p c = false) :
    stripEnds p l = l := by
  unfold stripEnds
  have h1 : l.dropWhile p = l := by
    cases l with
    | nil => rfl
    | cons c t => exact dropWhile_cons_neg p c t (hh c rfl)
  rw [h1]
  have h2 : l.reverse.dropWhile p = l.reverse := by
    cases hr : l.reverse with
    | nil => rfl
    | cons c t =>
      have hc : l.getLast? = some c := by
        rw [← List.head?_reverse, hr]; rfl
      rw [← hr]
      cases hrr : l.reverse with
      | nil => rfl
      | cons d u =>
        have : d = c := by rw [hrr] at hr; exact (List.cons.injEq .. ▸ hr).1
        subst this
        exact dropWhile_cons_neg p d u (hl d hc)
  rw [h2, List.reverse_reverse]

theorem stripEnds_append_p (p : Char → Bool) (l : List Char) (c : Char)
    (hc : p c = true) : stripEnds p (l ++ [c]) = stripEnds p l := by
  unfold stripEnds
  rcases hdl : l.dropWhile p with _ | ⟨d, rest⟩
  · rw [List.dropWhile_append, hdl]
    simp only [List.isEmpty_nil, if_true]
    rw [dropWhile_cons_pos p c [] hc]
    rfl
  · rw [List.dropWhile_append, hdl]
    simp only [List.isEmpty_cons, if_false, Bool.false_eq_true]
    have : ((d :: rest) ++ [c]).reverse = c :: (d :: rest).reverse := by simp
    rw [this, dropWhile_cons_pos p c _ hc]

/-- The head the leading strip leaves fails the class. -/
theorem dropWhile_head_not (p : Char → Bool) (l : List Char) (c : Char)
    (h : (l.dropWhile p).head? = some c) : p c = false := by
  induction l with
  | nil => simp [List.dropWhile] at h
  | cons x xs ih =>
    by_cases hx : p x = true
    · rw [dropWhile_cons_pos p x xs hx] at h
      exact ih h
    · rw [dropWhile_cons_neg p x xs (by simpa using hx)] at h
      simp only [List.head?_cons, Option.some_inj] at h
      subst h
      simpa using hx

theorem dropWhile_eq_drop_ex (p : Char → Bool) (l : List Char) :
    ∃ n, l.dropWhile p = l.drop n := by
  induction l with
  | nil => exact ⟨0, rfl⟩
  | cons x xs ih =>
    by_cases h : p x = true
    · obtain ⟨n, hn⟩ := ih
      exact ⟨n + 1, by rw [dropWhile_cons_pos p x xs h]; simpa using hn⟩
    · exact ⟨0, by rw [dropWhile_cons_neg p x xs (by simpa using h)]; rfl⟩

theorem head?_take_some (l : List Char) (n : Nat) (c : Char)
    (h : (l.take n).head? = some c) : l.head? = some c := by
  cases n with
  | zero => simp at h
  | succ m =>
    cases l with
    | nil => simp at h
    | cons x xs => simpa using h

/-- The head of a stripped list fails the class: the trailing strip only
    removes a suffix, so the head is the head the leading strip left. -/
theorem stripEnds_head_not (p : Char → Bool) (l : List Char) (c : Char)
    (h : (stripEnds p l).head? = some c) : p c = false := by
  unfold stripEnds at h
  obtain ⟨n, hn⟩ := dropWhile_eq_drop_ex p (l.dropWhile p).reverse
  rw [hn] at h
  have hrw : ((l.dropWhile p).reverse.drop n).reverse
      = (l.dropWhile p).take ((l.dropWhile p).length - n) := by
    rw [List.reverse_drop]
    simp
  rw [hrw] at h
  exact dropWhile_head_not p l c (head?_take_some _ _ c h)

/-- The last element of a stripped list fails the class. -/
theorem stripEnds_last_not (p : Char → Bool) (l : List Char) (c : Char)
    (h : (stripEnds p l).getLast? = some c) : p c = false := by
  unfold stripEnds at h
  rw [List.getLast?_reverse] at h
  exact dropWhile_head_not p ((l.dropWhile p).reverse) c h

theorem cwGo_all_not (p : Char → Bool) :
    ∀ (b : Bool) (l : List Char), (∀ c ∈ l, p c = false) → cwGo p b l = l := by
  intro b l
  induction l generalizing b with
  | nil => intro _; rfl
  | cons x xs ih =>
    intro h
    have hx : p x = false := h x (List.mem_cons_self x xs)
    simp only [cwGo, hx, Bool.false_eq_true, if_false]
    rw [ih false (fun c hc => h c (List.mem_cons_of_mem x hc))]

theorem cwGo_cons_not (p : Char → Bool) (b : Bool) (x : Char) (xs : List Char)
    (hx : p x = false) : cwGo p b (x :: xs) = x :: cwGo p false xs := by
  simp [cwGo, hx]

theorem cwGo_cons_p_false (p : Char → Bool) (x : Char) (xs : List Char)
    (hx : p x = true) : cwGo p false (x :: xs) = ' ' :: cwGo p true xs := by
  simp [cwGo, hx]

theorem cwGo_cons_p_true (p : Char → Bool) (x : Char) (xs : List Char)
    (hx : p x = true) : cwGo p true (x :: xs) = cwGo p true xs := by
  simp [cwGo, hx]

/-- The collapse scan distributes over an append when the left part ends
    with a non-class character. -/
theorem cwGo_append_last_not (p : Char → Bool) (A : List Char) (z : Char)
    (hz : A.getLast? = some z) (hpz : p z = false) :
    ∀ (b : Bool) (B : List Char),
      cwGo p b (A ++ B) = cwGo p b A ++ cwGo p false B := by
  induction A with
  | nil => simp at hz
  | cons a A' ih =>
    intro b B
    cases A' with
    | nil =>
      have ha : a = z := by simpa using hz
      subst ha
      simp [cwGo, hpz]
    | cons a2 A'' =>
      have hz' : (a2 :: A'').getLast? = some z := by
        rw [← List.getLast?_cons_cons (a := a)]; exact hz
      by_cases ha : p a = true
      · cases b with
        | false =>
          rw [List.cons_append, cwGo_cons_p_false p a _ ha,
            cwGo_cons_p_false p a _ ha, ih hz' true B, List.cons_append]
        | true =>
          rw [List.cons_append, cwGo_cons_p_true p a _ ha,
            cwGo_cons_p_true p a _ ha, ih hz' true B]
      · rw [List.cons_append, cwGo_cons_not p b a _ (by simpa using ha),
          cwGo_cons_not p b a _ (by simpa using ha), ih hz' false B,
          List.cons_append]

/-- The collapse scan distributes over an append whose left part is
    entirely outside the class. -/
theorem cwGo_append_all_not (p : Char → Bool) (A : List Char)
    (hA : ∀ c ∈ A, p c = false) (B : List Char) :
    cwGo p false (A ++ B) = A ++ cwGo p false B := by
  induction A with
  | nil => simp
  | cons a A' ih =>
    rw [List.cons_append,
      cwGo_cons_not p false a _ (hA a (List.mem_cons_self a A')),
      ih (fun c hc => hA c (List.mem_cons_of_mem a hc)), List.cons_append]

theorem cwGo_false_eq_nil_iff (p : Char → Bool) (l : List Char) :
    cwGo p false l = [] ↔ l = [] := by
  cases l with
  | nil => simp [cwGo]
  | cons x xs =>
    by_cases hx : p x = true
    · rw [cwGo_cons_p_false p x xs hx]; simp
    · rw [cwGo_cons_not p false x xs (by simpa using hx)]; simp

/-- A case-insensitive match decomposes the input and pairs every matched
    character with a pattern character. -/
theorem matchCI_some :
    ∀ (p l r : List Char), matchCI p l = some r →
      l = l.take p.length ++ r ∧ (l.take p.length).length = p.length ∧
      ∀ c ∈ l.take p.length, ∃ pc ∈ p, lcEq pc c = true := by
  intro p
  induction p with
  | nil =>
    intro l r h
    simp only [matchCI, Option.some_inj] at h
    subst h
    simp
  | cons pc ps ih =>
    intro l r h
    cases l with
    | nil => simp [matchCI] at h
    | cons c cs =>
      by_cases he : lcEq pc c = true
      · simp only [matchCI, he, if_true] at h
        obtain ⟨h1, h2, h3⟩ := ih cs r h
        refine ⟨?_, ?_, ?_⟩
        · simp only [List.length_cons, List.take_succ_cons, List.cons_append]
          rw [← h1]
        · simp only [List.length_cons, List.take_succ_cons, List.length_cons]
          rw [h2]
        · intro d hd
          simp only [List.length_cons, List.take_succ_cons, List.mem_cons] at hd
          rcases hd with hd | hd
          · exact ⟨pc, List.mem_cons_self pc ps, hd ▸ he⟩
          · obtain ⟨qc, hq1, hq2⟩ := h3 d hd
            exact ⟨qc, List.mem_cons_of_mem pc hq1, hq2⟩
      · simp [matchCI, he] at h

theorem take4Digits_spec (l y r : List Char) (h : take4Digits l = some (y, r)) :
    y.length = 4 ∧ (∀ c ∈ y, c.isDigit = true) ∧ l = y ++ r := by
  match l with
  | [] => simp [take4Digits] at h
  | [a] => simp [take4Digits] at h
  | [a, b] => simp [take4Digits] at h
  | [a, b, c] => simp [take4Digits] at h
  | a :: b :: c :: d :: rest =>
    simp only [take4Digits] at h
    by_cases hd : (a.isDigit && b.isDigit && c.isDigit && d.isDigit) = true
    · rw [if_pos hd] at h
      obtain ⟨hy, hr⟩ := Prod.mk.injEq .. ▸ Option.some_inj.mp h
      subst hy; subst hr
      simp only [Bool.and_eq_true] at hd
      refine ⟨rfl, ?_, rfl⟩
      intro x hx
      simp only [List.mem_cons, List.not_mem_nil, or_false] at hx
      rcases hx with hx | hx | hx | hx <;> subst hx
      · exact hd.1.1.1
      · exact hd.1.1.2
      · exact hd.1.2
      · exact hd.2
    · rw [if_neg hd] at h
      exact absurd h (by simp)

theorem has4DigitRun_cons_of (x : Char) (t : List Char)
    (h : has4DigitRun t = true) : has4DigitRun (x :: t) = true := by
  match t with
  | [] => simp [has4DigitRun] at h
  | [a] => simp [has4DigitRun] at h
  | [a, b] => simp [has4DigitRun] at h
  | [a, b, c] => simp [has4DigitRun] at h
  | a :: b :: c :: d :: rest =>
    simp only [has4DigitRun, Bool.or_eq_true] at h ⊢
    tauto

theorem has4DigitRun_append_right (pre s : List Char)
    (h : has4DigitRun s = true) : has4DigitRun (pre ++ s) = true := by
  induction pre with
  | nil => simpa using h
  | cons x xs ih => exact has4DigitRun_cons_of x _ ih

theorem has4DigitRun_head4 (a b c d : Char) (rest : List Char)
    (h : (a.isDigit && b.isDigit && c.isDigit && d.isDigit) = true) :
    has4DigitRun (a :: b :: c :: d :: rest) = true := by
  simp only [has4DigitRun, Bool.or_eq_true]
  exact Or.inl h

/-- Strengthened membership for the collapse scan: every output character
    is a space or an input character outside the class. -/
theorem mem_cwGo_strong (p : Char → Bool) :
    ∀ (b : Bool) (l : List Char) (c : Char),
      c ∈ cwGo p b l → c = ' ' ∨ (c ∈ l ∧ p c = false) := by
  intro b l
  induction l generalizing b with
  | nil => intro c h; simp [cwGo] at h
  | cons x xs ih =>
    intro c h
    by_cases hx : p x = true
    · cases b with
      | true =>
        rw [cwGo_cons_p_true p x xs hx] at h
        rcases ih true c h with h1 | ⟨h1, h2⟩
        · exact Or.inl h1
        · exact Or.inr ⟨List.mem_cons_of_mem x h1, h2⟩
      | false =>
        rw [cwGo_cons_p_false p x xs hx] at h
        rcases List.mem_cons.mp h with h1 | h1
        · exact Or.inl h1
        · rcases ih true c h1 with h2 | ⟨h2, h3⟩
          · exact Or.inl h2
          · exact Or.inr ⟨List.mem_cons_of_mem x h2, h3⟩
    · rw [cwGo_cons_not p b x xs (by simpa using hx)] at h
      rcases List.mem_cons.mp h with h1 | h1
      · subst h1; exact Or.inr ⟨List.mem_cons_self c xs, by simpa using hx⟩
      · rcases ih false c h1 with h2 | ⟨h2, h3⟩
        · exact Or.inl h2
        · exact Or.inr ⟨List.mem_cons_of_mem x h2, h3⟩

theorem reWs_wsU (c : Char) (h : isReWs c = true) : isWsU c = true := by
  simp [isWsU, h]

/-- After step 4 every whitespace character is a plain space. -/
theorem wsSpace_stage4 (uw : Char → Bool) (l : List Char) :
    ∀ c ∈ stage4 uw l, isReWs c = true → c = ' ' := by
  intro c hc hw
  have h1 := mem_stripEnds isPyStripWs _ c hc
  rcases mem_cwGo_strong isWsU false _ c h1 with h2 | ⟨_, h3⟩
  · exact h2
  · rw [reWs_wsU c hw] at h3
    exact absurd h3 (by simp)

/-- After step 5 every whitespace character is a plain space. -/
theorem wsSpace_stage5 (uw : Char → Bool) (l : List Char) :
    ∀ c ∈ stage5 uw l, isReWs c = true → c = ' ' := by
  intro c hc hw
  have h1 := mem_stripEnds isPyStripWs _ c hc
  rcases mem_rtGo _ 0 c h1 with h2 | h2
  · exact h2
  · exact wsSpace_stage4 uw l c h2 hw

/-- The step 5 output contains no newline. -/
theorem noNl_stage5 (uw : Char → Bool) (l : List Char) :
    Char.ofNat 10 ∉ stage5 uw l := by
  intro h
  have := wsSpace_stage5 uw l _ h (by decide)
  exact absurd this (by decide)

theorem dropOpenParen_eq_drop (l : List Char) :
    ∃ m, dropOpenParen l = l.drop m := by
  unfold dropOpenParen
  by_cases h : l.head? = some '('
  · exact ⟨1, by rw [if_pos h]; cases l <;> rfl⟩
  · exact ⟨0, by rw [if_neg h]; rfl⟩

/-- A successful year parse implies a 4-digit run in the input. -/
theorem parseYearLang_some_run (l : List Char) (y : List Char)
    (lg : Option (List Char)) (h : parseYearLang l = some (y, lg)) :
    has4DigitRun l = true := by
  simp only [parseYearLang] at h
  rcases h4 : take4Digits (dropOpenParen (l.dropWhile isWsU)) with _ | ⟨y0, r3⟩
  · rw [h4] at h; exact absurd h (by simp)
  · obtain ⟨hlen, hdig, heq⟩ := take4Digits_spec _ _ _ h4
    obtain ⟨n, hn⟩ := dropWhile_eq_drop_ex isWsU l
    obtain ⟨m, hm⟩ := dropOpenParen_eq_drop (l.dropWhile isWsU)
    have hd : dropOpenParen (l.dropWhile isWsU) = (l.drop n).drop m := by
      rw [hm, hn]
    rw [List.drop_drop] at hd
    have hrun2 : has4DigitRun (dropOpenParen (l.dropWhile isWsU)) = true := by
      match y0, hlen with
      | [a, b, c, d], _ =>
        rw [heq]
        apply has4DigitRun_head4
        simp only [Bool.and_eq_true]
        refine ⟨⟨⟨?_, ?_⟩, ?_⟩, ?_⟩ <;> apply hdig <;> simp
    have hsplit : l = l.take (n + m) ++ l.drop (n + m) :=
      (List.take_append_drop _ l).symm
    rw [hsplit]
    apply has4DigitRun_append_right
    rw [← hd]
    exact hrun2

theorem digit_ne_open_paren (a : Char) (h : a.isDigit = true) :
    (some a = some '(') = False := by
  simp only [Option.some_inj, eq_iff_iff, iff_false]
  intro he
  subst he
  simp at h

/-- Four leading digits make the year parse succeed. -/
theorem parseYearLang_head4 (a b c d : Char) (rest : List Char)
    (h4 : (a.isDigit && b.isDigit && c.isDigit && d.isDigit) = true) :
    parseYearLang (a :: b :: c :: d :: rest) ≠ none := by
  simp only [Bool.and_eq_true] at h4
  have hdw : (a :: b :: c :: d :: rest).dropWhile isWsU = a :: b :: c :: d :: rest :=
    dropWhile_cons_neg _ _ _ (digit_not_wsU a h4.1.1.1)
  have hop : dropOpenParen (a :: b :: c :: d :: rest) = a :: b :: c :: d :: rest := by
    unfold dropOpenParen
    rw [if_neg]
    simp only [List.head?_cons]
    intro he
    have := Option.some_inj.mp he
    subst this
    simp at h4
  simp only [parseYearLang, hdw, hop]
  rw [take4Digits]
  rw [if_pos (by simp [h4.1.1.1, h4.1.1.2, h4.1.2, h4.2])]
  simp

/-- A successful search implies a 4-digit run. -/
theorem extractAux_some_run :
    ∀ (l acc t y : List Char) (lg : Option (List Char)),
      extractAux acc l = some (t, y, lg) → has4DigitRun l = true := by
  intro l
  induction l with
  | nil =>
    intro acc t y lg h
    simp only [extractAux] at h
    have : parseYearLang ([] : List Char) = none := rfl
    rw [this] at h
    exact absurd h (by simp)
  | cons x xs ih =>
    intro acc t y lg h
    rcases hp : parseYearLang (x :: xs) with _ | ⟨y0, lg0⟩
    · simp only [extractAux, hp] at h
      by_cases hnl : x = Char.ofNat 10
      · rw [if_pos hnl] at h; exact absurd h (by simp)
      · rw [if_neg hnl] at h
        exact has4DigitRun_cons_of x xs (ih (x :: acc) t y lg h)
    · exact parseYearLang_some_run _ _ _ hp

/-- With a 4-digit run and no newline, the search succeeds. -/
theorem extractAux_some_of_run :
    ∀ (l : List Char), has4DigitRun l = true → Char.ofNat 10 ∉ l →
      ∀ acc, extractAux acc l ≠ none := by
  intro l
  induction l with
  | nil => intro h; simp [has4DigitRun] at h
  | cons x xs ih =>
    intro hrun hnl acc
    rcases hp : parseYearLang (x :: xs) with _ | ⟨y0, lg0⟩
    · simp only [extractAux, hp]
      have hx : ¬(x = Char.ofNat 10) := by
        intro he
        exact hnl (he ▸ List.mem_cons_self x xs)
      rw [if_neg hx]
      match xs, hrun with
      | b :: c :: d :: rest, hrun =>
        simp only [has4DigitRun, Bool.or_eq_true] at hrun
        rcases hrun with h4 | hr
        · exact absurd hp (parseYearLang_head4 x b c d rest h4)
        · exact ih (by simpa [has4DigitRun] using hr)
            (fun hm => hnl (List.mem_cons_of_mem x hm)) (x :: acc)
    · simp only [extractAux, hp]
      simp

/-- Given a newline-free input, the anchored search fails exactly when
    the input holds no four consecutive digits. -/
theorem extract_none_iff (l : List Char) (hnl : Char.ofNat 10 ∉ l) :
    extract l = none ↔ has4DigitRun l = false := by
  constructor
  · intro h
    cases hr : has4DigitRun l
    · rfl
    · exact absurd h (extractAux_some_of_run l hr hnl [])
  · intro h
    rcases hx : extract l with _ | ⟨t, y, lg⟩
    · rfl
    · rw [extractAux_some_run l [] t y lg hx] at h
      exact absurd h (by simp)

/-- Claim C5 as amended: clean_filename is a total function; its
    title/year pattern fails to match exactly when the step-5 string
    (after bracket stripping, prefix stripping, non-ASCII stripping,
    whitespace collapsing AND denylist tag removal) contains no four
    consecutive digits, and in that case the result is that step-5 string
    with separator characters stripped from BOTH ends (the code strips
    the post-tag-removal string of line 117, not the step-4 string, and
    str.strip(" -._") strips leading separators too). -/
theorem C5_amended_nomatch_branch :
    ∀ (uw : Char → Bool) (s : String),
      (extract (stage5 uw s.data) = none ↔
        has4DigitRun (stage5 uw s.data) = false)
      ∧ (extract (stage5 uw s.data) = none →
          (clean_filename uw s).data = stripSeps (stage5 uw s.data)) := by
  intro uw s
  constructor
  · exact extract_none_iff (stage5 uw s.data) (noNl_stage5 uw s.data)
  · intro h
    simp [clean_filename, clean_filenameL, h]

/-- Witness for the amended C5 at a concrete input. -/
theorem C5_witness :
    extract (stage5 noUW ("Great Film HDRip").data) = none
    ∧ (clean_filename noUW "Great Film HDRip").data
        = stripSeps (stage5 noUW ("Great Film HDRip").data)
    ∧ has4DigitRun (stage5 noUW ("Great Film HDRip").data) = false := by
  have h := C5_amended_nomatch_branch noUW "Great Film HDRip"
  have hn : extract (stage5 noUW ("Great Film HDRip").data) = none := by decide
  exact ⟨hn, h.2 hn, h.1.mp hn⟩

/-! Support lemmas for the language-captured branch of the normalizer. -/

theorem matchCI_startsCI :
    ∀ (p l r : List Char), matchCI p l = some r →
      startsCI p (l.take p.length) = true := by
  intro p
  induction p with
  | nil => intro l r _; rfl
  | cons pc ps ih =>
    intro l r h
    cases l with
    | nil => simp [matchCI] at h
    | cons c cs =>
      by_cases he : lcEq pc c = true
      · simp only [matchCI, he, if_true] at h
        simp only [List.length_cons, List.take_succ_cons, startsCI, he,
          Bool.true_and]
        exact ih cs r h
      · simp [matchCI, he] at h

theorem firstLang_spec :
    ∀ (ws : List String) (l lt : List Char), firstLang ws l = some lt →
      ∃ w ∈ ws, lt = l.take w.length ∧ ∃ r, matchCI w.toList l = some r := by
  intro ws
  induction ws with
  | nil => intro l lt h; simp [firstLang] at h
  | cons w rest ih =>
    intro l lt h
    by_cases hm : (matchCI w.toList l).isSome = true
    · simp only [firstLang, hm, if_true, Option.some_inj] at h
      obtain ⟨r, hr⟩ := Option.isSome_iff_exists.mp hm
      exact ⟨w, List.mem_cons_self w rest, h.symm, r, hr⟩
    · simp only [firstLang, hm, Bool.false_eq_true, if_false] at h
      obtain ⟨w', hw1, hw2, hw3⟩ := ih l lt h
      exact ⟨w', List.mem_cons_of_mem w hw1, hw2, hw3⟩

theorem langWords_alpha :
    ∀ w ∈ langWords, ∀ pc ∈ w.data, pc.isAlpha = true := by decide

theorem langWords_len_pos : ∀ w ∈ langWords, 0 < w.data.length := by decide

/-- What a successful year-language parse says about its groups. -/
theorem parseYearLang_facts (l y : List Char) (lg : Option (List Char))
    (h : parseYearLang l = some (y, lg)) :
    (y.length = 4 ∧ ∀ c ∈ y, c.isDigit = true) ∧
    (∀ lt, lg = some lt →
      ∃ w ∈ langWords, lt.length = w.data.length ∧ startsCI w.data lt = true ∧
        ∀ c ∈ lt, c.isAlpha = true) := by
  simp only [parseYearLang] at h
  rcases h4 : take4Digits (dropOpenParen (l.dropWhile isWsU)) with _ | ⟨y0, r3⟩
  · rw [h4] at h; exact absurd h (by simp)
  · rw [h4] at h
    obtain ⟨hy, hlg⟩ : y0 = y ∧
        firstLang langWords ((dropCloseParen r3).dropWhile isWsU) = lg := by
      have := Option.some_inj.mp h
      exact ⟨congrArg Prod.fst this, congrArg Prod.snd this⟩
    subst hy
    obtain ⟨hlen, hdig, _⟩ := take4Digits_spec _ _ _ h4
    refine ⟨⟨hlen, hdig⟩, ?_⟩
    intro lt hlt
    rw [← hlg] at hlt
    obtain ⟨w, hw, hteq, r, hr⟩ := firstLang_spec langWords _ lt hlt
    obtain ⟨_, htk, hpair⟩ := matchCI_some w.toList _ r hr
    have hlenw : (w.toList).length = w.data.length := rfl
    refine ⟨w, hw, ?_, ?_, ?_⟩
    · rw [hteq]
      exact htk
    · have := matchCI_startsCI w.toList _ r hr
      rw [hteq]
      exact this
    · intro c hc
      rw [hteq] at hc
      obtain ⟨pc, hpc1, hpc2⟩ := hpair c (by simpa using hc)
      exact lcEq_alpha pc c (langWords_alpha w hw pc hpc1) hpc2

/-- The group facts transported through the lazy search. -/
theorem extractAux_facts :
    ∀ (l acc t y : List Char) (lg : Option (List Char)),
      extractAux acc l = some (t, y, lg) →
      (y.length = 4 ∧ ∀ c ∈ y, c.isDigit = true) ∧
      (∀ lt, lg = some lt →
        ∃ w ∈ langWords, lt.length = w.data.length ∧ startsCI w.data lt = true ∧
          ∀ c ∈ lt, c.isAlpha = true) := by
  intro l
  induction l with
  | nil =>
    intro acc t y lg h
    simp only [extractAux] at h
    have : parseYearLang ([] : List Char) = none := rfl
    rw [this] at h
    exact absurd h (by simp)
  | cons x xs ih =>
    intro acc t y lg h
    rcases hp : parseYearLang (x :: xs) with _ | ⟨y0, lg0⟩
    · simp only [extractAux, hp] at h
      by_cases hnl : x = Char.ofNat 10
      · rw [if_pos hnl] at h; exact absurd h (by simp)
      · rw [if_neg hnl] at h
        exact ih (x :: acc) t y lg h
    · simp only [extractAux, hp] at h
      obtain ⟨hy, hlg⟩ : y0 = y ∧ lg0 = lg := by
        have := Option.some_inj.mp h
        exact ⟨congrArg (fun z => z.2.1) this, congrArg (fun z => z.2.2) this⟩
      subst hy; subst hlg
      exact parseYearLang_facts _ _ _ hp

theorem noAdjWs_cons_of_head (x : Char) (O : List Char)
    (hx : isReWs x = false ∨ ∀ c, O.head? = some c → isReWs c = false)
    (h : noAdjWs O = true) : noAdjWs (x :: O) = true := by
  cases O with
  | nil => rfl
  | cons d rest =>
    simp only [noAdjWs, Bool.and_eq_true] at h ⊢
    refine ⟨?_, h⟩
    rcases hx with hx | hx
    · simp [hx]
    · simp [hx d rfl]

theorem noAdjWs_all_not (l : List Char) (h : ∀ c ∈ l, isReWs c = false) :
    noAdjWs l = true := by
  induction l with
  | nil => rfl
  | cons x xs ih =>
    exact noAdjWs_cons_of_head x xs
      (Or.inl (h x (List.mem_cons_self x xs)))
      (ih (fun c hc => h c (List.mem_cons_of_mem x hc)))

theorem noAdjWs_append (A B : List Char) (hA : noAdjWs A = true)
    (hB : noAdjWs B = true)
    (hAB : ∀ a b, A.getLast? = some a → B.head? = some b →
      (isReWs a && isReWs b) = false) :
    noAdjWs (A ++ B) = true := by
  induction A with
  | nil => simpa using hB
  | cons a A' ih =>
    cases A' with
    | nil =>
      cases B with
      | nil => rfl
      | cons b B' =>
        simp only [List.singleton_append, noAdjWs, Bool.and_eq_true]
        refine ⟨?_, by simpa using hB⟩
        rw [hAB a b rfl rfl]
        rfl
    | cons a2 A'' =>
      simp only [List.cons_append, noAdjWs, Bool.and_eq_true]
      simp only [noAdjWs, Bool.and_eq_true] at hA
      refine ⟨by simpa using hA.1, ?_⟩
      have := ih hA.2 (fun x b hx hb =>
        hAB x b (by rw [List.getLast?_cons_cons]; exact hx) hb)
      simpa using this

/-- Tidiness of the collapse scan: no two adjacent whitespace characters
    in the output, and in the in-run state the next emitted character is
    outside the class. -/
theorem cwGo_tidyAux (p : Char → Bool) (hp : ∀ c, isReWs c = true → p c = true) :
    ∀ (l : List Char) (b : Bool),
      noAdjWs (cwGo p b l) = true ∧
      (∀ c, (cwGo p true l).head? = some c → p c = false) := by
  intro l
  induction l with
  | nil =>
    intro b
    exact ⟨rfl, by intro c h; simp [cwGo] at h⟩
  | cons x xs ih =>
    intro b
    by_cases hx : p x = true
    · constructor
      · cases b with
        | true =>
          rw [cwGo_cons_p_true p x xs hx]
          exact (ih true).1
        | false =>
          rw [cwGo_cons_p_false p x xs hx]
          refine noAdjWs_cons_of_head ' ' _ (Or.inr ?_) (ih true).1
          intro c hc
          have hpc := (ih true).2 c hc
          cases hw : isReWs c
          · rfl
          · rw [hp c hw] at hpc
            exact absurd hpc (by simp)
      · intro c hc
        rw [cwGo_cons_p_true p x xs hx] at hc
        exact (ih true).2 c hc
    · have hx' : p x = false := by simpa using hx
      have hwx : isReWs x = false := by
        cases hw : isReWs x
        · rfl
        · rw [hp x hw] at hx'; exact absurd hx' (by simp)
      constructor
      · rw [cwGo_cons_not p b x xs hx']
        exact noAdjWs_cons_of_head x _ (Or.inl hwx) (ih false).1
      · intro c hc
        rw [cwGo_cons_not p true x xs hx'] at hc
        simp only [List.head?_cons, Option.some_inj] at hc
        subst hc
        exact hx'

/-- The collapse scan keeps a non-class last character. -/
theorem cwGo_last_not (p : Char → Bool) :
    ∀ (l : List Char) (b : Bool) (z : Char),
      l.getLast? = some z → p z = false →
      (cwGo p b l).getLast? = some z := by
  intro l
  induction l with
  | nil => intro b z h; simp at h
  | cons x xs ih =>
    intro b z hz hpz
    cases xs with
    | nil =>
      have hx : x = z := by simpa using hz
      subst hx
      rw [cwGo_cons_not p b x [] hpz]
      rfl
    | cons x2 xs' =>
      have hz' : (x2 :: xs').getLast? = some z := by
        rw [← List.getLast?_cons_cons (a := x)]; exact hz
      have hO : ∀ b', (cwGo p b' (x2 :: xs')).getLast? = some z :=
        fun b' => ih b' z hz' hpz
      have hOne : ∀ b', cwGo p b' (x2 :: xs') ≠ [] := by
        intro b' hcon
        have := hO b'
        rw [hcon] at this
        simp at this
      by_cases hx : p x = true
      · cases b with
        | true =>
          rw [cwGo_cons_p_true p x _ hx]
          exact hO true
        | false =>
          rw [cwGo_cons_p_false p x _ hx]
          rcases hcg : cwGo p true (x2 :: xs') with _ | ⟨o, O'⟩
          · exact absurd hcg (hOne true)
          · rw [List.getLast?_cons_cons, ← hcg]
            exact hO true
      · rw [cwGo_cons_not p b x _ (by simpa using hx)]
        rcases hcg : cwGo p false (x2 :: xs') with _ | ⟨o, O'⟩
        · exact absurd hcg (hOne false)
        · rw [List.getLast?_cons_cons, ← hcg]
          exact hO false

theorem exists_getLast?_of_ne_nil (l : List Char) (h : l ≠ []) :
    ∃ z, l.getLast? = some z := by
  rcases hz : l.getLast? with _ | z
  · exact absurd (List.getLast?_eq_none_iff.mp hz) h
  · exact ⟨z, rfl⟩

theorem exists_head?_of_ne_nil (l : List Char) (h : l ≠ []) :
    ∃ c, l.head? = some c := by
  cases l with
  | nil => exact absurd rfl h
  | cons x xs => exact ⟨x, rfl⟩

/-- Collapse of the reassembled tail of the f-string (language present):
    the tail is already collapsed. -/
theorem cwGo_lang_tail (y lt : List Char)
    (hyws : ∀ c ∈ y, isReWs c = false)
    (hltws : ∀ c ∈ lt, isReWs c = false) :
    cwGo isReWs false (' ' :: '(' :: (y ++ ')' :: ' ' :: lt))
      = ' ' :: '(' :: (y ++ ')' :: ' ' :: lt) := by
  rw [cwGo_cons_p_false _ _ _ (by decide : isReWs ' ' = true)]
  rw [cwGo_cons_not _ true '(' _ (by decide)]
  rw [cwGo_append_all_not _ y hyws]
  rw [cwGo_cons_not _ false ')' _ (by decide)]
  rw [cwGo_cons_p_false _ _ _ (by decide : isReWs ' ' = true)]
  rw [cwGo_all_not _ true lt hltws]

/-- The rebuild of lines 123-129 for a captured language, computed: the
    f-string text, stripped and collapsed, is the collapsed stripped
    title, one space (absent when the title is empty), and the literal
    ( year ) language tail. -/
theorem rebuildName_lang_eq (name y lt : List Char)
    (hh : ∀ c, name.head? = some c → isReWs c = false)
    (hlast : ∀ c, name.getLast? = some c → isReWs c = false)
    (hy : ∀ c ∈ y, c.isDigit = true)
    (hlt : ∀ c ∈ lt, c.isAlpha = true)
    (hltne : lt ≠ []) :
    collapseWs (stripWsBoth (name ++ ' ' :: '(' :: (y ++ ')' :: ' ' :: lt)))
      = (if (collapseWs name).isEmpty then [] else collapseWs name ++ [' '])
        ++ '(' :: (y ++ ')' :: ' ' :: lt) := by
  have hyws : ∀ c ∈ y, isReWs c = false := fun c hc => digit_not_reWs c (hy c hc)
  have hltws : ∀ c ∈ lt, isReWs c = false := fun c hc => alpha_not_reWs c (hlt c hc)
  obtain ⟨zl, hzl⟩ := exists_getLast?_of_ne_nil lt hltne
  have hzlws : isReWs zl = false :=
    hltws zl (List.mem_of_mem_getLast? (by simp [hzl]))
  have hTailEq : ' ' :: '(' :: (y ++ ')' :: ' ' :: lt)
      = (' ' :: '(' :: y ++ [')', ' ']) ++ lt := by simp
  have hTailLast : (' ' :: '(' :: (y ++ ')' :: ' ' :: lt)).getLast? = some zl := by
    rw [hTailEq, List.getLast?_append_of_ne_nil _ hltne, hzl]
  by_cases hnil : name = []
  · subst hnil
    simp only [List.nil_append]
    have hM : ∀ c, ('(' :: (y ++ ')' :: ' ' :: lt)).getLast? = some c →
        isPyStripWs c = false := by
      intro c hc
      have h1 : '(' :: (y ++ ')' :: ' ' :: lt) = ('(' :: y ++ [')', ' ']) ++ lt := by
        simp
      rw [h1, List.getLast?_append_of_ne_nil _ hltne, hzl] at hc
      have : c = zl := (Option.some_inj.mp hc).symm
      subst this
      rw [isPyStripWs_eq]
      exact hzlws
    have hstrip : stripWsBoth (' ' :: '(' :: (y ++ ')' :: ' ' :: lt))
        = '(' :: (y ++ ')' :: ' ' :: lt) := by
      unfold stripWsBoth
      rw [stripEnds_cons_p _ _ _ (by decide : isPyStripWs ' ' = true)]
      exact stripEnds_eq_self _ _ (by intro c hc; simp at hc; subst hc; decide) hM
    rw [hstrip]
    have hcol : collapseWs ('(' :: (y ++ ')' :: ' ' :: lt))
        = '(' :: (y ++ ')' :: ' ' :: lt) := by
      show cwGo isReWs false _ = _
      rw [cwGo_cons_not _ false '(' _ (by decide)]
      rw [cwGo_append_all_not _ y hyws]
      rw [cwGo_cons_not _ false ')' _ (by decide)]
      rw [cwGo_cons_p_false _ _ _ (by decide : isReWs ' ' = true)]
      rw [cwGo_all_not _ true lt hltws]
    rw [hcol]
    have hNe : (collapseWs ([] : List Char)).isEmpty = true := by decide
    rw [if_pos hNe]
    simp
  · obtain ⟨z, hz⟩ := exists_getLast?_of_ne_nil name hnil
    have hzws := hlast z hz
    obtain ⟨h0, hh0⟩ := exists_head?_of_ne_nil name hnil
    have hh0ws := hh h0 hh0
    have hTne : (' ' :: '(' :: (y ++ ')' :: ' ' :: lt)) ≠ [] := by simp
    have hstrip : stripWsBoth (name ++ ' ' :: '(' :: (y ++ ')' :: ' ' :: lt))
        = name ++ ' ' :: '(' :: (y ++ ')' :: ' ' :: lt) := by
      unfold stripWsBoth
      apply stripEnds_eq_self
      · intro c hc
        rw [List.head?_append_of_ne_nil name hnil, hh0] at hc
        have : c = h0 := (Option.some_inj.mp hc).symm
        subst this
        rw [isPyStripWs_eq]
        exact hh0ws
      · intro c hc
        rw [List.getLast?_append_of_ne_nil name hTne, hTailLast] at hc
        have : c = zl := (Option.some_inj.mp hc).symm
        subst this
        rw [isPyStripWs_eq]
        exact hzlws
    rw [hstrip]
    have hsplit : collapseWs (name ++ ' ' :: '(' :: (y ++ ')' :: ' ' :: lt))
        = collapseWs name ++ cwGo isReWs false (' ' :: '(' :: (y ++ ')' :: ' ' :: lt)) :=
      cwGo_append_last_not isReWs name z hz hzws false _
    rw [hsplit, cwGo_lang_tail y lt hyws hltws]
    have hNne : ¬(collapseWs name).isEmpty = true := by
      rw [List.isEmpty_iff]
      intro hcon
      exact hnil ((cwGo_false_eq_nil_iff isReWs name).mp hcon)
    rw [if_neg hNne]
    simp

/-- The reassembled result is single-spaced and trimmed. -/
theorem formula_tidy (name y lt : List Char)
    (hh : ∀ c, name.head? = some c → isReWs c = false)
    (hlast : ∀ c, name.getLast? = some c → isReWs c = false)
    (hy : ∀ c ∈ y, c.isDigit = true)
    (hlt : ∀ c ∈ lt, c.isAlpha = true)
    (hltne : lt ≠ []) :
    tidy ((if (collapseWs name).isEmpty then [] else collapseWs name ++ [' '])
      ++ '(' :: (y ++ ')' :: ' ' :: lt)) = true := by
  have hyws : ∀ c ∈ y, isReWs c = false := fun c hc => digit_not_reWs c (hy c hc)
  have hltws : ∀ c ∈ lt, isReWs c = false := fun c hc => alpha_not_reWs c (hlt c hc)
  obtain ⟨zl, hzl⟩ := exists_getLast?_of_ne_nil lt hltne
  have hzlws : isReWs zl = false :=
    hltws zl (List.mem_of_mem_getLast? (by simp [hzl]))
  set TC : List Char := '(' :: (y ++ ')' :: ' ' :: lt) with hTC
  have hTCEq : TC = ('(' :: y ++ [')']) ++ (' ' :: lt) := by rw [hTC]; simp
  have hTCne : TC ≠ [] := by rw [hTC]; simp
  have hTClast : TC.getLast? = some zl := by
    have h1 : TC = ('(' :: y ++ [')', ' ']) ++ lt := by rw [hTC]; simp
    rw [h1, List.getLast?_append_of_ne_nil _ hltne, hzl]
  have hTCws : ∀ c ∈ TC, isReWs c = false ∨ c = ' ' := by
    intro c hc
    rw [hTC] at hc
    rcases List.mem_cons.mp hc with h1 | h1
    · subst h1; left; decide
    · rcases List.mem_append.mp h1 with h2 | h2
      · exact Or.inl (hyws c h2)
      · rcases List.mem_cons.mp h2 with h3 | h3
        · subst h3; left; decide
        · rcases List.mem_cons.mp h3 with h4 | h4
          · exact Or.inr h4
          · exact Or.inl (hltws c h4)
  have hTCadj : noAdjWs TC = true := by
    rw [hTCEq]
    apply noAdjWs_append
    · apply noAdjWs_all_not
      intro c hc
      rcases List.mem_cons.mp hc with h1 | h1
      · subst h1; decide
      · rcases List.mem_append.mp h1 with h2 | h2
        · exact hyws c h2
        · simp at h2; subst h2; decide
    · apply noAdjWs_cons_of_head
      · right
        intro c hc
        exact hltws c (List.mem_of_mem_head? (by simp [hc]))
      · exact noAdjWs_all_not lt hltws
    · intro a b ha hb
      have hb' : ' ' = b := by simpa using hb
      have ha' : a = ')' := by
        have h1 : ('(' :: y ++ [')']) = ('(' :: y) ++ [')'] := by simp
        rw [h1, List.getLast?_concat] at ha
        exact (Option.some_inj.mp ha).symm
      subst ha'; subst hb'
      decide
  set N : List Char := collapseWs name with hN
  by_cases hnil : name = []
  · have hNemp : N.isEmpty = true := by
      rw [hN, hnil]; decide
    rw [if_pos hNemp]
    simp only [List.nil_append]
    unfold tidy
    simp only [Bool.and_eq_true]
    refine ⟨⟨⟨?_, hTCadj⟩, ?_⟩, ?_⟩
    · rw [wsIsSpaceOnly, List.all_eq_true]
      intro c hc
      rcases hTCws c hc with h1 | h1
      · simp [h1]
      · simp [h1]
    · rw [hTC]
      simp only [List.head?_cons]
      decide
    · rw [hTClast]
      simp [hzlws]
  · rw [if_neg (by
      rw [List.isEmpty_iff, hN]
      intro hcon
      exact hnil ((cwGo_false_eq_nil_iff isReWs name).mp hcon))]
    obtain ⟨z, hz⟩ := exists_getLast?_of_ne_nil name hnil
    have hzws := hlast z hz
    obtain ⟨h0, hh0⟩ := exists_head?_of_ne_nil name hnil
    have hh0ws := hh h0 hh0
    have hNlast : N.getLast? = some z := by
      rw [hN]
      exact cwGo_last_not isReWs name false z hz hzws
    have hNne : N ≠ [] := by
      intro hcon
      rw [hcon] at hNlast
      simp at hNlast
    have hNhead : N.head? = some h0 := by
      rw [hN]
      cases hname : name with
      | nil => exact absurd hname hnil
      | cons a rest =>
        have ha : a = h0 := by
          rw [hname] at hh0
          exact Option.some_inj.mp hh0
        subst ha
        have haws : isReWs a = false := hh0ws
        show (cwGo isReWs false (a :: rest)).head? = some a
        rw [cwGo_cons_not isReWs false a rest haws]
        rfl
    unfold tidy
    simp only [Bool.and_eq_true]
    refine ⟨⟨⟨?_, ?_⟩, ?_⟩, ?_⟩
    · rw [wsIsSpaceOnly, List.all_eq_true]
      intro c hc
      rcases List.mem_append.mp hc with h1 | h1
      · rcases List.mem_append.mp h1 with h2 | h2
        · rcases mem_cwGo_strong isReWs false name c h2 with h3 | ⟨_, h3⟩
          · simp [h3]
          · simp [h3]
        · simp at h2; subst h2; simp
      · rcases hTCws c h1 with h2 | h2
        · simp [h2]
        · simp [h2]
    · apply noAdjWs_append
      · apply noAdjWs_append
        · rw [hN]
          exact (cwGo_tidyAux isReWs (fun c h => h) name false).1
        · rfl
        · intro a b ha hb
          have : a = z := by
            rw [hNlast] at ha
            exact (Option.some_inj.mp ha).symm
          subst this
          rw [hzws]
          rfl
      · exact hTCadj
      · intro a b ha hb
        have hb' : '(' = b := by
          rw [hTC] at hb
          simpa using hb
        subst hb'
        have : isReWs '(' = false := by decide
        rw [this]
        simp
    · rw [List.append_assoc, List.head?_append_of_ne_nil N hNne, hNhead]
      simp only []
      rw [hh0ws]
      rfl
    · rw [List.getLast?_append_of_ne_nil _ hTCne, hTClast]
      simp [hzlws]

/-- C4 (amended): whenever the anchored title/year/language search of
    line 120 matches WITH a language group, clean_filename returns
    exactly Title (Year) Language — the collapsed, separator-stripped
    title (dropped entirely, together with its following space, when it
    collapses to nothing), then the year in parentheses, then the
    language as captured; the year group is four digits, the language
    group matches one of the five fixed words case-insensitively, and
    the whole output is single-spaced and trimmed.  The original claim
    is corrected in two ways: the precondition is a match of the
    anchored pattern (the lazy search can place the year inside what a
    reader would call the title, and text between year and language
    makes the language group fail, as the counterexample shows), and
    the title has separators stripped from both ends, not only
    trailing. -/
theorem C4_amended_language_adjacent (uw : Char → Bool) (s : String)
    (t y lt : List Char)
    (hx : extract (stage5 uw s.data) = some (t, y, some lt)) :
    ((clean_filename uw s).data =
      (if (collapseWs (stripSeps t)).isEmpty then []
       else collapseWs (stripSeps t) ++ [' '])
      ++ '(' :: (y ++ ')' :: ' ' :: lt))
    ∧ (y.length = 4 ∧ ∀ c ∈ y, c.isDigit = true)
    ∧ (∃ w ∈ langWords, lt.length = w.data.length ∧ startsCI w.data lt = true)
    ∧ tidy ((clean_filename uw s).data) = true := by
  obtain ⟨⟨hylen, hydig⟩, hlgf⟩ :=
    extractAux_facts (stage5 uw s.data) [] t y (some lt) hx
  obtain ⟨w, hwmem, hltlen, hstarts, hltalpha⟩ := hlgf lt rfl
  have hltne : lt ≠ [] := by
    intro hcon
    have hpos := langWords_len_pos w hwmem
    rw [hcon] at hltlen
    simp only [List.length_nil] at hltlen
    omega
  have hh : ∀ c, (stripSeps t).head? = some c → isReWs c = false := by
    intro c hc
    have hsep := stripEnds_head_not isSep t c hc
    cases hw : isReWs c with
    | false => rfl
    | true =>
      have hcss : c ∈ stripSeps t := List.mem_of_mem_head? (by simp [hc])
      have hct : c ∈ t := mem_stripSeps t c hcss
      have hc5 : c ∈ stage5 uw s.data := (extract_mem _ t y (some lt) hx c).1 hct
      have hsp : c = ' ' := wsSpace_stage5 uw s.data c hc5 hw
      rw [hsp] at hsep
      exact absurd hsep (by decide)
  have hlast : ∀ c, (stripSeps t).getLast? = some c → isReWs c = false := by
    intro c hc
    have hsep := stripEnds_last_not isSep t c hc
    cases hw : isReWs c with
    | false => rfl
    | true =>
      have hcss : c ∈ stripSeps t := List.mem_of_mem_getLast? (by simp [hc])
      have hct : c ∈ t := mem_stripSeps t c hcss
      have hc5 : c ∈ stage5 uw s.data := (extract_mem _ t y (some lt) hx c).1 hct
      have hsp : c = ' ' := wsSpace_stage5 uw s.data c hc5 hw
      rw [hsp] at hsep
      exact absurd hsep (by decide)
  have heq0 : clean_filenameL uw s.data = rebuildName t y (some lt) := by
    unfold clean_filenameL
    rw [hx]
  have heq : (clean_filename uw s).data
      = collapseWs (stripWsBoth
          (stripSeps t ++ ' ' :: '(' :: (y ++ ')' :: ' ' :: lt))) := by
    have h1 : (clean_filename uw s).data = clean_filenameL uw s.data := rfl
    rw [h1, heq0]
    rfl
  have hform := rebuildName_lang_eq (stripSeps t) y lt hh hlast hydig hltalpha hltne
  refine ⟨heq.trans hform, ⟨hylen, hydig⟩, ⟨w, hwmem, hltlen, hstarts⟩, ?_⟩
  rw [heq, hform]
  exact formula_tidy (stripSeps t) y lt hh hlast hydig hltalpha hltne

/-- Witness for C4 at the input Movie Title 2021 Tamil, whose match has
    title Movie Title, year 2021 and language Tamil. -/
theorem C4_witness :
    extract (stage5 noUW ("Movie Title 2021 Tamil").data)
        = some (("Movie Title").data, ("2021").data, some (("Tamil").data))
    ∧ (((clean_filename noUW "Movie Title 2021 Tamil").data =
        (if (collapseWs (stripSeps (("Movie Title").data))).isEmpty then []
         else collapseWs (stripSeps (("Movie Title").data)) ++ [' '])
        ++ '(' :: ((("2021").data) ++ ')' :: ' ' :: (("Tamil").data)))
      ∧ ((("2021").data).length = 4 ∧ ∀ c ∈ (("2021").data), c.isDigit = true)
      ∧ (∃ w ∈ langWords, (("Tamil").data).length = w.data.length
          ∧ startsCI w.data (("Tamil").data) = true)
      ∧ tidy ((clean_filename noUW "Movie Title 2021 Tamil").data) = true) :=
  ⟨by decide,
   C4_amended_language_adjacent noUW "Movie Title 2021 Tamil"
     (("Movie Title").data) (("2021").data) (("Tamil").data) (by decide)⟩

/-! Fixpoint lemmas: each cleanup stage leaves a string that is already
    clean for that stage unchanged. -/

theorem rbGo_no_open : ∀ l : List Char, '[' ∉ l → rbGo none l = l := by
  intro l
  induction l with
  | nil => intro _; rfl
  | cons c cs ih =>
    intro h
    have hc : ¬(c = '[') := fun he => h (he ▸ List.mem_cons_self c cs)
    simp only [rbGo, if_neg hc]
    rw [ih (fun hm => h (List.mem_cons_of_mem c hm))]

theorem dropWhile_head_false (p : Char → Bool) (l : List Char)
    (h : ∀ c, l.head? = some c → p c = false) : l.dropWhile p = l := by
  cases l with
  | nil => rfl
  | cons c cs => exact dropWhile_cons_neg p c cs (h c rfl)

theorem stripNonAscii_fix (l : List Char) (h : ∀ c ∈ l, c.val ≤ 127) :
    stripNonAscii l = l := by
  unfold stripNonAscii
  exact List.filter_eq_self.mpr (fun c hc => decide_eq_true (h c hc))

theorem cwGo_congr (p q : Char → Bool) :
    ∀ (b : Bool) (l : List Char), (∀ c ∈ l, p c = q c) →
      cwGo p b l = cwGo q b l := by
  intro b l
  induction l generalizing b with
  | nil => intro _; rfl
  | cons x xs ih =>
    intro h
    have hx : p x = q x := h x (List.mem_cons_self x xs)
    have hr : ∀ c ∈ xs, p c = q c := fun c hc => h c (List.mem_cons_of_mem x hc)
    show (if p x then if b then cwGo p true xs else ' ' :: cwGo p true xs
          else x :: cwGo p false xs)
      = (if q x then if b then cwGo q true xs else ' ' :: cwGo q true xs
          else x :: cwGo q false xs)
    rw [hx, ih true hr, ih false hr]

theorem noAdjWs_tail (x : Char) (l : List Char)
    (h : noAdjWs (x :: l) = true) : noAdjWs l = true := by
  cases l with
  | nil => rfl
  | cons d r =>
    simp only [noAdjWs, Bool.and_eq_true] at h
    exact h.2

theorem noAdjWs_pair (x d : Char) (r : List Char)
    (h : noAdjWs (x :: d :: r) = true) : (isReWs x && isReWs d) = false := by
  simp only [noAdjWs, Bool.and_eq_true] at h
  have := h.1
  cases hx : isReWs x <;> cases hd : isReWs d <;> simp_all

theorem cwGo_fix :
    ∀ (l : List Char) (b : Bool),
      (∀ c ∈ l, isReWs c = true → c = ' ') →
      noAdjWs l = true →
      (b = true → ∀ c, l.head? = some c → isReWs c = false) →
      cwGo isReWs b l = l := by
  intro l
  induction l with
  | nil => intro b _ _ _; rfl
  | cons x xs ih =>
    intro b hsp hadj hb
    have hsp' : ∀ c ∈ xs, isReWs c = true → c = ' ' :=
      fun c hc => hsp c (List.mem_cons_of_mem x hc)
    have hadj' : noAdjWs xs = true := noAdjWs_tail x xs hadj
    by_cases hx : isReWs x = true
    · have hxs : x = ' ' := hsp x (List.mem_cons_self x xs) hx
      have hbf : b = false := by
        cases b with
        | false => rfl
        | true => exact absurd hx (by simp [hb rfl x rfl])
      subst hbf
      rw [cwGo_cons_p_false _ _ _ hx, hxs]
      congr 1
      apply ih true hsp' hadj'
      intro _ c hc
      cases xs with
      | nil => simp at hc
      | cons d r =>
        have hd : d = c := by simpa using hc
        subst hd
        have := noAdjWs_pair x d r hadj
        rw [hx] at this
        simpa using this
    · have hxf : isReWs x = false := by simpa using hx
      rw [cwGo_cons_not _ _ _ _ hxf]
      congr 1
      exact ih false hsp' hadj' (by intro h; exact absurd h (by simp))

theorem stripEnds_take_of_head (p : Char → Bool) (l : List Char)
    (h : ∀ c, l.head? = some c → p c = false) :
    ∃ K, stripEnds p l = l.take K := by
  unfold stripEnds
  rw [dropWhile_head_false p l h]
  obtain ⟨n, hn⟩ := dropWhile_eq_drop_ex p l.reverse
  have hrw : (l.reverse.drop n).reverse = l.take (l.length - n) := by
    rw [List.reverse_drop]
    simp
  exact ⟨l.length - n, by rw [hn, hrw]⟩

theorem noAdjWs_take : ∀ (l : List Char) (n : Nat),
    noAdjWs l = true → noAdjWs (l.take n) = true
  | [], _, _ => by rw [List.take_nil]; rfl
  | _ :: _, 0, _ => rfl
  | [_], _ + 1, _ => by rw [List.take_succ_cons, List.take_nil]; rfl
  | a :: b :: r, n + 1, h => by
    cases n with
    | zero => rfl
    | succ m =>
      show noAdjWs (a :: b :: r.take m) = true
      simp only [noAdjWs, Bool.and_eq_true] at h ⊢
      exact ⟨h.1, noAdjWs_take (b :: r) (m + 1) h.2⟩

theorem noVDigit_tail (x : Char) (l : List Char)
    (h : noVDigit (x :: l) = true) : noVDigit l = true := by
  cases l with
  | nil => rfl
  | cons d r =>
    simp only [noVDigit, Bool.and_eq_true] at h
    exact h.2

theorem noVDigit_take : ∀ (l : List Char) (n : Nat),
    noVDigit l = true → noVDigit (l.take n) = true
  | [], _, _ => by rw [List.take_nil]; rfl
  | _ :: _, 0, _ => rfl
  | [_], _ + 1, _ => by rw [List.take_succ_cons, List.take_nil]; rfl
  | a :: b :: r, n + 1, h => by
    cases n with
    | zero => rfl
    | succ m =>
      show noVDigit (a :: b :: r.take m) = true
      simp only [noVDigit, Bool.and_eq_true] at h ⊢
      exact ⟨h.1, noVDigit_take (b :: r) (m + 1) h.2⟩

theorem startsCI_ext : ∀ (p X Y : List Char),
    startsCI p X = true → startsCI p (X ++ Y) = true
  | [], _, _, _ => rfl
  | _ :: _, [], _, h => by simp [startsCI] at h
  | q :: ps, x :: xs, Y, h => by
    simp only [startsCI, Bool.and_eq_true] at h
    show (lcEq q x && startsCI ps (xs ++ Y)) = true
    simp [h.1, startsCI_ext ps xs Y h.2]

theorem occursCI_ext : ∀ (p X Y : List Char),
    occursCI p X = true → occursCI p (X ++ Y) = true
  | p, [], Y, h => by
    have hp : p = [] := by
      simpa [occursCI, List.isEmpty_iff] using h
    subst hp
    cases Y with
    | nil => rfl
    | cons c cs => simp [occursCI, startsCI]
  | p, x :: xs, Y, h => by
    simp only [occursCI, Bool.or_eq_true] at h
    show (startsCI p (x :: (xs ++ Y)) || occursCI p (xs ++ Y)) = true
    simp only [Bool.or_eq_true]
    rcases h with h | h
    · refine Or.inl ?_
      have h2 := startsCI_ext p (x :: xs) Y h
      simpa using h2
    · exact Or.inr (occursCI_ext p xs Y h)

theorem occursCI_take (p l : List Char) (n : Nat)
    (h : occursCI p (l.take n) = true) : occursCI p l = true := by
  have h2 := occursCI_ext p (l.take n) (l.drop n) h
  rwa [List.take_append_drop] at h2

theorem has4_append_left : ∀ (A B : List Char),
    has4DigitRun A = true → has4DigitRun (A ++ B) = true
  | [], _, h => by simp [has4DigitRun] at h
  | [_], _, h => by simp [has4DigitRun] at h
  | [_, _], _, h => by simp [has4DigitRun] at h
  | [_, _, _], _, h => by simp [has4DigitRun] at h
  | a :: b :: c :: d :: r, B, h => by
    simp only [has4DigitRun, Bool.or_eq_true] at h
    show has4DigitRun (a :: b :: c :: d :: (r ++ B)) = true
    simp only [has4DigitRun, Bool.or_eq_true]
    rcases h with h | h
    · exact Or.inl h
    · exact Or.inr (by
        have := has4_append_left (b :: c :: d :: r) B h
        simpa using this)

theorem has4_take (l : List Char) (n : Nat)
    (h : has4DigitRun (l.take n) = true) : has4DigitRun l = true := by
  have h2 := has4_append_left (l.take n) (l.drop n) h
  rwa [List.take_append_drop] at h2

theorem has4_drop (l : List Char) (n : Nat)
    (h : has4DigitRun (l.drop n) = true) : has4DigitRun l = true := by
  have h2 := has4DigitRun_append_right (l.take n) (l.drop n) h
  rwa [List.take_append_drop] at h2

theorem has4_exists : ∀ (l : List Char), has4DigitRun l = true →
    ∃ i a b c d r, l.drop i = a :: b :: c :: d :: r ∧
      (a.isDigit && b.isDigit && c.isDigit && d.isDigit) = true
  | [], h => by simp [has4DigitRun] at h
  | [_], h => by simp [has4DigitRun] at h
  | [_, _], h => by simp [has4DigitRun] at h
  | [_, _, _], h => by simp [has4DigitRun] at h
  | a :: b :: c :: d :: r, h => by
    simp only [has4DigitRun, Bool.or_eq_true] at h
    rcases h with h | h
    · exact ⟨0, a, b, c, d, r, rfl, h⟩
    · obtain ⟨i, a', b', c', d', r', hd, h4⟩ := has4_exists (b :: c :: d :: r) h
      exact ⟨i + 1, a', b', c', d', r', hd, h4⟩

theorem take4Digits_of4 (y r : List Char) (hlen : y.length = 4)
    (hdig : ∀ c ∈ y, c.isDigit = true) :
    take4Digits (y ++ r) = some (y, r) := by
  match y, hlen with
  | [a, b, c, d], _ =>
    show take4Digits (a :: b :: c :: d :: r) = some ([a, b, c, d], r)
    rw [take4Digits]
    rw [if_pos (by simp [hdig a (by simp), hdig b (by simp),
      hdig c (by simp), hdig d (by simp)])]

theorem take4Digits_none_of (l : List Char) (c : Char) (hc : c ∈ l.take 4)
    (hcd : c.isDigit = false) : take4Digits l = none := by
  match l with
  | [] => rfl
  | [_] => rfl
  | [_, _] => rfl
  | [_, _, _] => rfl
  | a :: b :: e :: d :: r =>
    have hmem : c = a ∨ c = b ∨ c = e ∨ c = d := by
      have : (a :: b :: e :: d :: r).take 4 = [a, b, e, d] := by
        simp [List.take_succ_cons]
      rw [this] at hc
      simpa using hc
    rw [take4Digits, if_neg]
    intro hcond
    simp only [Bool.and_eq_true] at hcond
    rcases hmem with rfl | rfl | rfl | rfl
    · exact absurd hcond.1.1.1 (by simp [hcd])
    · exact absurd hcond.1.1.2 (by simp [hcd])
    · exact absurd hcond.1.2 (by simp [hcd])
    · exact absurd hcond.2 (by simp [hcd])

theorem take4_space_none (x R : List Char) (h4 : has4DigitRun x = false) :
    take4Digits (x ++ ' ' :: R) = none := by
  by_cases hlen : 4 ≤ x.length
  · obtain ⟨a, b, c, d, r, hx⟩ : ∃ a b c d r, x = a :: b :: c :: d :: r := by
      match x, hlen with
      | a :: b :: c :: d :: r, _ => exact ⟨a, b, c, d, r, rfl⟩
    subst hx
    have hneg : ¬((a.isDigit && b.isDigit && c.isDigit && d.isDigit) = true) := by
      intro hcond
      exact absurd (has4DigitRun_head4 a b c d r hcond) (by simp [h4])
    show take4Digits (a :: b :: c :: d :: (r ++ ' ' :: R)) = none
    rw [take4Digits, if_neg hneg]
  · apply take4Digits_none_of _ ' ' _ (by decide)
    rw [List.take_append_eq_append_take]
    apply List.mem_append.mpr
    right
    have h1 : 4 - x.length = (4 - x.length - 1) + 1 := by omega
    rw [h1, List.take_succ_cons]
    exact List.mem_cons_self _ _

theorem pyl_none_of_take4 (l : List Char)
    (h : take4Digits (dropOpenParen (l.dropWhile isWsU)) = none) :
    parseYearLang l = none := by
  simp only [parseYearLang, h]

/-! Tag machinery: when no denylisted tag occurs as a case-insensitive
    substring and no v-digit pair occurs, the denylist substitution is the
    identity. -/

theorem startsCI_of_take : ∀ (p l : List Char),
    startsCI p (l.take p.length) = true → startsCI p l = true
  | [], _, _ => rfl
  | _ :: _, [], h => by rw [List.take_nil] at h; simp [startsCI] at h
  | q :: ps, c :: cs, h => by
    rw [show (q :: ps).length = ps.length + 1 from rfl, List.take_succ_cons] at h
    simp only [startsCI, Bool.and_eq_true] at h ⊢
    exact ⟨h.1, startsCI_of_take ps cs h.2⟩

theorem matchCI_str_none (w : String) (l : List Char)
    (hocc : occursCI w.data l = false) (hne : w.data ≠ []) :
    matchCI w.toList l = none := by
  rcases hm : matchCI w.data l with _ | r
  · exact hm
  · exfalso
    have hst := startsCI_of_take w.data l (matchCI_startsCI w.data l r hm)
    cases hl : l with
    | nil =>
      subst hl
      cases hw : w.data with
      | nil => exact hne hw
      | cons q ps => rw [hw] at hst; simp [startsCI] at hst
    | cons c cs =>
      subst hl
      have hc : occursCI w.data (c :: cs) = true := by
        simp only [occursCI, Bool.or_eq_true]
        exact Or.inl hst
      rw [hc] at hocc
      exact absurd hocc (by simp)

theorem patRest_lit_none (w : String) (l : List Char)
    (hocc : occursCI w.data l = false) (hne : w.data ≠ []) :
    patRest (.lit w) l = none := by
  simp only [patRest, matchCI_str_none w l hocc hne]

theorem patRest_aac_none (l : List Char)
    (hocc : occursCI (("AAC").data) l = false) :
    patRest .aacDigits l = none := by
  simp only [patRest, matchCI_str_none ("AAC") l hocc (by decide)]
  rfl

theorem patRest_v_none (l : List Char) (hv : noVDigit l = true) :
    patRest .vDigits l = none := by
  cases l with
  | nil => rfl
  | cons c cs =>
    show (match matchCI (("v").toList) (c :: cs) with
      | some r => if (r.takeWhile Char.isDigit).isEmpty then none
                  else some (r.dropWhile Char.isDigit)
      | none => none) = none
    by_cases he : lcEq 'v' c = true
    · have hm : matchCI (("v").toList) (c :: cs) = some cs := by
        show (if lcEq 'v' c then matchCI [] cs else none) = some cs
        rw [if_pos he]
        rfl
      rw [hm]
      cases cs with
      | nil => rfl
      | cons d r =>
        by_cases hd : d.isDigit = true
        · exfalso
          have hpair : (!(lcEq 'v' c && d.isDigit)) = true := by
            simp only [noVDigit, Bool.and_eq_true] at hv
            exact hv.1
          rw [he, hd] at hpair
          exact absurd hpair (by simp)
        · have hdf : d.isDigit = false := by simpa using hd
          have htw : (d :: r).takeWhile Char.isDigit = [] := by
            rw [List.takeWhile_cons]
            simp [hdf]
          show (if ((d :: r).takeWhile Char.isDigit).isEmpty then none
            else some ((d :: r).dropWhile Char.isDigit)) = none
          rw [htw]
          rfl
    · have hm : matchCI (("v").toList) (c :: cs) = none := by
        show (if lcEq 'v' c then matchCI [] cs else none) = none
        rw [if_neg he]
      rw [hm]

theorem firstPat_none_of : ∀ (pats : List TagPat) (l : List Char),
    (∀ p ∈ pats, patRest p l = none) → firstPat pats l = none
  | [], _, _ => rfl
  | p :: ps, l, h => by
    show (match patRest p l with
      | some r =>
        match follower r with
        | some r2 => some r2
        | none => firstPat ps l
      | none => firstPat ps l) = none
    rw [h p (List.mem_cons_self p ps)]
    exact firstPat_none_of ps l (fun q hq => h q (List.mem_cons_of_mem p hq))

theorem tagPats_lit_mem : ∀ w : String, TagPat.lit w ∈ tagPats → w ∈ tagLitStrings := by
  intro w hw
  simp only [tagPats, List.mem_cons, List.not_mem_nil, or_false] at hw
  rcases hw with h|h|h|h|h|h|h|h|h|h|h|h|h|h|h|h|h|h|h|h|h|h|h|h|h|h|h|h|h|h|h|h|h
  all_goals first
    | (injection h with h2; subst h2; decide)
    | cases h

theorem firstPat_tags_none (l : List Char)
    (hocc : ∀ w ∈ tagLitStrings, occursCI w.data l = false)
    (hv : noVDigit l = true) :
    firstPat tagPats l = none := by
  apply firstPat_none_of
  intro p hp
  cases p with
  | lit w =>
    have hw : w ∈ tagLitStrings := tagPats_lit_mem w hp
    have hne : w.data ≠ [] := by
      have hall : tagLitStrings.all (fun v => !v.data.isEmpty) = true := by decide
      have h2 := List.all_eq_true.mp hall w hw
      simpa [List.isEmpty_iff] using h2
    exact patRest_lit_none w l (hocc w hw) hne
  | aacDigits =>
    exact patRest_aac_none l (hocc ("AAC") (by decide))
  | vDigits => exact patRest_v_none l hv

theorem removeTags_fix : ∀ l : List Char,
    (∀ w ∈ tagLitStrings, occursCI w.data l = false) →
    noVDigit l = true → removeTags l = l := by
  intro l
  induction l with
  | nil => intro _ _; rfl
  | cons c cs ih =>
    intro hocc hv
    have htc : tagConsume (c :: cs) = none := by
      unfold tagConsume
      rw [firstPat_tags_none (c :: cs) hocc hv]
      rfl
    have hocc' : ∀ w ∈ tagLitStrings, occursCI w.data cs = false := by
      intro w hw
      cases hr : occursCI w.data cs
      · rfl
      · exfalso
        have hc : occursCI w.data (c :: cs) = true := by
          simp only [occursCI, Bool.or_eq_true]
          exact Or.inr hr
        have h2 := hocc w hw
        rw [hc] at h2
        exact absurd h2 (by simp)
    show rtGo 0 (c :: cs) = c :: cs
    simp only [rtGo, htc]
    rw [show removeTags cs = rtGo 0 cs from rfl] at ih
    rw [ih hocc' (noVDigit_tail c cs hv)]

theorem noVDigit_append (A B : List Char) (hA : noVDigit A = true)
    (hB : noVDigit B = true)
    (hAB : ∀ a b, A.getLast? = some a → B.head? = some b →
      (lcEq 'v' a && b.isDigit) = false) :
    noVDigit (A ++ B) = true := by
  induction A with
  | nil => simpa using hB
  | cons a A' ih =>
    cases A' with
    | nil =>
      cases B with
      | nil => rfl
      | cons b B' =>
        simp only [List.singleton_append, noVDigit, Bool.and_eq_true]
        refine ⟨?_, by simpa using hB⟩
        rw [hAB a b rfl rfl]
        rfl
    | cons a2 A'' =>
      simp only [List.cons_append, noVDigit, Bool.and_eq_true]
      simp only [noVDigit, Bool.and_eq_true] at hA
      refine ⟨by simpa using hA.1, ?_⟩
      have h2 := ih hA.2 (fun x b hx hb =>
        hAB x b (by rw [List.getLast?_cons_cons]; exact hx) hb)
      simpa using h2

theorem startsCI_cross_mem : ∀ (p X : List Char) (b0 : Char) (B' : List Char),
    startsCI p (X ++ b0 :: B') = true → X.length < p.length →
    ∃ q ∈ p, lcEq q b0 = true
  | [], _, _, _, _, hlen => by simp at hlen
  | q :: ps, [], b0, B', h, _ => by
    simp only [List.nil_append, startsCI, Bool.and_eq_true] at h
    exact ⟨q, List.mem_cons_self q ps, h.1⟩
  | q :: ps, x :: X', b0, B', h, hlen => by
    simp only [List.cons_append, startsCI, Bool.and_eq_true] at h
    obtain ⟨q', hq', hl⟩ := startsCI_cross_mem ps X' b0 B' h.2
      (by simp only [List.length_cons] at hlen; omega)
    exact ⟨q', List.mem_cons_of_mem q hq', hl⟩

theorem startsCI_stop : ∀ (p X Y : List Char),
    startsCI p (X ++ Y) = true → p.length ≤ X.length → startsCI p X = true
  | [], _, _, _, _ => rfl
  | _ :: _, [], _, _, hlen => by simp at hlen
  | q :: ps, x :: X', Y, h, hlen => by
    simp only [List.cons_append, startsCI, Bool.and_eq_true] at h ⊢
    exact ⟨h.1, startsCI_stop ps X' Y h.2
      (by simp only [List.length_cons] at hlen; omega)⟩

theorem occursCI_no_cross : ∀ (p X : List Char) (b0 : Char) (B' : List Char),
    (∀ q ∈ p, lcEq q b0 = false) →
    occursCI p (X ++ b0 :: B') = true →
    occursCI p X = true ∨ occursCI p (b0 :: B') = true
  | _, [], _, _, _, h => Or.inr (by simpa using h)
  | p, x :: X', b0, B', hq, h => by
    simp only [List.cons_append, occursCI, Bool.or_eq_true] at h
    rcases h with h | h
    · by_cases hlen : p.length ≤ (x :: X').length
      · left
        have hst : startsCI p ((x :: X') ++ b0 :: B') = true := by simpa using h
        have h2 := startsCI_stop p (x :: X') (b0 :: B') hst hlen
        simp only [occursCI, Bool.or_eq_true]
        exact Or.inl h2
      · exfalso
        have hst : startsCI p ((x :: X') ++ b0 :: B') = true := by simpa using h
        obtain ⟨q, hqm, hl⟩ := startsCI_cross_mem p (x :: X') b0 B' hst (by omega)
        rw [hq q hqm] at hl
        exact absurd hl (by simp)
    · rcases occursCI_no_cross p X' b0 B' hq h with h2 | h2
      · left
        simp only [occursCI, Bool.or_eq_true]
        exact Or.inr h2
      · exact Or.inr h2

theorem occursCI_cons_elim (p : List Char) (c : Char) (cs : List Char)
    (hhead : ∀ q, p.head? = some q → lcEq q c = false) (hp : p ≠ [])
    (h : occursCI p (c :: cs) = true) : occursCI p cs = true := by
  simp only [occursCI, Bool.or_eq_true] at h
  rcases h with h | h
  · exfalso
    cases hpp : p with
    | nil => exact hp hpp
    | cons q ps =>
      rw [hpp] at h
      simp only [startsCI, Bool.and_eq_true] at h
      have h2 := hhead q (by rw [hpp]; rfl)
      rw [h2] at h
      exact absurd h.1 (by simp)
  · exact h

theorem startsCI_mem_match : ∀ (p l : List Char), startsCI p l = true →
    ∀ q ∈ p, ∃ d ∈ l, lcEq q d = true
  | [], _, _, q, hq => by simp at hq
  | _ :: _, [], h, _, _ => by simp [startsCI] at h
  | p0 :: ps, c :: cs, h, q, hq => by
    simp only [startsCI, Bool.and_eq_true] at h
    rcases List.mem_cons.mp hq with rfl | hq'
    · exact ⟨c, List.mem_cons_self c cs, h.1⟩
    · obtain ⟨d, hd, he⟩ := startsCI_mem_match ps cs h.2 q hq'
      exact ⟨d, List.mem_cons_of_mem c hd, he⟩

theorem occursCI_mem_match : ∀ (p l : List Char), occursCI p l = true →
    ∀ q ∈ p, ∃ d ∈ l, lcEq q d = true
  | p, [], h, q, hq => by
    have hp : p = [] := by simpa [occursCI, List.isEmpty_iff] using h
    subst hp
    simp at hq
  | p, c :: cs, h, q, hq => by
    simp only [occursCI, Bool.or_eq_true] at h
    rcases h with h | h
    · exact startsCI_mem_match p (c :: cs) h q hq
    · obtain ⟨d, hd, he⟩ := occursCI_mem_match p cs h q hq
      exact ⟨d, List.mem_cons_of_mem c hd, he⟩

theorem lcEq_digit_lower (q d : Char) (hd : d.isDigit = true)
    (h : lcEq q d = true) : (q.toLower).isDigit = true := by
  rw [lcEq_iff, toLower_toNat d] at h
  rw [isDigit_iff] at hd ⊢
  rw [if_neg (by omega)] at h
  omega

theorem occursCI_digits_false (p y : List Char)
    (hy : ∀ c ∈ y, c.isDigit = true)
    (hq : ∃ q ∈ p, (q.toLower).isDigit = false) :
    occursCI p y = false := by
  cases hocc : occursCI p y
  · rfl
  · exfalso
    obtain ⟨q, hqm, hqd⟩ := hq
    obtain ⟨d, hd, he⟩ := occursCI_mem_match p y hocc q hqm
    have h2 := lcEq_digit_lower q d (hy d hd) he
    rw [h2] at hqd
    exact absurd hqd (by simp)

theorem startsCI_congr : ∀ (p l l' : List Char),
    l.map Char.toLower = l'.map Char.toLower →
    startsCI p l = startsCI p l'
  | [], _, _, _ => rfl
  | _ :: _, [], [], _ => rfl
  | _ :: _, [], _ :: _, h => by simp at h
  | _ :: _, _ :: _, [], h => by simp at h
  | q :: ps, c :: cs, c' :: cs', h => by
    simp only [List.map_cons, List.cons.injEq] at h
    show (lcEq q c && startsCI ps cs) = (lcEq q c' && startsCI ps cs')
    have h1 : lcEq q c = lcEq q c' := by
      unfold lcEq
      rw [h.1]
    rw [h1, startsCI_congr ps cs cs' h.2]

theorem occursCI_congr : ∀ (p l l' : List Char),
    l.map Char.toLower = l'.map Char.toLower →
    occursCI p l = occursCI p l'
  | _, [], [], _ => rfl
  | _, [], _ :: _, h => by simp at h
  | _, _ :: _, [], h => by simp at h
  | p, c :: cs, c' :: cs', h => by
    have h2 : (c :: cs).map Char.toLower = (c' :: cs').map Char.toLower := h
    simp only [List.map_cons, List.cons.injEq] at h
    show (startsCI p (c :: cs) || occursCI p cs)
      = (startsCI p (c' :: cs') || occursCI p cs')
    rw [startsCI_congr p (c :: cs) (c' :: cs') h2, occursCI_congr p cs cs' h.2]

theorem startsCI_full_map : ∀ (p l : List Char), l.length = p.length →
    startsCI p l = true → l.map Char.toLower = p.map Char.toLower
  | [], [], _, _ => rfl
  | [], _ :: _, hlen, _ => by simp at hlen
  | _ :: _, [], hlen, _ => by simp at hlen
  | q :: ps, c :: cs, hlen, h => by
    simp only [startsCI, Bool.and_eq_true] at h
    simp only [List.map_cons, List.cons.injEq]
    constructor
    · have h2 : q.toLower.toNat = c.toLower.toNat := (lcEq_iff q c).mp h.1
      rw [char_eq_iff_toNat]
      omega
    · exact startsCI_full_map ps cs
        (by simp only [List.length_cons] at hlen; omega) h.2

theorem matchCI_isSome_congr : ∀ (p l l' : List Char),
    l.map Char.toLower = l'.map Char.toLower →
    (matchCI p l).isSome = (matchCI p l').isSome
  | [], _, _, _ => rfl
  | _ :: _, [], [], _ => rfl
  | _ :: _, [], _ :: _, h => by simp at h
  | _ :: _, _ :: _, [], h => by simp at h
  | q :: ps, c :: cs, c' :: cs', h => by
    simp only [List.map_cons, List.cons.injEq] at h
    show (if lcEq q c then matchCI ps cs else none).isSome
      = (if lcEq q c' then matchCI ps cs' else none).isSome
    have h1 : lcEq q c = lcEq q c' := by
      unfold lcEq
      rw [h.1]
    rw [h1]
    by_cases hc : lcEq q c' = true
    · rw [if_pos hc, if_pos hc]
      exact matchCI_isSome_congr ps cs cs' h.2
    · rw [if_neg hc, if_neg hc]

theorem firstLang_cons_pos (w : String) (ws : List String) (l : List Char)
    (h : (matchCI w.toList l).isSome = true) :
    firstLang (w :: ws) l = some (l.take w.length) := by
  show (if (matchCI w.toList l).isSome then some (l.take w.length)
        else firstLang ws l) = _
  rw [if_pos h]

theorem firstLang_cons_neg (w : String) (ws : List String) (l : List Char)
    (h : (matchCI w.toList l).isSome = false) :
    firstLang (w :: ws) l = firstLang ws l := by
  show (if (matchCI w.toList l).isSome then some (l.take w.length)
        else firstLang ws l) = _
  rw [if_neg (by simp only [h]; exact Bool.false_ne_true)]

theorem firstLang_full (w : String) (lt : List Char) (hw : w ∈ langWords)
    (hlen : lt.length = w.data.length) (hst : startsCI w.data lt = true) :
    firstLang langWords lt = some lt := by
  have hmap : lt.map Char.toLower = w.data.map Char.toLower :=
    startsCI_full_map w.data lt hlen hst
  have htake : lt.take w.length = lt :=
    List.take_of_length_le (by rw [hlen]; exact Nat.le_refl _)
  simp only [langWords, List.mem_cons, List.not_mem_nil, or_false] at hw
  show firstLang (("Malayalam") :: ("Tamil") :: ("Hindi") :: ("Telugu")
    :: ("English") :: []) lt = some lt
  rcases hw with rfl | rfl | rfl | rfl | rfl
  · have h1 : (matchCI (("Malayalam").toList) lt).isSome = true := by
      rw [matchCI_isSome_congr _ lt (("Malayalam").data) hmap]
      decide
    rw [firstLang_cons_pos _ _ _ h1, htake]
  · have h1 : (matchCI (("Malayalam").toList) lt).isSome = false := by
      rw [matchCI_isSome_congr _ lt (("Tamil").data) hmap]
      decide
    have h2 : (matchCI (("Tamil").toList) lt).isSome = true := by
      rw [matchCI_isSome_congr _ lt (("Tamil").data) hmap]
      decide
    rw [firstLang_cons_neg _ _ _ h1, firstLang_cons_pos _ _ _ h2, htake]
  · have h1 : (matchCI (("Malayalam").toList) lt).isSome = false := by
      rw [matchCI_isSome_congr _ lt (("Hindi").data) hmap]
      decide
    have h2 : (matchCI (("Tamil").toList) lt).isSome = false := by
      rw [matchCI_isSome_congr _ lt (("Hindi").data) hmap]
      decide
    have h3 : (matchCI (("Hindi").toList) lt).isSome = true := by
      rw [matchCI_isSome_congr _ lt (("Hindi").data) hmap]
      decide
    rw [firstLang_cons_neg _ _ _ h1, firstLang_cons_neg _ _ _ h2,
      firstLang_cons_pos _ _ _ h3, htake]
  · have h1 : (matchCI (("Malayalam").toList) lt).isSome = false := by
      rw [matchCI_isSome_congr _ lt (("Telugu").data) hmap]
      decide
    have h2 : (matchCI (("Tamil").toList) lt).isSome = false := by
      rw [matchCI_isSome_congr _ lt (("Telugu").data) hmap]
      decide
    have h3 : (matchCI (("Hindi").toList) lt).isSome = false := by
      rw [matchCI_isSome_congr _ lt (("Telugu").data) hmap]
      decide
    have h4 : (matchCI (("Telugu").toList) lt).isSome = true := by
      rw [matchCI_isSome_congr _ lt (("Telugu").data) hmap]
      decide
    rw [firstLang_cons_neg _ _ _ h1, firstLang_cons_neg _ _ _ h2,
      firstLang_cons_neg _ _ _ h3, firstLang_cons_pos _ _ _ h4, htake]
  · have h1 : (matchCI (("Malayalam").toList) lt).isSome = false := by
      rw [matchCI_isSome_congr _ lt (("English").data) hmap]
      decide
    have h2 : (matchCI (("Tamil").toList) lt).isSome = false := by
      rw [matchCI_isSome_congr _ lt (("English").data) hmap]
      decide
    have h3 : (matchCI (("Hindi").toList) lt).isSome = false := by
      rw [matchCI_isSome_congr _ lt (("English").data) hmap]
      decide
    have h4 : (matchCI (("Telugu").toList) lt).isSome = false := by
      rw [matchCI_isSome_congr _ lt (("English").data) hmap]
      decide
    have h5 : (matchCI (("English").toList) lt).isSome = true := by
      rw [matchCI_isSome_congr _ lt (("English").data) hmap]
      decide
    rw [firstLang_cons_neg _ _ _ h1, firstLang_cons_neg _ _ _ h2,
      firstLang_cons_neg _ _ _ h3, firstLang_cons_neg _ _ _ h4,
      firstLang_cons_pos _ _ _ h5, htake]

/-! Scan lemmas: where the anchored lazy search places its match, and
    when the year pattern fails at a position. -/

theorem extractAux_min : ∀ (l acc t y : List Char) (lg : Option (List Char)),
    extractAux acc l = some (t, y, lg) →
    ∃ a m, l = a ++ m ∧ t = acc.reverse ++ a ∧ parseYearLang m = some (y, lg) ∧
      (∀ i, i < a.length → parseYearLang (a.drop i ++ m) = none) := by
  intro l
  induction l with
  | nil =>
    intro acc t y lg h
    simp only [extractAux] at h
    have hp : parseYearLang ([] : List Char) = none := rfl
    rw [hp] at h
    exact absurd h (by simp)
  | cons c cs ih =>
    intro acc t y lg h
    rcases hp : parseYearLang (c :: cs) with _ | ⟨y0, lg0⟩
    · simp only [extractAux, hp] at h
      by_cases hnl : c = Char.ofNat 10
      · rw [if_pos hnl] at h
        exact absurd h (by simp)
      · rw [if_neg hnl] at h
        obtain ⟨a, m, he, ht, hm, hfail⟩ := ih (c :: acc) t y lg h
        refine ⟨c :: a, m, by rw [List.cons_append, he], ?_, hm, ?_⟩
        · rw [ht]
          simp
        · intro i hi
          cases i with
          | zero =>
            show parseYearLang (c :: (a ++ m)) = none
            rw [← he]
            exact hp
          | succ j =>
            show parseYearLang (a.drop j ++ m) = none
            exact hfail j (by simp only [List.length_cons] at hi; omega)
    · simp only [extractAux, hp] at h
      have h2 := Option.some_inj.mp h
      obtain ⟨h3, h4, h5⟩ : acc.reverse = t ∧ y0 = y ∧ lg0 = lg :=
        ⟨congrArg (fun z => z.1) h2, congrArg (fun z => z.2.1) h2,
          congrArg (fun z => z.2.2) h2⟩
      subst h4
      subst h5
      refine ⟨[], c :: cs, rfl, by rw [← h3]; simp, hp, ?_⟩
      intro i hi
      simp at hi

theorem extract_t_no_run (l t y : List Char) (lg : Option (List Char))
    (h : extract l = some (t, y, lg)) : has4DigitRun t = false := by
  obtain ⟨a, m, he, ht, hm, hfail⟩ := extractAux_min l [] t y lg h
  have hta : t = a := by rw [ht]; rfl
  subst hta
  cases hr : has4DigitRun t
  · rfl
  · exfalso
    obtain ⟨i, d1, d2, d3, d4, r, hd, h4⟩ := has4_exists t hr
    have hilen : i < t.length := by
      have hld : (t.drop i).length = t.length - i := List.length_drop ..
      rw [hd] at hld
      simp only [List.length_cons] at hld
      omega
    have hfail_i := hfail i hilen
    rw [hd] at hfail_i
    simp only [Bool.and_eq_true] at h4
    have hne := parseYearLang_head4 d1 d2 d3 d4 (r ++ m)
      (by simp [h4.1.1.1, h4.1.1.2, h4.1.2, h4.2])
    exact hne (by simpa using hfail_i)

theorem getLast?_drop_eq (l : List Char) (i : Nat) (hne : l.drop i ≠ []) :
    (l.drop i).getLast? = l.getLast? := by
  conv_rhs => rw [← List.take_append_drop i l]
  rw [List.getLast?_append_of_ne_nil _ hne]

theorem pyl_take4_none (A R : List Char) (j : Nat)
    (h4 : has4DigitRun A = false) :
    take4Digits (dropOpenParen (A.drop j ++ ' ' :: R)) = none := by
  have h4j : has4DigitRun (A.drop j) = false := by
    cases hr : has4DigitRun (A.drop j)
    · rfl
    · exact absurd (has4_drop A j hr) (by simp [h4])
  by_cases hpar : (A.drop j ++ ' ' :: R).head? = some '('
  · have hdo : dropOpenParen (A.drop j ++ ' ' :: R)
        = (A.drop j ++ ' ' :: R).tail := by
      unfold dropOpenParen
      rw [if_pos hpar]
    rw [hdo]
    rcases hDj : A.drop j with _ | ⟨d, D2⟩
    · rw [hDj] at hpar
      simp at hpar
    · show take4Digits (D2 ++ ' ' :: R) = none
      apply take4_space_none
      cases hr : has4DigitRun D2
      · rfl
      · exact absurd (has4DigitRun_cons_of d D2 hr)
          (by rw [hDj] at h4j; simp [h4j])
  · have hdo : dropOpenParen (A.drop j ++ ' ' :: R)
        = A.drop j ++ ' ' :: R := by
      unfold dropOpenParen
      rw [if_neg hpar]
    rw [hdo]
    exact take4_space_none _ _ h4j

theorem pyl_none_shape (A R : List Char) (i : Nat) (hi : i < A.length)
    (h4 : has4DigitRun A = false)
    (hlast : ∀ c, A.getLast? = some c → isWsU c = false) :
    parseYearLang (A.drop i ++ ' ' :: R) = none := by
  apply pyl_none_of_take4
  have hdne : A.drop i ≠ [] := by
    intro hcon
    have hld := List.length_drop i A
    rw [hcon] at hld
    simp at hld
    omega
  have hlast2 : (A.drop i).getLast? = A.getLast? := getLast?_drop_eq A i hdne
  have hdw_ne : (A.drop i).dropWhile isWsU ≠ [] := by
    intro hcon
    have hall := List.dropWhile_eq_nil_iff.mp hcon
    obtain ⟨z, hz⟩ := exists_getLast?_of_ne_nil (A.drop i) hdne
    have hzA : A.getLast? = some z := by rw [← hlast2]; exact hz
    have hzw := hall z (List.mem_of_mem_getLast? (by simp [hz]))
    rw [hlast z hzA] at hzw
    exact absurd hzw (by simp)
  have hdw : (A.drop i ++ ' ' :: R).dropWhile isWsU
      = (A.drop i).dropWhile isWsU ++ ' ' :: R := by
    rw [List.dropWhile_append]
    rw [if_neg (by simpa [List.isEmpty_iff] using hdw_ne)]
  obtain ⟨n, hn⟩ := dropWhile_eq_drop_ex isWsU (A.drop i)
  rw [hdw, hn, List.drop_drop]
  exact pyl_take4_none A R _ h4

theorem pyl_success_some (y lt : List Char) (w : String)
    (hylen : y.length = 4) (hydig : ∀ c ∈ y, c.isDigit = true)
    (hw : w ∈ langWords) (hlen : lt.length = w.data.length)
    (hst : startsCI w.data lt = true)
    (hltalpha : ∀ c ∈ lt, c.isAlpha = true) :
    parseYearLang (' ' :: '(' :: (y ++ ')' :: ' ' :: lt)) = some (y, some lt) := by
  have h1 : (' ' :: '(' :: (y ++ ')' :: ' ' :: lt)).dropWhile isWsU
      = '(' :: (y ++ ')' :: ' ' :: lt) := by
    rw [dropWhile_cons_pos _ _ _ (by decide), dropWhile_cons_neg _ _ _ (by decide)]
  have h2 : dropOpenParen ('(' :: (y ++ ')' :: ' ' :: lt))
      = y ++ ')' :: ' ' :: lt := by
    unfold dropOpenParen
    simp
  have h3 : take4Digits (y ++ ')' :: ' ' :: lt) = some (y, ')' :: ' ' :: lt) :=
    take4Digits_of4 y _ hylen hydig
  have h4 : dropCloseParen (')' :: ' ' :: lt) = ' ' :: lt := by
    unfold dropCloseParen
    simp
  have h5 : (' ' :: lt).dropWhile isWsU = lt := by
    rw [dropWhile_cons_pos _ _ _ (by decide)]
    apply dropWhile_head_false
    intro c hc
    exact alpha_not_wsU c (hltalpha c (List.mem_of_mem_head? (by simp [hc])))
  simp only [parseYearLang, h1, h2, h3, h4, h5]
  rw [firstLang_full w lt hw hlen hst]

theorem pyl_success_none (y : List Char)
    (hylen : y.length = 4) (hydig : ∀ c ∈ y, c.isDigit = true) :
    parseYearLang (' ' :: '(' :: (y ++ [')'])) = some (y, none) := by
  have h1 : (' ' :: '(' :: (y ++ [')'])).dropWhile isWsU
      = '(' :: (y ++ [')']) := by
    rw [dropWhile_cons_pos _ _ _ (by decide), dropWhile_cons_neg _ _ _ (by decide)]
  have h2 : dropOpenParen ('(' :: (y ++ [')'])) = y ++ [')'] := by
    unfold dropOpenParen
    simp
  have h3 : take4Digits (y ++ [')']) = some (y, [')']) :=
    take4Digits_of4 y _ hylen hydig
  have h4 : dropCloseParen ([')']) = [] := by
    unfold dropCloseParen
    simp
  simp only [parseYearLang, h1, h2, h3, h4]
  rfl

theorem head_digit_no_paren (y : List Char) (X : List Char)
    (hylen : y.length = 4) (hydig : ∀ c ∈ y, c.isDigit = true) :
    (y ++ X).dropWhile isWsU = y ++ X ∧ dropOpenParen (y ++ X) = y ++ X := by
  match y, hylen with
  | a :: y', _ =>
    have ha : a.isDigit = true := hydig a (by simp)
    constructor
    · exact dropWhile_cons_neg _ _ _ (digit_not_wsU a ha)
    · unfold dropOpenParen
      rw [if_neg]
      show ¬((a :: (y' ++ X)).head? = some '(')
      simp only [List.head?_cons]
      intro hcon
      have : a = '(' := Option.some_inj.mp hcon
      subst this
      simp at ha

theorem pyl_success_bare_some (y lt : List Char) (w : String)
    (hylen : y.length = 4) (hydig : ∀ c ∈ y, c.isDigit = true)
    (hw : w ∈ langWords) (hlen : lt.length = w.data.length)
    (hst : startsCI w.data lt = true)
    (hltalpha : ∀ c ∈ lt, c.isAlpha = true) :
    parseYearLang (y ++ ')' :: ' ' :: lt) = some (y, some lt) := by
  obtain ⟨h1, h2⟩ := head_digit_no_paren y (')' :: ' ' :: lt) hylen hydig
  have h3 : take4Digits (y ++ ')' :: ' ' :: lt) = some (y, ')' :: ' ' :: lt) :=
    take4Digits_of4 y _ hylen hydig
  have h4 : dropCloseParen (')' :: ' ' :: lt) = ' ' :: lt := by
    unfold dropCloseParen
    simp
  have h5 : (' ' :: lt).dropWhile isWsU = lt := by
    rw [dropWhile_cons_pos _ _ _ (by decide)]
    apply dropWhile_head_false
    intro c hc
    exact alpha_not_wsU c (hltalpha c (List.mem_of_mem_head? (by simp [hc])))
  simp only [parseYearLang, h1, h2, h3, h4, h5]
  rw [firstLang_full w lt hw hlen hst]

theorem pyl_success_bare_none (y : List Char)
    (hylen : y.length = 4) (hydig : ∀ c ∈ y, c.isDigit = true) :
    parseYearLang (y ++ [')']) = some (y, none) := by
  obtain ⟨h1, h2⟩ := head_digit_no_paren y ([')']) hylen hydig
  have h3 : take4Digits (y ++ [')']) = some (y, [')']) :=
    take4Digits_of4 y _ hylen hydig
  have h4 : dropCloseParen ([')']) = [] := by
    unfold dropCloseParen
    simp
  simp only [parseYearLang, h1, h2, h3, h4]
  rfl

theorem extractAux_of_first : ∀ (a acc m y : List Char) (lg : Option (List Char)),
    (∀ i, i < a.length → parseYearLang (a.drop i ++ m) = none) →
    (∀ c ∈ a, ¬(c = Char.ofNat 10)) →
    parseYearLang m = some (y, lg) →
    extractAux acc (a ++ m) = some (acc.reverse ++ a, y, lg)
  | [], acc, m, y, lg, _, _, hm => by
    cases m with
    | nil =>
      have hp : parseYearLang ([] : List Char) = none := rfl
      rw [hp] at hm
      exact absurd hm (by simp)
    | cons c cs =>
      show extractAux acc (c :: cs) = _
      simp only [extractAux, hm]
      simp
  | x :: a', acc, m, y, lg, hfail, hnl, hm => by
    have h0 : parseYearLang (x :: (a' ++ m)) = none := by
      have hf := hfail 0 (by simp)
      simpa using hf
    show extractAux acc (x :: (a' ++ m)) = _
    simp only [extractAux, h0]
    rw [if_neg (hnl x (List.mem_cons_self x a'))]
    have hrec := extractAux_of_first a' (x :: acc) m y lg
      (fun i hi => hfail (i + 1) (by simp only [List.length_cons]; omega))
      (fun c hc => hnl c (List.mem_cons_of_mem x hc)) hm
    rw [hrec]
    simp

theorem extract_of_first (a m y : List Char) (lg : Option (List Char))
    (h1 : ∀ i, i < a.length → parseYearLang (a.drop i ++ m) = none)
    (h2 : ∀ c ∈ a, ¬(c = Char.ofNat 10))
    (h3 : parseYearLang m = some (y, lg)) :
    extract (a ++ m) = some (a, y, lg) := by
  have hx := extractAux_of_first a [] m y lg h1 h2 h3
  simpa using hx

/-- The rebuild of lines 123-129 when no language was captured: the
    f-string leaves a trailing space behind the closing parenthesis,
    which the final str.strip() removes. -/
theorem rebuildName_none_eq (name y : List Char)
    (hh : ∀ c, name.head? = some c → isReWs c = false)
    (hlast : ∀ c, name.getLast? = some c → isReWs c = false)
    (hy : ∀ c ∈ y, c.isDigit = true) :
    collapseWs (stripWsBoth (name ++ ' ' :: '(' :: (y ++ [')', ' '])))
      = (if (collapseWs name).isEmpty then [] else collapseWs name ++ [' '])
        ++ '(' :: (y ++ [')']) := by
  have hyws : ∀ c ∈ y, isReWs c = false := fun c hc => digit_not_reWs c (hy c hc)
  have hXeq : name ++ ' ' :: '(' :: (y ++ [')', ' '])
      = (name ++ ' ' :: '(' :: (y ++ [')'])) ++ [' '] := by simp
  have hpeel : stripWsBoth (name ++ ' ' :: '(' :: (y ++ [')', ' ']))
      = stripEnds isPyStripWs (name ++ ' ' :: '(' :: (y ++ [')'])) := by
    unfold stripWsBoth
    rw [hXeq]
    exact stripEnds_append_p _ _ _ (by decide)
  rw [hpeel]
  by_cases hnil : name = []
  · subst hnil
    simp only [List.nil_append]
    have hstrip : stripEnds isPyStripWs (' ' :: '(' :: (y ++ [')']))
        = '(' :: (y ++ [')']) := by
      rw [stripEnds_cons_p _ _ _ (by decide : isPyStripWs ' ' = true)]
      apply stripEnds_eq_self
      · intro c hc
        simp at hc
        subst hc
        decide
      · intro c hc
        have h1 : '(' :: (y ++ [')']) = ('(' :: y) ++ [')'] := by simp
        rw [h1, List.getLast?_concat] at hc
        have hcp : c = ')' := (Option.some_inj.mp hc).symm
        subst hcp
        decide
    rw [hstrip]
    have hcol : collapseWs ('(' :: (y ++ [')'])) = '(' :: (y ++ [')']) := by
      show cwGo isReWs false _ = _
      rw [cwGo_cons_not _ false '(' _ (by decide)]
      rw [cwGo_append_all_not _ y hyws]
      rw [cwGo_cons_not _ false ')' _ (by decide)]
      rfl
    rw [hcol]
    rw [if_pos (by decide : (collapseWs ([] : List Char)).isEmpty = true)]
    simp
  · obtain ⟨z, hz⟩ := exists_getLast?_of_ne_nil name hnil
    have hzws := hlast z hz
    obtain ⟨h0, hh0⟩ := exists_head?_of_ne_nil name hnil
    have hh0ws := hh h0 hh0
    have hTne : (' ' :: '(' :: (y ++ [')'])) ≠ [] := by simp
    have hTailLast : (' ' :: '(' :: (y ++ [')'])).getLast? = some ')' := by
      have h1 : ' ' :: '(' :: (y ++ [')']) = (' ' :: '(' :: y) ++ [')'] := by simp
      rw [h1, List.getLast?_concat]
    have hstrip : stripEnds isPyStripWs (name ++ ' ' :: '(' :: (y ++ [')']))
        = name ++ ' ' :: '(' :: (y ++ [')']) := by
      apply stripEnds_eq_self
      · intro c hc
        rw [List.head?_append_of_ne_nil name hnil, hh0] at hc
        have hch : c = h0 := (Option.some_inj.mp hc).symm
        subst hch
        rw [isPyStripWs_eq]
        exact hh0ws
      · intro c hc
        rw [List.getLast?_append_of_ne_nil name hTne, hTailLast] at hc
        have hcp : c = ')' := (Option.some_inj.mp hc).symm
        subst hcp
        decide
    rw [hstrip]
    have hsplit : collapseWs (name ++ ' ' :: '(' :: (y ++ [')']))
        = collapseWs name ++ cwGo isReWs false (' ' :: '(' :: (y ++ [')'])) :=
      cwGo_append_last_not isReWs name z hz hzws false _
    have htail : cwGo isReWs false (' ' :: '(' :: (y ++ [')']))
        = ' ' :: '(' :: (y ++ [')']) := by
      rw [cwGo_cons_p_false _ _ _ (by decide : isReWs ' ' = true)]
      rw [cwGo_cons_not _ true '(' _ (by decide)]
      rw [cwGo_append_all_not _ y hyws]
      rw [cwGo_cons_not _ false ')' _ (by decide)]
      rfl
    rw [hsplit, htail]
    have hNne : ¬(collapseWs name).isEmpty = true := by
      rw [List.isEmpty_iff]
      intro hcon
      exact hnil ((cwGo_false_eq_nil_iff isReWs name).mp hcon)
    rw [if_neg hNne]
    simp

/-- The no-language reassembled result is single-spaced and trimmed. -/
theorem formula_none_tidy (name y : List Char)
    (hh : ∀ c, name.head? = some c → isReWs c = false)
    (hlast : ∀ c, name.getLast? = some c → isReWs c = false)
    (hy : ∀ c ∈ y, c.isDigit = true) :
    tidy ((if (collapseWs name).isEmpty then [] else collapseWs name ++ [' '])
      ++ '(' :: (y ++ [')'])) = true := by
  have hyws : ∀ c ∈ y, isReWs c = false := fun c hc => digit_not_reWs c (hy c hc)
  set TC : List Char := '(' :: (y ++ [')']) with hTC
  have hTCne : TC ≠ [] := by rw [hTC]; simp
  have hTClast : TC.getLast? = some ')' := by
    have h1 : TC = ('(' :: y) ++ [')'] := by rw [hTC]; simp
    rw [h1, List.getLast?_concat]
  have hTCws : ∀ c ∈ TC, isReWs c = false := by
    intro c hc
    rw [hTC] at hc
    rcases List.mem_cons.mp hc with h1 | h1
    · subst h1; decide
    · rcases List.mem_append.mp h1 with h2 | h2
      · exact hyws c h2
      · simp at h2; subst h2; decide
  have hTCadj : noAdjWs TC = true := noAdjWs_all_not TC hTCws
  set N : List Char := collapseWs name with hN
  by_cases hnil : name = []
  · have hNemp : N.isEmpty = true := by rw [hN, hnil]; decide
    rw [if_pos hNemp]
    simp only [List.nil_append]
    unfold tidy
    simp only [Bool.and_eq_true]
    refine ⟨⟨⟨?_, hTCadj⟩, ?_⟩, ?_⟩
    · rw [wsIsSpaceOnly, List.all_eq_true]
      intro c hc
      simp [hTCws c hc]
    · rw [hTC]
      simp only [List.head?_cons]
      decide
    · rw [hTClast]
      decide
  · rw [if_neg (by
      rw [List.isEmpty_iff, hN]
      intro hcon
      exact hnil ((cwGo_false_eq_nil_iff isReWs name).mp hcon))]
    obtain ⟨z, hz⟩ := exists_getLast?_of_ne_nil name hnil
    have hzws := hlast z hz
    obtain ⟨h0, hh0⟩ := exists_head?_of_ne_nil name hnil
    have hh0ws := hh h0 hh0
    have hNlast : N.getLast? = some z := by
      rw [hN]
      exact cwGo_last_not isReWs name false z hz hzws
    have hNne : N ≠ [] := by
      intro hcon
      rw [hcon] at hNlast
      simp at hNlast
    have hNhead : N.head? = some h0 := by
      rw [hN]
      cases hname : name with
      | nil => exact absurd hname hnil
      | cons a rest =>
        have ha : a = h0 := by
          rw [hname] at hh0
          exact Option.some_inj.mp hh0
        subst ha
        have haws : isReWs a = false := hh0ws
        show (cwGo isReWs false (a :: rest)).head? = some a
        rw [cwGo_cons_not isReWs false a rest haws]
        rfl
    unfold tidy
    simp only [Bool.and_eq_true]
    refine ⟨⟨⟨?_, ?_⟩, ?_⟩, ?_⟩
    · rw [wsIsSpaceOnly, List.all_eq_true]
      intro c hc
      rcases List.mem_append.mp hc with h1 | h1
      · rcases List.mem_append.mp h1 with h2 | h2
        · rcases mem_cwGo_strong isReWs false name c h2 with h3 | ⟨_, h3⟩
          · simp [h3]
          · simp [h3]
        · simp at h2; subst h2; simp
      · simp [hTCws c h1]
    · apply noAdjWs_append
      · apply noAdjWs_append
        · rw [hN]
          exact (cwGo_tidyAux isReWs (fun c h => h) name false).1
        · rfl
        · intro a b ha hb
          have haz : a = z := by
            rw [hNlast] at ha
            exact (Option.some_inj.mp ha).symm
          subst haz
          rw [hzws]
          rfl
      · exact hTCadj
      · intro a b ha hb
        have hb' : '(' = b := by
          rw [hTC] at hb
          simpa using hb
        subst hb'
        have hp : isReWs '(' = false := by decide
        rw [hp]
        simp
    · rw [List.append_assoc, List.head?_append_of_ne_nil N hNne, hNhead]
      simp only []
      rw [hh0ws]
      rfl
    · rw [List.getLast?_append_of_ne_nil _ hTCne, hTClast]
      decide

/-! Character-class consequences of being an ASCII word character that is
    not an underscore, and small decidable char facts. -/

theorem word_alnum (c : Char) (hw : isAsciiWord c = true) (hu : ¬(c = '_')) :
    c.isAlpha = true ∨ c.isDigit = true := by
  unfold isAsciiWord at hw
  simp only [Bool.or_eq_true] at hw
  rcases hw with (h | h) | h
  · exact Or.inl h
  · exact Or.inr h
  · exact absurd (of_decide_eq_true h) hu

theorem word_not_ws (c : Char) (hw : isAsciiWord c = true) (hu : ¬(c = '_')) :
    isReWs c = false := by
  rcases word_alnum c hw hu with h | h
  · exact alpha_not_reWs c h
  · exact digit_not_reWs c h

theorem word_not_sep (c : Char) (hw : isAsciiWord c = true) (hu : ¬(c = '_')) :
    isSep c = false := by
  rcases word_alnum c hw hu with h | h
  · exact alpha_not_sep c h
  · exact digit_not_sep c h

theorem word_not_lead (uw : Char → Bool) (c : Char) (hw : isAsciiWord c = true)
    (hu : ¬(c = '_')) (hascii : c.val ≤ 127) : inLeadClass uw c = false := by
  unfold inLeadClass isPyWord
  rw [if_pos hascii]
  have hat : ¬(c = '@') := by
    intro he
    subst he
    exact absurd hw (by decide)
  simp [hat, hu, hw]

theorem wsU_eq_reWs (c : Char) (hu : ¬(c = '_')) : isWsU c = isReWs c := by
  unfold isWsU
  simp [hu]

theorem open_paren_lead (uw : Char → Bool) : inLeadClass uw '(' = true := by
  unfold inLeadClass isPyWord
  rw [if_pos (by decide)]
  decide

theorem digit_not_bracket (c : Char) (h : c.isDigit = true) : ¬(c = '[') := by
  intro he
  subst he
  exact absurd h (by decide)

theorem alpha_not_bracket (c : Char) (h : c.isAlpha = true) : ¬(c = '[') := by
  intro he
  subst he
  exact absurd h (by decide)

theorem digit_not_und (c : Char) (h : c.isDigit = true) : ¬(c = '_') := by
  intro he
  subst he
  exact absurd h (by decide)

theorem alpha_not_und (c : Char) (h : c.isAlpha = true) : ¬(c = '_') := by
  intro he
  subst he
  exact absurd h (by decide)

theorem digit_ascii (c : Char) (h : c.isDigit = true) : c.val ≤ 127 := by
  rw [uleNat]
  rw [isDigit_iff] at h
  have h127 : (127 : UInt32).toNat = 127 := by decide
  rw [h127]
  show c.toNat ≤ 127
  omega

theorem alpha_ascii (c : Char) (h : c.isAlpha = true) : c.val ≤ 127 := by
  rw [uleNat]
  rw [isAlpha_iff] at h
  have h127 : (127 : UInt32).toNat = 127 := by decide
  rw [h127]
  show c.toNat ≤ 127
  omega

theorem digit_word (c : Char) (h : c.isDigit = true) : isAsciiWord c = true := by
  unfold isAsciiWord
  simp [h]

theorem lcEq_v_digit (c : Char) (h : c.isDigit = true) : lcEq 'v' c = false := by
  cases hl : lcEq 'v' c
  · rfl
  · exfalso
    have hv : (('v').toLower).toNat = 118 := by decide
    rw [lcEq_iff, hv, toLower_toNat] at hl
    rw [isDigit_iff] at h
    rw [if_neg (by omega)] at hl
    omega

theorem digits_noV : ∀ (y : List Char), (∀ c ∈ y, c.isDigit = true) →
    noVDigit y = true
  | [], _ => rfl
  | [_], _ => rfl
  | a :: b :: r, hy => by
    simp only [noVDigit, Bool.and_eq_true]
    constructor
    · rw [lcEq_v_digit a (hy a (by simp))]
      rfl
    · exact digits_noV (b :: r) (fun c hc => hy c (List.mem_cons_of_mem a hc))

theorem noVDigit_cons (x : Char) (M : List Char) (hM : noVDigit M = true)
    (hx : ∀ b, M.head? = some b → (lcEq 'v' x && b.isDigit) = false) :
    noVDigit (x :: M) = true := by
  cases M with
  | nil => rfl
  | cons b M' =>
    simp only [noVDigit, Bool.and_eq_true]
    refine ⟨?_, hM⟩
    rw [hx b rfl]
    rfl

/-! Ends of a both-ends strip when the head is clean. -/

theorem stripEnds_ne_nil (p : Char → Bool) (l : List Char) (c0 : Char)
    (hc0 : l.head? = some c0) (hp : p c0 = false) : stripEnds p l ≠ [] := by
  unfold stripEnds
  rw [dropWhile_head_false p l (fun c hc => by
    have hcc : c = c0 := by rw [hc0] at hc; exact (Option.some_inj.mp hc).symm
    subst hcc
    exact hp)]
  intro hcon
  have h0 : l.reverse.dropWhile p = [] := by
    rcases hx : l.reverse.dropWhile p with _ | ⟨a, as⟩
    · rfl
    · rw [hx] at hcon
      simp at hcon
  have hall := List.dropWhile_eq_nil_iff.mp h0
  have hc0m : c0 ∈ l := List.mem_of_mem_head? (by simp [hc0])
  have hcp := hall c0 (List.mem_reverse.mpr hc0m)
  rw [hp] at hcp
  exact absurd hcp (by simp)

theorem stripEnds_head_eq (p : Char → Bool) (l : List Char) (c0 : Char)
    (hc0 : l.head? = some c0) (hp : p c0 = false) :
    (stripEnds p l).head? = some c0 := by
  obtain ⟨K, hK⟩ := stripEnds_take_of_head p l (fun c hc => by
    have hcc : c = c0 := by rw [hc0] at hc; exact (Option.some_inj.mp hc).symm
    subst hcc
    exact hp)
  have hne := stripEnds_ne_nil p l c0 hc0 hp
  rw [hK] at hne ⊢
  cases l with
  | nil => simp at hc0
  | cons a as =>
    cases K with
    | zero => exact absurd rfl hne
    | succ m =>
      rw [List.take_succ_cons]
      simpa using hc0

/-! The composed fixpoint: a string that is clean for every stage passes
    through steps 1-5 unchanged. -/

theorem stage5_fix (uw : Char → Bool) (l : List Char)
    (hbr : '[' ∉ l)
    (hascii : ∀ c ∈ l, c.val ≤ 127)
    (hund : ∀ c ∈ l, ¬(c = '_'))
    (hsp : ∀ c ∈ l, isReWs c = true → c = ' ')
    (hadj : noAdjWs l = true)
    (hhead : ∀ c, l.head? = some c → inLeadClass uw c = false)
    (hheadws : ∀ c, l.head? = some c → isReWs c = false)
    (hlastws : ∀ c, l.getLast? = some c → isReWs c = false)
    (htags : ∀ w ∈ tagLitStrings, occursCI w.data l = false)
    (hv : noVDigit l = true) :
    stage5 uw l = l := by
  have h1 : stage1 l = l := rbGo_no_open l hbr
  have h2 : stage2 uw l = l := by
    unfold stage2
    rw [h1]
    exact dropWhile_head_false _ l hhead
  have h3 : stage3 uw l = l := by
    unfold stage3
    rw [h2]
    exact stripNonAscii_fix l hascii
  have h4 : stage4 uw l = l := by
    unfold stage4
    rw [h3]
    have hc : collapseWsU l = l := by
      unfold collapseWsU
      rw [cwGo_congr isWsU isReWs false l (fun c hc => wsU_eq_reWs c (hund c hc))]
      exact cwGo_fix l false hsp hadj (by intro h; exact absurd h (by simp))
    rw [hc]
    unfold stripWsBoth
    apply stripEnds_eq_self
    · intro c hc
      rw [isPyStripWs_eq]
      exact hheadws c hc
    · intro c hc
      rw [isPyStripWs_eq]
      exact hlastws c hc
  show stripWsBoth (removeTags (stage4 uw l)) = l
  rw [h4, removeTags_fix l htags hv]
  unfold stripWsBoth
  apply stripEnds_eq_self
  · intro c hc
    rw [isPyStripWs_eq]
    exact hheadws c hc
  · intro c hc
    rw [isPyStripWs_eq]
    exact hlastws c hc

/-- Unpacking the Boolean clean-title predicate. -/
theorem cleanTitle_facts (l : List Char) (h : cleanTitle l = true) :
    (∀ c ∈ l, c.val ≤ 127)
    ∧ (∀ c ∈ l, ¬(c = '[') ∧ ¬(c = ']'))
    ∧ (∀ c ∈ l, ¬(c = '_'))
    ∧ (∀ w ∈ tagLitStrings, occursCI w.data l = false)
    ∧ noVDigit l = true
    ∧ (∀ c, l.head? = some c → isAsciiWord c = true)
    ∧ (∀ c ∈ l, isReWs c = true → c = ' ')
    ∧ noAdjWs l = true
    ∧ (∀ c, l.getLast? = some c → isReWs c = false) := by
  unfold cleanTitle at h
  simp only [Bool.and_eq_true] at h
  obtain ⟨⟨⟨⟨⟨⟨⟨hA, hB⟩, hC⟩, hD⟩, hE⟩, hF⟩, hG⟩, hH⟩ := h
  refine ⟨?_, ?_, ?_, ?_, ?_, ?_, ?_, hG, ?_⟩
  · intro c hc
    exact of_decide_eq_true (List.all_eq_true.mp hA c hc)
  · intro c hc
    have hb := List.all_eq_true.mp hB c hc
    simp only [Bool.and_eq_true, Bool.not_eq_true'] at hb
    constructor
    · intro he
      rw [he] at hb
      exact absurd hb.1 (by simp)
    · intro he
      rw [he] at hb
      exact absurd hb.2 (by simp)
  · intro c hc
    have hb := List.all_eq_true.mp hC c hc
    intro he
    rw [he] at hb
    exact absurd hb (by simp)
  · intro w hw
    unfold noTagSubstring at hD
    simp only [Bool.and_eq_true] at hD
    have hb := List.all_eq_true.mp hD.1 w hw
    simpa using hb
  · unfold noTagSubstring at hD
    simp only [Bool.and_eq_true] at hD
    exact hD.2
  · intro c hc
    rw [hc] at hE
    exact hE
  · intro c hc hw
    have hb := List.all_eq_true.mp hF c hc
    simp only [Bool.or_eq_true, Bool.not_eq_true'] at hb
    rcases hb with hb | hb
    · rw [hw] at hb
      exact absurd hb (by simp)
    · exact of_decide_eq_true hb
  · intro c hc
    rw [hc] at hH
    simpa using hH

/-! No denylisted tag can occur in the rebuilt string: tags contain no
    space or parenthesis, are not all digits, and do not occur in any
    language word. -/

theorem tag_chars_fact : tagLitStrings.all (fun w =>
    !w.data.isEmpty &&
    w.data.all (fun q => !lcEq q ' ' && !lcEq q '(' && !lcEq q ')') &&
    w.data.any (fun q => !(q.toLower).isDigit)) = true := by decide

theorem tag_lang_fact : tagLitStrings.all (fun tg =>
    langWords.all (fun lw => !occursCI tg.data lw.data)) = true := by decide

theorem tag_w_facts (w : String) (hw : w ∈ tagLitStrings) :
    w.data ≠ []
    ∧ (∀ q ∈ w.data, lcEq q ' ' = false ∧ lcEq q '(' = false ∧ lcEq q ')' = false)
    ∧ (∃ q ∈ w.data, (q.toLower).isDigit = false) := by
  have hb := List.all_eq_true.mp tag_chars_fact w hw
  simp only [Bool.and_eq_true] at hb
  obtain ⟨⟨hne, hall⟩, hany⟩ := hb
  refine ⟨?_, ?_, ?_⟩
  · intro hcon
    rw [hcon] at hne
    exact absurd hne (by decide)
  · intro q hq
    have h2 := List.all_eq_true.mp hall q hq
    simp only [Bool.and_eq_true, Bool.not_eq_true'] at h2
    exact ⟨h2.1.1, h2.1.2, h2.2⟩
  · obtain ⟨q, hq, hqd⟩ := List.any_eq_true.mp hany
    exact ⟨q, hq, by simpa using hqd⟩

theorem tags_nil_occurs (w : String) (hw : w ∈ tagLitStrings) :
    occursCI w.data ([] : List Char) = false := by
  obtain ⟨hne, _, _⟩ := tag_w_facts w hw
  show w.data.isEmpty = false
  cases hd : w.data with
  | nil => exact absurd hd hne
  | cons a as => rfl

theorem tags_langtail_occurs (w : String) (hw : w ∈ tagLitStrings)
    (lt : List Char) (lw : String) (hlw : lw ∈ langWords)
    (hmap : lt.map Char.toLower = lw.data.map Char.toLower) :
    occursCI w.data (' ' :: lt) = false := by
  obtain ⟨hne, hchars, _⟩ := tag_w_facts w hw
  have hlt : occursCI w.data lt = false := by
    rw [occursCI_congr w.data lt lw.data hmap]
    have hb := List.all_eq_true.mp tag_lang_fact w hw
    have hb2 := List.all_eq_true.mp hb lw hlw
    simpa using hb2
  cases hocc : occursCI w.data (' ' :: lt)
  · rfl
  · exfalso
    have h2 := occursCI_cons_elim w.data ' ' lt
      (fun q hq => (hchars q (List.mem_of_mem_head? (by simp [hq]))).1) hne hocc
    rw [hlt] at h2
    exact absurd h2 (by simp)

theorem tags_bare_occurs (w : String) (hw : w ∈ tagLitStrings)
    (y TL : List Char) (hydig : ∀ c ∈ y, c.isDigit = true)
    (hTL : occursCI w.data TL = false) :
    occursCI w.data (y ++ ')' :: TL) = false := by
  obtain ⟨hne, hchars, hdig⟩ := tag_w_facts w hw
  cases hocc : occursCI w.data (y ++ ')' :: TL)
  · rfl
  · exfalso
    rcases occursCI_no_cross w.data y ')' TL
        (fun q hq => (hchars q hq).2.2) hocc with h | h
    · have hf := occursCI_digits_false w.data y hydig hdig
      rw [hf] at h
      exact absurd h (by simp)
    · have h2 := occursCI_cons_elim w.data ')' TL
        (fun q hq => (hchars q (List.mem_of_mem_head? (by simp [hq]))).2.2) hne h
      rw [hTL] at h2
      exact absurd h2 (by simp)

theorem tags_paren_occurs (w : String) (hw : w ∈ tagLitStrings)
    (y TL : List Char) (hydig : ∀ c ∈ y, c.isDigit = true)
    (hTL : occursCI w.data TL = false) :
    occursCI w.data ('(' :: (y ++ ')' :: TL)) = false := by
  obtain ⟨hne, hchars, _⟩ := tag_w_facts w hw
  cases hocc : occursCI w.data ('(' :: (y ++ ')' :: TL))
  · rfl
  · exfalso
    have h2 := occursCI_cons_elim w.data '(' _
      (fun q hq => (hchars q (List.mem_of_mem_head? (by simp [hq]))).2.1) hne hocc
    rw [tags_bare_occurs w hw y TL hydig hTL] at h2
    exact absurd h2 (by simp)

theorem tags_formula_occurs (w : String) (hw : w ∈ tagLitStrings)
    (S1 y TL : List Char)
    (hS1 : occursCI w.data S1 = false)
    (hydig : ∀ c ∈ y, c.isDigit = true)
    (hTL : occursCI w.data TL = false) :
    occursCI w.data (S1 ++ ' ' :: '(' :: (y ++ ')' :: TL)) = false := by
  obtain ⟨hne, hchars, _⟩ := tag_w_facts w hw
  cases hocc : occursCI w.data (S1 ++ ' ' :: '(' :: (y ++ ')' :: TL))
  · rfl
  · exfalso
    rcases occursCI_no_cross w.data S1 ' ' _
        (fun q hq => (hchars q hq).1) hocc with h | h
    · rw [hS1] at h
      exact absurd h (by simp)
    · have h2 := occursCI_cons_elim w.data ' ' _
        (fun q hq => (hchars q (List.mem_of_mem_head? (by simp [hq]))).1) hne h
      rw [tags_paren_occurs w hw y TL hydig hTL] at h2
      exact absurd h2 (by simp)

theorem noVDigit_bare (y TL : List Char)
    (hydig : ∀ c ∈ y, c.isDigit = true)
    (hTLv : noVDigit TL = true)
    (hTLhead : ∀ b, TL.head? = some b → b.isDigit = false) :
    noVDigit (y ++ ')' :: TL) = true := by
  have h1 : noVDigit (')' :: TL) = true :=
    noVDigit_cons ')' TL hTLv (fun b hb => by rw [hTLhead b hb]; simp)
  apply noVDigit_append y (')' :: TL) (digits_noV y hydig) h1
  intro a b ha hb
  have hbp : ')' = b := by simpa using hb
  subst hbp
  rw [show (')').isDigit = false from by decide]
  simp

theorem noVDigit_paren (y TL : List Char)
    (hydig : ∀ c ∈ y, c.isDigit = true)
    (hTLv : noVDigit TL = true)
    (hTLhead : ∀ b, TL.head? = some b → b.isDigit = false) :
    noVDigit ('(' :: (y ++ ')' :: TL)) = true := by
  apply noVDigit_cons
  · exact noVDigit_bare y TL hydig hTLv hTLhead
  · intro b hb
    rw [show lcEq 'v' '(' = false from by decide]
    rfl

theorem noVDigit_formula (S1 y TL : List Char)
    (hS1v : noVDigit S1 = true)
    (hydig : ∀ c ∈ y, c.isDigit = true)
    (hTLv : noVDigit TL = true)
    (hTLhead : ∀ b, TL.head? = some b → b.isDigit = false) :
    noVDigit (S1 ++ ' ' :: '(' :: (y ++ ')' :: TL)) = true := by
  have h4 : noVDigit (' ' :: '(' :: (y ++ ')' :: TL)) = true := by
    apply noVDigit_cons
    · exact noVDigit_paren y TL hydig hTLv hTLhead
    · intro b hb
      have hbp : '(' = b := by simpa using hb
      subst hbp
      rw [show ('(').isDigit = false from by decide]
      simp
  apply noVDigit_append S1 _ hS1v h4
  intro a b ha hb
  have hbp : ' ' = b := by simpa using hb
  subst hbp
  rw [show (' ').isDigit = false from by decide]
  simp

theorem tidy_facts (l : List Char) (h : tidy l = true) :
    (∀ c ∈ l, isReWs c = true → c = ' ')
    ∧ noAdjWs l = true
    ∧ (∀ c, l.head? = some c → isReWs c = false)
    ∧ (∀ c, l.getLast? = some c → isReWs c = false) := by
  unfold tidy at h
  simp only [Bool.and_eq_true] at h
  obtain ⟨⟨⟨hW, hA⟩, hH⟩, hL⟩ := h
  refine ⟨?_, hA, ?_, ?_⟩
  · intro c hc hw
    have hb := List.all_eq_true.mp hW c hc
    simp only [Bool.or_eq_true, Bool.not_eq_true'] at hb
    rcases hb with hb | hb
    · rw [hw] at hb
      exact absurd hb (by simp)
    · exact of_decide_eq_true hb
  · intro c hc
    rw [hc] at hH
    simpa using hH
  · intro c hc
    rw [hc] at hL
    simpa using hL

theorem alphas_noV : ∀ (l : List Char), (∀ c ∈ l, c.isAlpha = true) →
    noVDigit l = true
  | [], _ => rfl
  | [_], _ => rfl
  | a :: b :: r, h => by
    simp only [noVDigit, Bool.and_eq_true]
    refine ⟨?_, alphas_noV (b :: r) (fun c hc => h c (List.mem_cons_of_mem a hc))⟩
    rw [alpha_not_digit b (h b (by simp))]
    simp

/-- Re-applying clean_filename to a rebuilt string with a nonempty title
    part returns it unchanged: the stages fix it, and the search matches
    at the title boundary reproducing the same groups. -/
theorem idem_formula_main (uw : Char → Bool) (S1 y TL : List Char)
    (lg : Option (List Char))
    (hS1ne : S1 ≠ [])
    (hS1headW : ∀ c, S1.head? = some c → isAsciiWord c = true)
    (hS1lastws : ∀ c, S1.getLast? = some c → isReWs c = false)
    (hS1ascii : ∀ c ∈ S1, c.val ≤ 127)
    (hS1und : ∀ c ∈ S1, ¬(c = '_'))
    (hS1br : ∀ c ∈ S1, ¬(c = '['))
    (hS1sp : ∀ c ∈ S1, isReWs c = true → c = ' ')
    (hS1tags : ∀ w' ∈ tagLitStrings, occursCI w'.data S1 = false)
    (hS1v : noVDigit S1 = true)
    (hS1run : has4DigitRun S1 = false)
    (hydig : ∀ c ∈ y, c.isDigit = true)
    (hTLmem : ∀ c ∈ TL, c = ' ' ∨ c.isAlpha = true)
    (hTLtags : ∀ w' ∈ tagLitStrings, occursCI w'.data TL = false)
    (hTLv : noVDigit TL = true)
    (hTLheaddig : ∀ b, TL.head? = some b → b.isDigit = false)
    (htidy : tidy (S1 ++ ' ' :: '(' :: (y ++ ')' :: TL)) = true)
    (hsucc : parseYearLang (' ' :: '(' :: (y ++ ')' :: TL)) = some (y, lg))
    (hreb : rebuildName S1 y lg = S1 ++ ' ' :: '(' :: (y ++ ')' :: TL)) :
    clean_filenameL uw (S1 ++ ' ' :: '(' :: (y ++ ')' :: TL))
      = S1 ++ ' ' :: '(' :: (y ++ ')' :: TL) := by
  obtain ⟨hsp2, hadj2, hheadws2, hlastws2⟩ := tidy_facts _ htidy
  have hmem : ∀ c ∈ S1 ++ ' ' :: '(' :: (y ++ ')' :: TL),
      c ∈ S1 ∨ c = ' ' ∨ c = '(' ∨ c = ')' ∨ c.isDigit = true ∨ c.isAlpha = true := by
    intro c hc
    rcases List.mem_append.mp hc with h | h
    · exact Or.inl h
    · rcases List.mem_cons.mp h with h | h
      · exact Or.inr (Or.inl h)
      · rcases List.mem_cons.mp h with h | h
        · exact Or.inr (Or.inr (Or.inl h))
        · rcases List.mem_append.mp h with h | h
          · exact Or.inr (Or.inr (Or.inr (Or.inr (Or.inl (hydig c h)))))
          · rcases List.mem_cons.mp h with h | h
            · exact Or.inr (Or.inr (Or.inr (Or.inl h)))
            · rcases hTLmem c h with h | h
              · exact Or.inr (Or.inl h)
              · exact Or.inr (Or.inr (Or.inr (Or.inr (Or.inr h))))
  have hbr2 : '[' ∉ S1 ++ ' ' :: '(' :: (y ++ ')' :: TL) := by
    intro hm
    rcases hmem '[' hm with h | h | h | h | h | h
    · exact hS1br '[' h rfl
    · exact absurd h (by decide)
    · exact absurd h (by decide)
    · exact absurd h (by decide)
    · exact absurd h (by decide)
    · exact absurd h (by decide)
  have hascii2 : ∀ c ∈ S1 ++ ' ' :: '(' :: (y ++ ')' :: TL), c.val ≤ 127 := by
    intro c hc
    rcases hmem c hc with h | h | h | h | h | h
    · exact hS1ascii c h
    · subst h; decide
    · subst h; decide
    · subst h; decide
    · exact digit_ascii c h
    · exact alpha_ascii c h
  have hund2 : ∀ c ∈ S1 ++ ' ' :: '(' :: (y ++ ')' :: TL), ¬(c = '_') := by
    intro c hc
    rcases hmem c hc with h | h | h | h | h | h
    · exact hS1und c h
    · subst h; decide
    · subst h; decide
    · subst h; decide
    · exact digit_not_und c h
    · exact alpha_not_und c h
  have hhead2 : ∀ c, (S1 ++ ' ' :: '(' :: (y ++ ')' :: TL)).head? = some c →
      inLeadClass uw c = false := by
    intro c hc
    rw [List.head?_append_of_ne_nil S1 hS1ne] at hc
    have hcm : c ∈ S1 := List.mem_of_mem_head? (by simp [hc])
    exact word_not_lead uw c (hS1headW c hc) (hS1und c hcm) (hS1ascii c hcm)
  have htags2 : ∀ w' ∈ tagLitStrings,
      occursCI w'.data (S1 ++ ' ' :: '(' :: (y ++ ')' :: TL)) = false :=
    fun w' hw' =>
      tags_formula_occurs w' hw' S1 y TL (hS1tags w' hw') hydig (hTLtags w' hw')
  have hv2 : noVDigit (S1 ++ ' ' :: '(' :: (y ++ ')' :: TL)) = true :=
    noVDigit_formula S1 y TL hS1v hydig hTLv hTLheaddig
  have hfix : stage5 uw (S1 ++ ' ' :: '(' :: (y ++ ')' :: TL))
      = S1 ++ ' ' :: '(' :: (y ++ ')' :: TL) :=
    stage5_fix uw _ hbr2 hascii2 hund2 hsp2 hadj2 hhead2 hheadws2 hlastws2 htags2 hv2
  have hnlS1 : ∀ c ∈ S1, ¬(c = Char.ofNat 10) := by
    intro c hc he
    subst he
    have hsp10 := hS1sp _ hc (by decide)
    exact absurd hsp10 (by decide)
  have hfail : ∀ i, i < S1.length →
      parseYearLang (S1.drop i ++ ' ' :: ('(' :: (y ++ ')' :: TL))) = none := by
    intro i hi
    apply pyl_none_shape S1 _ i hi hS1run
    intro c hc
    rw [wsU_eq_reWs c (hS1und c (List.mem_of_mem_getLast? (by simp [hc])))]
    exact hS1lastws c hc
  have hext : extract (S1 ++ ' ' :: '(' :: (y ++ ')' :: TL)) = some (S1, y, lg) :=
    extract_of_first S1 (' ' :: '(' :: (y ++ ')' :: TL)) y lg hfail hnlS1 hsucc
  unfold clean_filenameL
  rw [hfix, hext]
  exact hreb

/-- Re-applying clean_filename to a rebuilt string whose title collapsed
    to nothing: the leading-strip removes the opening parenthesis, the
    search then matches at position zero with an empty title, and the
    rebuild restores the parenthesis. -/
theorem idem_formula_bare (uw : Char → Bool) (y TL : List Char)
    (lg : Option (List Char))
    (hylen : y.length = 4)
    (hydig : ∀ c ∈ y, c.isDigit = true)
    (hTLmem : ∀ c ∈ TL, c = ' ' ∨ c.isAlpha = true)
    (hTLtags : ∀ w' ∈ tagLitStrings, occursCI w'.data TL = false)
    (hTLv : noVDigit TL = true)
    (hTLheaddig : ∀ b, TL.head? = some b → b.isDigit = false)
    (htidy : tidy ('(' :: (y ++ ')' :: TL)) = true)
    (hsucc : parseYearLang (y ++ ')' :: TL) = some (y, lg))
    (hreb : rebuildName [] y lg = '(' :: (y ++ ')' :: TL)) :
    clean_filenameL uw ('(' :: (y ++ ')' :: TL)) = '(' :: (y ++ ')' :: TL) := by
  obtain ⟨hsp2, hadj2, _, hlastws2⟩ := tidy_facts _ htidy
  have hu2sp : ∀ c ∈ y ++ ')' :: TL, isReWs c = true → c = ' ' :=
    fun c hc => hsp2 c (List.mem_cons_of_mem '(' hc)
  have hu2adj : noAdjWs (y ++ ')' :: TL) = true := noAdjWs_tail '(' _ hadj2
  obtain ⟨a0, y', hy0⟩ : ∃ a0 y', y = a0 :: y' := by
    match y, hylen with
    | a :: t, _ => exact ⟨a, t, rfl⟩
  have ha0 : a0.isDigit = true := hydig a0 (by rw [hy0]; simp)
  have hu2head : ∀ c, (y ++ ')' :: TL).head? = some c → c = a0 := by
    intro c hc
    rw [hy0] at hc
    simp only [List.cons_append, List.head?_cons] at hc
    exact (Option.some_inj.mp hc).symm
  have hu2headws : ∀ c, (y ++ ')' :: TL).head? = some c → isReWs c = false := by
    intro c hc
    rw [hu2head c hc]
    exact digit_not_reWs a0 ha0
  have hu2ne : y ++ ')' :: TL ≠ [] := by rw [hy0]; simp
  have hu2last : (y ++ ')' :: TL).getLast? = ('(' :: (y ++ ')' :: TL)).getLast? := by
    show _ = (['('] ++ (y ++ ')' :: TL)).getLast?
    rw [List.getLast?_append_of_ne_nil _ hu2ne]
  have hu2lastws : ∀ c, (y ++ ')' :: TL).getLast? = some c → isReWs c = false := by
    intro c hc
    apply hlastws2
    rw [← hu2last]
    exact hc
  have hmem : ∀ c ∈ y ++ ')' :: TL,
      c = ')' ∨ c = ' ' ∨ c.isDigit = true ∨ c.isAlpha = true := by
    intro c hc
    rcases List.mem_append.mp hc with h | h
    · exact Or.inr (Or.inr (Or.inl (hydig c h)))
    · rcases List.mem_cons.mp h with h | h
      · exact Or.inl h
      · rcases hTLmem c h with h | h
        · exact Or.inr (Or.inl h)
        · exact Or.inr (Or.inr (Or.inr h))
  have h2 : stripLead uw ('(' :: (y ++ ')' :: TL)) = y ++ ')' :: TL := by
    unfold stripLead
    rw [dropWhile_cons_pos _ _ _ (open_paren_lead uw)]
    apply dropWhile_head_false
    intro c hc
    rw [hu2head c hc]
    exact word_not_lead uw a0 (digit_word a0 ha0) (digit_not_und a0 ha0)
      (digit_ascii a0 ha0)
  have h3 : stripNonAscii (y ++ ')' :: TL) = y ++ ')' :: TL := by
    apply stripNonAscii_fix
    intro c hc
    rcases hmem c hc with h | h | h | h
    · subst h; decide
    · subst h; decide
    · exact digit_ascii c h
    · exact alpha_ascii c h
  have hund2 : ∀ c ∈ y ++ ')' :: TL, ¬(c = '_') := by
    intro c hc
    rcases hmem c hc with h | h | h | h
    · subst h; decide
    · subst h; decide
    · exact digit_not_und c h
    · exact alpha_not_und c h
  have h4c : collapseWsU (y ++ ')' :: TL) = y ++ ')' :: TL := by
    unfold collapseWsU
    rw [cwGo_congr isWsU isReWs false _ (fun c hc => wsU_eq_reWs c (hund2 c hc))]
    exact cwGo_fix _ false hu2sp hu2adj (by intro h; exact absurd h (by simp))
  have hstripw : stripWsBoth (y ++ ')' :: TL) = y ++ ')' :: TL := by
    unfold stripWsBoth
    apply stripEnds_eq_self
    · intro c hc
      rw [isPyStripWs_eq]
      exact hu2headws c hc
    · intro c hc
      rw [isPyStripWs_eq]
      exact hu2lastws c hc
  have h5 : removeTags (y ++ ')' :: TL) = y ++ ')' :: TL := by
    apply removeTags_fix
    · intro w' hw'
      exact tags_bare_occurs w' hw' y TL hydig (hTLtags w' hw')
    · exact noVDigit_bare y TL hydig hTLv hTLheaddig
  have hbr1 : '[' ∉ ('(' :: (y ++ ')' :: TL)) := by
    intro hm
    rcases List.mem_cons.mp hm with h | h
    · exact absurd h (by decide)
    · rcases hmem '[' h with h | h | h | h
      · exact absurd h (by decide)
      · exact absurd h (by decide)
      · exact absurd h (by decide)
      · exact absurd h (by decide)
  have hfix : stage5 uw ('(' :: (y ++ ')' :: TL)) = y ++ ')' :: TL := by
    show stripWsBoth (removeTags (stripWsBoth (collapseWsU (stripNonAscii
      (stripLead uw (rbGo none ('(' :: (y ++ ')' :: TL)))))))) = _
    rw [rbGo_no_open _ hbr1, h2, h3, h4c, hstripw, h5, hstripw]
  have hext : extract (y ++ ')' :: TL) = some ([], y, lg) := by
    have hof := extract_of_first [] (y ++ ')' :: TL) y lg
      (by intro i hi; simp at hi) (by intro c hc; simp at hc) hsucc
    simpa using hof
  unfold clean_filenameL
  rw [hfix, hext]
  exact hreb

/-- Idempotence of the full cleanup on already-clean titles, at the
    character-list level. -/
theorem clean_idemL (uw : Char → Bool) (l : List Char)
    (h : cleanTitle l = true) :
    clean_filenameL uw (clean_filenameL uw l) = clean_filenameL uw l := by
  obtain ⟨hascii, hbrk, hund, htag, hv, hheadW, hsp, hadj, hlastws⟩ :=
    cleanTitle_facts l h
  have hbr : '[' ∉ l := fun hm => (hbrk '[' hm).1 rfl
  have hheadmem : ∀ c, l.head? = some c → c ∈ l :=
    fun c hc => List.mem_of_mem_head? (by simp [hc])
  have hheadws : ∀ c, l.head? = some c → isReWs c = false :=
    fun c hc => word_not_ws c (hheadW c hc) (hund c (hheadmem c hc))
  have hheadsep : ∀ c, l.head? = some c → isSep c = false :=
    fun c hc => word_not_sep c (hheadW c hc) (hund c (hheadmem c hc))
  have hheadlead : ∀ c, l.head? = some c → inLeadClass uw c = false :=
    fun c hc => word_not_lead uw c (hheadW c hc) (hund c (hheadmem c hc))
      (hascii c (hheadmem c hc))
  have hfixl : stage5 uw l = l :=
    stage5_fix uw l hbr hascii hund hsp hadj hheadlead hheadws hlastws htag hv
  have hnl : Char.ofNat 10 ∉ l := by
    intro hm
    have h10 := hsp _ hm (by decide)
    exact absurd h10 (by decide)
  rcases hx : extract l with _ | ⟨t, y, lg⟩
  · have hres : clean_filenameL uw l = stripSeps l := by
      unfold clean_filenameL
      rw [hfixl, hx]
    rw [hres]
    by_cases hlnil : l = []
    · subst hlnil
      rfl
    · obtain ⟨h0, hh0⟩ := exists_head?_of_ne_nil l hlnil
      have hh0sep : isSep h0 = false := hheadsep h0 hh0
      obtain ⟨K, hK0⟩ := stripEnds_take_of_head isSep l hheadsep
      have hK : stripSeps l = l.take K := hK0
      have hr1head : (stripSeps l).head? = some h0 :=
        stripEnds_head_eq isSep l h0 hh0 hh0sep
      have hmemr : ∀ c ∈ stripSeps l, c ∈ l := fun c hc => mem_stripSeps l c hc
      have hascii' : ∀ c ∈ stripSeps l, c.val ≤ 127 :=
        fun c hc => hascii c (hmemr c hc)
      have hund' : ∀ c ∈ stripSeps l, ¬(c = '_') :=
        fun c hc => hund c (hmemr c hc)
      have hbr' : '[' ∉ stripSeps l := fun hm => hbr (hmemr _ hm)
      have hsp' : ∀ c ∈ stripSeps l, isReWs c = true → c = ' ' :=
        fun c hc => hsp c (hmemr c hc)
      have hadj' : noAdjWs (stripSeps l) = true := by
        rw [hK]
        exact noAdjWs_take l K hadj
      have hv' : noVDigit (stripSeps l) = true := by
        rw [hK]
        exact noVDigit_take l K hv
      have htag' : ∀ w ∈ tagLitStrings, occursCI w.data (stripSeps l) = false := by
        intro w hw
        rw [hK]
        cases hr : occursCI w.data (l.take K)
        · rfl
        · exfalso
          have hocc := occursCI_take w.data l K hr
          rw [htag w hw] at hocc
          exact absurd hocc (by simp)
      have hheadW' : ∀ c, (stripSeps l).head? = some c → isAsciiWord c = true := by
        intro c hc
        rw [hr1head] at hc
        have hch : c = h0 := (Option.some_inj.mp hc).symm
        rw [hch]
        exact hheadW h0 hh0
      have hheadws' : ∀ c, (stripSeps l).head? = some c → isReWs c = false :=
        fun c hc => word_not_ws c (hheadW' c hc)
          (hund' c (List.mem_of_mem_head? (by simp [hc])))
      have hheadsep' : ∀ c, (stripSeps l).head? = some c → isSep c = false :=
        fun c hc => word_not_sep c (hheadW' c hc)
          (hund' c (List.mem_of_mem_head? (by simp [hc])))
      have hheadlead' : ∀ c, (stripSeps l).head? = some c →
          inLeadClass uw c = false :=
        fun c hc => word_not_lead uw c (hheadW' c hc)
          (hund' c (List.mem_of_mem_head? (by simp [hc])))
          (hascii' c (List.mem_of_mem_head? (by simp [hc])))
      have hlastsep' : ∀ c, (stripSeps l).getLast? = some c → isSep c = false :=
        fun c hc => stripEnds_last_not isSep l c hc
      have hlastws' : ∀ c, (stripSeps l).getLast? = some c → isReWs c = false := by
        intro c hc
        cases hw' : isReWs c
        · rfl
        · exfalso
          have hcm := hmemr c (List.mem_of_mem_getLast? (by simp [hc]))
          have hc' := hsp c hcm hw'
          have hsep := hlastsep' c hc
          rw [hc'] at hsep
          exact absurd hsep (by decide)
      have hfix' : stage5 uw (stripSeps l) = stripSeps l :=
        stage5_fix uw _ hbr' hascii' hund' hsp' hadj' hheadlead' hheadws'
          hlastws' htag' hv'
      have hnl' : Char.ofNat 10 ∉ stripSeps l := fun hm => hnl (hmemr _ hm)
      have hrun : has4DigitRun l = false := (extract_none_iff l hnl).mp hx
      have hrun' : has4DigitRun (stripSeps l) = false := by
        rw [hK]
        cases hr : has4DigitRun (l.take K)
        · rfl
        · exfalso
          have h2 := has4_take l K hr
          rw [hrun] at h2
          exact absurd h2 (by simp)
      have hx' : extract (stripSeps l) = none := (extract_none_iff _ hnl').mpr hrun'
      unfold clean_filenameL
      rw [hfix', hx']
      unfold stripSeps
      exact stripEnds_eq_self _ _ hheadsep' hlastsep'
  · obtain ⟨⟨hylen, hydig⟩, hlgf⟩ := extractAux_facts l [] t y lg hx
    obtain ⟨a, m, he, ht, hm, hfail⟩ := extractAux_min l [] t y lg hx
    have hta : t = a := by rw [ht]; rfl
    subst hta
    have htake : l.take t.length = t := by
      rw [he]
      exact List.take_left ..
    have hmemt : ∀ c ∈ t, c ∈ l := by
      intro c hc
      rw [he]
      exact List.mem_append.mpr (Or.inl hc)
    have htrun : has4DigitRun t = false := extract_t_no_run l t y lg hx
    have hres : clean_filenameL uw l = rebuildName t y lg := by
      unfold clean_filenameL
      rw [hfixl, hx]
    rw [hres]
    by_cases htnil : t = []
    · subst htnil
      rcases hlg : lg with _ | lt
      · subst hlg
        have hreb : rebuildName [] y none = '(' :: (y ++ [')']) := by
          unfold rebuildName
          rw [show stripSeps ([] : List Char) = ([] : List Char) from rfl]
          show collapseWs (stripWsBoth ([] ++ ' ' :: '(' :: (y ++ [')', ' ']))) = _
          rw [rebuildName_none_eq [] y (by intro c hc; simp at hc)
            (by intro c hc; simp at hc) hydig]
          rw [if_pos (by decide)]
          simp
        rw [hreb]
        have hti := formula_none_tidy [] y (by intro c hc; simp at hc)
          (by intro c hc; simp at hc) hydig
        rw [if_pos (by decide)] at hti
        rw [List.nil_append] at hti
        exact idem_formula_bare uw y [] none hylen hydig
          (by intro c hc; simp at hc)
          (fun w' hw' => tags_nil_occurs w' hw')
          rfl
          (by intro b hb; simp at hb)
          hti
          (pyl_success_bare_none y hylen hydig)
          hreb
      · subst hlg
        obtain ⟨w, hw, hltlen, hst, hltalpha⟩ := hlgf lt rfl
        have hltne : lt ≠ [] := by
          intro hcon
          have hpos := langWords_len_pos w hw
          rw [hcon] at hltlen
          simp only [List.length_nil] at hltlen
          omega
        have hmap : lt.map Char.toLower = w.data.map Char.toLower :=
          startsCI_full_map w.data lt hltlen hst
        have hreb : rebuildName [] y (some lt)
            = '(' :: (y ++ ')' :: ' ' :: lt) := by
          unfold rebuildName
          rw [show stripSeps ([] : List Char) = ([] : List Char) from rfl]
          show collapseWs (stripWsBoth ([] ++ ' ' :: '(' :: (y ++ ')' :: ' ' :: lt))) = _
          rw [rebuildName_lang_eq [] y lt (by intro c hc; simp at hc)
            (by intro c hc; simp at hc) hydig hltalpha hltne]
          rw [if_pos (by decide)]
          simp
        rw [hreb]
        have hti := formula_tidy [] y lt (by intro c hc; simp at hc)
          (by intro c hc; simp at hc) hydig hltalpha hltne
        rw [if_pos (by decide)] at hti
        rw [List.nil_append] at hti
        refine idem_formula_bare uw y (' ' :: lt) (some lt) hylen hydig
          ?_ ?_ ?_ ?_ hti
          (pyl_success_bare_some y lt w hylen hydig hw hltlen hst hltalpha)
          hreb
        · intro c hc
          rcases List.mem_cons.mp hc with h1 | h1
          · exact Or.inl h1
          · exact Or.inr (hltalpha c h1)
        · exact fun w' hw' => tags_langtail_occurs w' hw' lt w hw hmap
        · apply noVDigit_cons ' ' lt (alphas_noV lt hltalpha)
          intro b hb
          rw [alpha_not_digit b (hltalpha b (List.mem_of_mem_head? (by simp [hb])))]
          simp
        · intro b hb
          have hbp : ' ' = b := by simpa using hb
          subst hbp
          decide
    · obtain ⟨h0, hh0t⟩ := exists_head?_of_ne_nil t htnil
      have hh0l : l.head? = some h0 := by
        rw [he, List.head?_append_of_ne_nil t htnil]
        exact hh0t
      have hh0W : isAsciiWord h0 = true := hheadW h0 hh0l
      have hh0mem : h0 ∈ l := hheadmem h0 hh0l
      have hh0sep : isSep h0 = false := word_not_sep h0 hh0W (hund h0 hh0mem)
      have hS1ne : stripSeps t ≠ [] := stripEnds_ne_nil isSep t h0 hh0t hh0sep
      have hS1head : (stripSeps t).head? = some h0 :=
        stripEnds_head_eq isSep t h0 hh0t hh0sep
      have hmemS : ∀ c ∈ stripSeps t, c ∈ l :=
        fun c hc => hmemt c (mem_stripSeps t c hc)
      obtain ⟨K, hK0⟩ := stripEnds_take_of_head isSep t (fun c hc => by
        rw [hh0t] at hc
        have hch : c = h0 := (Option.some_inj.mp hc).symm
        subst hch
        exact hh0sep)
      have hK : stripSeps t = t.take K := hK0
      have htadj : noAdjWs t = true := by
        rw [← htake]
        exact noAdjWs_take l _ hadj
      have htv : noVDigit t = true := by
        rw [← htake]
        exact noVDigit_take l _ hv
      have httag : ∀ w' ∈ tagLitStrings, occursCI w'.data t = false := by
        intro w' hw'
        cases hr : occursCI w'.data t
        · rfl
        · exfalso
          have h2 : occursCI w'.data l = true := by
            rw [he]
            exact occursCI_ext w'.data t m hr
          rw [htag w' hw'] at h2
          exact absurd h2 (by simp)
      have hS1adj : noAdjWs (stripSeps t) = true := by
        rw [hK]
        exact noAdjWs_take t K htadj
      have hS1v : noVDigit (stripSeps t) = true := by
        rw [hK]
        exact noVDigit_take t K htv
      have hS1tags : ∀ w' ∈ tagLitStrings,
          occursCI w'.data (stripSeps t) = false := by
        intro w' hw'
        rw [hK]
        cases hr : occursCI w'.data (t.take K)
        · rfl
        · exfalso
          have h2 := occursCI_take w'.data t K hr
          rw [httag w' hw'] at h2
          exact absurd h2 (by simp)
      have hS1run : has4DigitRun (stripSeps t) = false := by
        rw [hK]
        cases hr : has4DigitRun (t.take K)
        · rfl
        · exfalso
          have h2 := has4_take t K hr
          rw [htrun] at h2
          exact absurd h2 (by simp)
      have hS1ascii : ∀ c ∈ stripSeps t, c.val ≤ 127 :=
        fun c hc => hascii c (hmemS c hc)
      have hS1und : ∀ c ∈ stripSeps t, ¬(c = '_') :=
        fun c hc => hund c (hmemS c hc)
      have hS1br : ∀ c ∈ stripSeps t, ¬(c = '[') :=
        fun c hc => (hbrk c (hmemS c hc)).1
      have hS1sp : ∀ c ∈ stripSeps t, isReWs c = true → c = ' ' :=
        fun c hc => hsp c (hmemS c hc)
      have hS1headW : ∀ c, (stripSeps t).head? = some c →
          isAsciiWord c = true := by
        intro c hc
        rw [hS1head] at hc
        have hch : c = h0 := (Option.some_inj.mp hc).symm
        rw [hch]
        exact hh0W
      have hS1headws : ∀ c, (stripSeps t).head? = some c → isReWs c = false :=
        fun c hc => word_not_ws c (hS1headW c hc)
          (hS1und c (List.mem_of_mem_head? (by simp [hc])))
      have hS1headsep : ∀ c, (stripSeps t).head? = some c → isSep c = false :=
        fun c hc => word_not_sep c (hS1headW c hc)
          (hS1und c (List.mem_of_mem_head? (by simp [hc])))
      have hS1lastsep : ∀ c, (stripSeps t).getLast? = some c → isSep c = false :=
        fun c hc => stripEnds_last_not isSep t c hc
      have hS1lastws : ∀ c, (stripSeps t).getLast? = some c →
          isReWs c = false := by
        intro c hc
        cases hw' : isReWs c
        · rfl
        · exfalso
          have hcm := hmemS c (List.mem_of_mem_getLast? (by simp [hc]))
          have hc' := hsp c hcm hw'
          have hsep := hS1lastsep c hc
          rw [hc'] at hsep
          exact absurd hsep (by decide)
      have hcolS : collapseWs (stripSeps t) = stripSeps t :=
        cwGo_fix (stripSeps t) false hS1sp hS1adj
          (by intro hcon; exact absurd hcon (by simp))
      have hssS : stripSeps (stripSeps t) = stripSeps t := by
        unfold stripSeps
        exact stripEnds_eq_self _ _ hS1headsep hS1lastsep
      rcases hlg : lg with _ | lt
      · subst hlg
        have hrebt : rebuildName t y none
            = stripSeps t ++ ' ' :: '(' :: (y ++ [')']) := by
          unfold rebuildName
          show collapseWs (stripWsBoth (stripSeps t ++ ' ' :: '(' :: (y ++ [')', ' ']))) = _
          rw [rebuildName_none_eq (stripSeps t) y hS1headws hS1lastws hydig]
          rw [hcolS, if_neg (by rw [List.isEmpty_iff]; exact hS1ne)]
          simp
        have hreb : rebuildName (stripSeps t) y none
            = stripSeps t ++ ' ' :: '(' :: (y ++ [')']) := by
          unfold rebuildName
          rw [hssS]
          show collapseWs (stripWsBoth (stripSeps t ++ ' ' :: '(' :: (y ++ [')', ' ']))) = _
          rw [rebuildName_none_eq (stripSeps t) y hS1headws hS1lastws hydig]
          rw [hcolS, if_neg (by rw [List.isEmpty_iff]; exact hS1ne)]
          simp
        rw [hrebt]
        have hti := formula_none_tidy (stripSeps t) y hS1headws hS1lastws hydig
        rw [hcolS, if_neg (by rw [List.isEmpty_iff]; exact hS1ne)] at hti
        have htidy : tidy (stripSeps t ++ ' ' :: '(' :: (y ++ [')'])) = true := by
          have he2 : stripSeps t ++ [' '] ++ '(' :: (y ++ [')'])
              = stripSeps t ++ ' ' :: '(' :: (y ++ [')']) := by simp
          rw [← he2]
          exact hti
        exact idem_formula_main uw (stripSeps t) y [] none hS1ne hS1headW
          hS1lastws hS1ascii hS1und hS1br hS1sp hS1tags hS1v hS1run hydig
          (by intro c hc; simp at hc)
          (fun w' hw' => tags_nil_occurs w' hw')
          rfl
          (by intro b hb; simp at hb)
          htidy
          (pyl_success_none y hylen hydig)
          hreb
      · subst hlg
        obtain ⟨w, hw, hltlen, hst, hltalpha⟩ := hlgf lt rfl
        have hltne : lt ≠ [] := by
          intro hcon
          have hpos := langWords_len_pos w hw
          rw [hcon] at hltlen
          simp only [List.length_nil] at hltlen
          omega
        have hmap : lt.map Char.toLower = w.data.map Char.toLower :=
          startsCI_full_map w.data lt hltlen hst
        have hrebt : rebuildName t y (some lt)
            = stripSeps t ++ ' ' :: '(' :: (y ++ ')' :: ' ' :: lt) := by
          unfold rebuildName
          show collapseWs (stripWsBoth (stripSeps t ++ ' ' :: '(' :: (y ++ ')' :: ' ' :: lt))) = _
          rw [rebuildName_lang_eq (stripSeps t) y lt hS1headws hS1lastws hydig
            hltalpha hltne]
          rw [hcolS, if_neg (by rw [List.isEmpty_iff]; exact hS1ne)]
          simp
        have hreb : rebuildName (stripSeps t) y (some lt)
            = stripSeps t ++ ' ' :: '(' :: (y ++ ')' :: ' ' :: lt) := by
          unfold rebuildName
          rw [hssS]
          show collapseWs (stripWsBoth (stripSeps t ++ ' ' :: '(' :: (y ++ ')' :: ' ' :: lt))) = _
          rw [rebuildName_lang_eq (stripSeps t) y lt hS1headws hS1lastws hydig
            hltalpha hltne]
          rw [hcolS, if_neg (by rw [List.isEmpty_iff]; exact hS1ne)]
          simp
        rw [hrebt]
        have hti := formula_tidy (stripSeps t) y lt hS1headws hS1lastws hydig
          hltalpha hltne
        rw [hcolS, if_neg (by rw [List.isEmpty_iff]; exact hS1ne)] at hti
        have htidy : tidy (stripSeps t ++ ' ' :: '(' :: (y ++ ')' :: ' ' :: lt))
            = true := by
          have he2 : stripSeps t ++ [' '] ++ '(' :: (y ++ ')' :: ' ' :: lt)
              = stripSeps t ++ ' ' :: '(' :: (y ++ ')' :: ' ' :: lt) := by simp
          rw [← he2]
          exact hti
        refine idem_formula_main uw (stripSeps t) y (' ' :: lt) (some lt) hS1ne
          hS1headW hS1lastws hS1ascii hS1und hS1br hS1sp hS1tags hS1v hS1run
          hydig ?_ ?_ ?_ ?_ htidy
          (pyl_success_some y lt w hylen hydig hw hltlen hst hltalpha)
          hreb
        · intro c hc
          rcases List.mem_cons.mp hc with h1 | h1
          · exact Or.inl h1
          · exact Or.inr (hltalpha c h1)
        · exact fun w' hw' => tags_langtail_occurs w' hw' lt w hw hmap
        · apply noVDigit_cons ' ' lt (alphas_noV lt hltalpha)
          intro b hb
          rw [alpha_not_digit b (hltalpha b (List.mem_of_mem_head? (by simp [hb])))]
          simp
        · intro b hb
          have hbp : ' ' = b := by simpa using hb
          subst hbp
          decide

/-- Counterexample for C6: MovieHD2021 satisfies every stated
    precondition of the claim — the denylist pattern of line 116 finds
    nothing to remove (HD is followed by the word character 2, failing the
    required non-word follower), the string is pure ASCII, holds no
    square brackets, no underscores, no whitespace at all, and starts
    with a word character — yet clean_filename is not idempotent on it:
    the first pass yields MovieHD (2021), whose parenthesis now makes HD
    a removable tag, so the second pass yields Movie (2021). -/
theorem C6_counterexample :
    (removeTags (("MovieHD2021").data) = ("MovieHD2021").data
      ∧ asciiOnly (("MovieHD2021").data) = true
      ∧ (("MovieHD2021").data).all (fun c => !(c = '[') && !(c = ']')) = true
      ∧ (("MovieHD2021").data).all (fun c => !(c = '_')) = true
      ∧ (match (("MovieHD2021").data).head? with
         | some c => isAsciiWord c
         | none => true) = true
      ∧ wsIsSpaceOnly (("MovieHD2021").data) = true
      ∧ noAdjWs (("MovieHD2021").data) = true)
    ∧ clean_filename noUW "MovieHD2021" = "MovieHD (2021)"
    ∧ clean_filename noUW (clean_filename noUW "MovieHD2021")
        ≠ clean_filename noUW "MovieHD2021" := by
  refine ⟨⟨by decide, by decide, by decide, by decide, by decide,
    by decide, by decide⟩, by decide, by decide⟩

/-- C6 (amended): clean_filename is idempotent on already-clean titles,
    with "contains no denylisted tags" strengthened to "contains no
    denylisted tag as a case-insensitive substring, nor a v followed by a
    digit" (the cleanTitle predicate): for every such string — ASCII
    only, no square brackets, no underscores, a word character first,
    whitespace only as single interior plain spaces, trimmed — a second
    application of clean_filename returns the first application's result
    unchanged, for every classification of non-ASCII word characters.
    The strengthening is necessary: a tag substring that the pattern
    cannot match in the input can become matchable in the output, as the
    counterexample shows. -/
theorem C6_amended_idempotent (uw : Char → Bool) (s : String)
    (h : cleanTitle s.data = true) :
    clean_filename uw (clean_filename uw s) = clean_filename uw s := by
  have hL := clean_idemL uw s.data h
  have h1 : (clean_filename uw s).data = clean_filenameL uw s.data := rfl
  have h2 : clean_filename uw (clean_filename uw s)
      = ⟨clean_filenameL uw (clean_filename uw s).data⟩ := rfl
  rw [h2, h1, hL]
  rfl

/-- Witness for C6 at the clean title Nice Movie 2020 Hindi. -/
theorem C6_witness :
    cleanTitle (("Nice Movie 2020 Hindi").data) = true
    ∧ clean_filename noUW (clean_filename noUW "Nice Movie 2020 Hindi")
        = clean_filename noUW "Nice Movie 2020 Hindi" :=
  ⟨by decide, C6_amended_idempotent noUW "Nice Movie 2020 Hindi" (by decide)⟩

end TGBot
